import Mathlib

/-! # JuiceFS SQL lock manager (`pkg/meta/sql_lock.go`)

A shallow embedding of `dbMeta.Flock`, `dbMeta.Getlk` and `dbMeta.Setlk`.

* The relational store behind the xorm session is an explicit value `DB`
  (node rows, whole-file lock rows, byte-range lock rows); every session
  call is a pure function on it.
* `uint32`/`uint64` values are natural numbers, `int64` values are integers;
  the only conversion in the code, `int64(owner_)`, is `int64` below.
* A failing store is described by `Faults`; the default value is a store
  that never fails.
* The `for` loop of a blocking call is a fuel-bounded recursion; the answer
  of `ctx.Canceled()` at the k-th poll is `Context.canceled k`.
* Go map iteration order is a parameter of `Getlk`.
* The ceph store of `pkg/object/ceph.go` and the totals of `cmd/objbench.go`
  follow the lock manager; the pool of the cluster is an explicit value too.
-/

namespace JuiceFS

/-! ## Constants and plain data -/

abbrev Ino := Nat

abbrev Errno := Nat

def ENOENT : Errno := 2

def EINTR : Errno := 4

def EIO : Errno := 5

def EAGAIN : Errno := 11

/-- The lock types are the values of `syscall.F_RDLCK`, `syscall.F_WRLCK` and
`syscall.F_UNLCK` on Linux; the code only compares them. -/
def F_RDLCK : Nat := 0

def F_WRLCK : Nat := 1

def F_UNLCK : Nat := 2

/-- Go `int64(x)` for a `uint64` value `x`: two's-complement reinterpretation. -/
def int64 (x : Nat) : Int :=
  if x % 2 ^ 64 < 2 ^ 63 then ((x % 2 ^ 64 : Nat) : Int) else ((x % 2 ^ 64 : Nat) : Int) - 2 ^ 64

/-- A Go `error` value that is not nil: either a `syscall.Errno` or anything
else (a driver error, `fmt.Errorf`). -/
inductive GoError where
  | errno (e : Errno)
  | other (msg : String)
deriving DecidableEq, Repr

/-- Modelled from the spec: `errno` is defined outside `sql_lock.go`. Section 6 lists
the error codes of the lock operations as success, wouldBlock, interrupted,
notFound and storeFailure: nil is success (0), a `syscall.Errno` is returned
as it is and every other error is the store failure ` EIO`. -/
def errno : Option GoError → Errno
  | none => 0
  | some (GoError.errno e) => e
  | some (GoError.other _) => EIO

/-- Row of the whole-file lock table, keyed by (inode, sid, owner). -/
structure flock where
  inode : Ino
  sid : Nat
  owner : Int
  ltype : Char
deriving DecidableEq, Repr

/-- Row of the byte-range lock table, keyed by (inode, sid, owner); `records`
is the encoded record list (`[]byte`). -/
structure plock where
  inode : Ino
  sid : Nat
  owner : Int
  records : List Nat
deriving DecidableEq, Repr

/-- One byte-range record, `plockRecord{ltype, pid, start, end}`. -/
structure plockRecord where
  ltype : Nat
  pid : Nat
  start : Nat
  end_ : Nat
deriving DecidableEq, Repr

/-- The persisted rows the lock manager reads and writes. -/
structure DB where
  nodes : List Ino
  flocks : List flock
  plocks : List plock
deriving DecidableEq, Repr

/-- The part of `dbMeta` the lock manager uses: the session id of the mount. -/
structure dbMeta where
  sid : Nat
deriving DecidableEq, Repr

/-- The request context: `canceled k` is the answer of `ctx.Canceled()` at the
k-th poll of a blocking call. -/
structure Context where
  canceled : Nat → Bool

/-- Behaviour of the store during one transaction attempt: the error (if any)
of the node lookup, of reading lock rows, of an insert, update or delete;
whether an insert or update reports zero affected rows; and the rows whose
`rows.Scan` fails. Store errors are driver errors, never a `syscall.Errno`. -/
structure Faults where
  get : Option String := none
  find : Option String := none
  write : Option String := none
  zeroRows : Bool := false
  scan : plock → Bool := fun _ => false

/-- The three missing helpers on record lists: the codec (`loadLocks`,
`dumpLocks`) and the range algebra (`updateLocks`). They are defined outside
`sql_lock.go` and are taken as a parameter of `Getlk` and `Setlk`. -/
structure RecordOps where
  loadLocks : List Nat → List plockRecord
  dumpLocks : List plockRecord → List Nat
  updateLocks : List plockRecord → plockRecord → List plockRecord

/-! ## Go maps -/

/-- The key type of the local maps, `key{sid, owner}`. -/
abbrev key := Nat × Int

/-- A Go map as an association list without repeated keys. -/
abbrev GoMap (V : Type) := List (key × V)

/-- Go `m[k] = v`. -/
def mapSet {V : Type} (m : GoMap V) (k : key) (v : V) : GoMap V :=
  (k, v) :: m.filter (fun p => decide (p.1 ≠ k))

/-- Go `v, ok := m[k]`. -/
def mapGet {V : Type} (m : GoMap V) (k : key) : Option V :=
  (m.find? (fun p => decide (p.1 = k))).map Prod.snd

/-- Go `delete(m, k)`. -/
def mapDelete {V : Type} (m : GoMap V) (k : key) : GoMap V :=
  m.filter (fun p => decide (p.1 ≠ k))

/-! ## The session

The xorm session is the transactional store of section 6 of the spec: point
lookups, scans by filter, inserts, column-scoped updates and deletes on the
tables of `DB`. A filter bean selects the rows equal to it on the fields it
sets; both lock tables have the unique key (inode, sid, owner) of section 3. An
update or delete reports the number of rows its filter selects. -/

/-- Modelled from the spec: the xorm call `s.ForUpdate().Get(&node{Inode: inode})`,
section 6 `getForUpdate(row) -> (exists, error)`. -/
def getNode (f : Faults) (inode : Ino) (db : DB) : Bool × Option GoError :=
  match f.get with
  | some msg => (false, some (GoError.other msg))
  | none => (decide (inode ∈ db.nodes), none)

/-- Modelled from the spec: the xorm call `s.ForUpdate().Find(&fs, &flock{Inode: inode})`,
section 6 `findForUpdate(filter) -> (rows, error)`. -/
def findFlocks (f : Faults) (inode : Ino) (db : DB) : List flock × Option GoError :=
  match f.find with
  | some msg => ([], some (GoError.other msg))
  | none => (db.flocks.filter (fun r => decide (r.inode = inode)), none)

/-- The filter bean `flock{Inode: inode, Owner: owner, Sid: sid}`. -/
def sameFlock (inode : Ino) (sid : Nat) (owner : Int) (r : flock) : Bool :=
  decide (r.inode = inode ∧ r.sid = sid ∧ r.owner = owner)

/-- Modelled from the spec: the xorm call
`s.Delete(&flock{Inode: inode, Owner: owner, Sid: sid})`, section 6
`delete(filter) -> (affectedCount, error)`. -/
def deleteFlock (f : Faults) (inode : Ino) (sid : Nat) (owner : Int) (db : DB) :
    Nat × Option GoError × DB :=
  match f.write with
  | some msg => (0, some (GoError.other msg), db)
  | none =>
    ((db.flocks.filter (sameFlock inode sid owner)).length, none,
      { db with flocks := db.flocks.filter (fun r => !sameFlock inode sid owner r) })

/-- Modelled from the spec: the xorm call
`s.Cols("Ltype").Update(&flock{Ltype: t}, &flock{Inode, Owner, Sid})`, section 6
`updateColumns(columns, newValues, filter) -> (affectedCount, error)`. -/
def updateFlockLtype (f : Faults) (t : Char) (inode : Ino) (sid : Nat) (owner : Int) (db : DB) :
    Nat × Option GoError × DB :=
  match f.write with
  | some msg => (0, some (GoError.other msg), db)
  | none =>
    if f.zeroRows then (0, none, db)
    else
      ((db.flocks.filter (sameFlock inode sid owner)).length, none,
        { db with
          flocks := db.flocks.map
            (fun r => if sameFlock inode sid owner r then { r with ltype := t } else r) })

/-- Modelled from the spec: the xorm call `s.InsertOne(&row)` on the whole-file
table, section 6 `insertOne(row)`; a second row with the same key is refused
(section 3: at most one row per (inode, sid, owner)). -/
def insertOneFlock (f : Faults) (row : flock) (db : DB) : Nat × Option GoError × DB :=
  match f.write with
  | some msg => (0, some (GoError.other msg), db)
  | none =>
    if f.zeroRows then (0, none, db)
    else if db.flocks.any (sameFlock row.inode row.sid row.owner) then
      (0, some (GoError.other "duplicate key"), db)
    else (1, none, { db with flocks := db.flocks ++ [row] })

/-- Modelled from the spec: `mustInsert` is defined outside `sql_lock.go`. Section 4.4
says of a read request that passes the conflict check: "upsert caller's row as
read". The row with the key of `row` is replaced by `row`, or `row` is added
when there is none. Section 4.4 also makes a store error, and an insert that
affected zero rows, an error of the attempt. -/
def mustInsert (f : Faults) (row : flock) (db : DB) : Option GoError × DB :=
  match f.write with
  | some msg => (some (GoError.other msg), db)
  | none =>
    if f.zeroRows then (some (GoError.other "1 records not inserted"), db)
    else if db.flocks.any (sameFlock row.inode row.sid row.owner) then
      (none, { db with
        flocks := db.flocks.map
          (fun r => if sameFlock row.inode row.sid row.owner r then row else r) })
    else (none, { db with flocks := db.flocks ++ [row] })

/-- Modelled from the spec: `m.txn` is defined outside `sql_lock.go`. Section 6:
`runInTransaction(fn)` executes `fn` atomically; section 7: each attempt is
all-or-nothing. The changes of `fn` are kept when it returns nil and dropped
when it returns an error. -/
def txn (fn : DB → Option GoError × DB) (db : DB) : Option GoError × DB :=
  match fn db with
  | (none, db1) => (none, db1)
  | (some err, _) => (some err, db)

/-- The end of both lock transactions (lines 81-84 and 220-223), for the
affected-row count, error and store of the insert or update before it:
`if err == nil && n == 0 { err = fmt.Errorf("insert/update failed") }; return err`. -/
def checkAffected (r : Nat × Option GoError × DB) : Option GoError × DB :=
  if r.2.1 = none ∧ r.1 = 0 then (some (GoError.other "insert/update failed"), r.2.2)
  else (r.2.1, r.2.2)

/-! ## Flock -/

/-- The local map of `Flock`: `for _, l := range fs { locks[key{l.Sid, l.Owner}] = l }`. -/
def flockMap (fs : List flock) : GoMap flock :=
  fs.foldl (fun locks l => mapSet locks (l.sid, l.owner) l) []

/-- The transaction body of the retry loop of `Flock` (lines 40-85). -/
def flockAttempt (m : dbMeta) (f : Faults) (inode : Ino) (owner : Int) (ltype : Nat)
    (db : DB) : Option GoError × DB :=
  match getNode f inode db with
  | (_, some err) => (some err, db)
  | (false, none) => (some (GoError.errno ENOENT), db)
  | (true, none) =>
    match findFlocks f inode db with
    | (_, some err) => (some err, db)
    | (fs, none) =>
      let locks := flockMap fs
      if ltype = F_RDLCK then
        if locks.any (fun p => decide (p.2.ltype = 'W')) then (some (GoError.errno EAGAIN), db)
        else mustInsert f { inode := inode, owner := owner, ltype := 'R', sid := m.sid } db
      else
        let me : key := (m.sid, owner)
        let ok := (mapGet locks me).isSome
        let locks := mapDelete locks me
        if locks.length > 0 then (some (GoError.errno EAGAIN), db)
        else
          checkAffected
            (if ok then updateFlockLtype f 'W' inode m.sid owner db
            else insertOneFlock f { inode := inode, owner := owner, ltype := 'W', sid := m.sid } db)

/-- The retry loop of `Flock` (lines 39-99); `k` counts the attempts made so far. -/
def flockLoop (m : dbMeta) (store : Nat → Faults) (ctx : Context) (inode : Ino) (owner : Int)
    (ltype : Nat) (block : Bool) : Nat → Nat → DB → Option (Errno × DB)
  | 0, _, _ => none
  | fuel + 1, k, db =>
    let r := txn (flockAttempt m (store k) inode owner ltype) db
    let err := errno r.1
    if !block || err != EAGAIN then some (err, r.2)
    else if ctx.canceled k then some (EINTR, r.2)
    else flockLoop m store ctx inode owner ltype block fuel (k + 1) r.2

/-- Go `dbMeta.Flock`. `none` means that the loop is still running when the fuel
is used up. -/
def Flock (m : dbMeta) (store : Nat → Faults) (ctx : Context) (inode : Ino) (owner_ : Nat)
    (ltype : Nat) (block : Bool) (fuel : Nat) (db : DB) : Option (Errno × DB) :=
  let owner := int64 owner_
  if ltype = F_UNLCK then
    let r := txn (fun s => let d := deleteFlock (store 0) inode m.sid owner s; (d.2.1, d.2.2)) db
    some (errno r.1, r.2)
  else flockLoop m store ctx inode owner ltype block fuel 0 db

/-! ## Getlk and Setlk -/

/-- The filter bean `plock{Inode: inode, Owner: owner, Sid: sid}`. -/
def samePlock (inode : Ino) (sid : Nat) (owner : Int) (r : plock) : Bool :=
  decide (r.inode = inode ∧ r.sid = sid ∧ r.owner = owner)

/-- Modelled from the spec: the xorm calls `m.db.Rows(&plock{Inode: inode})` and
`s.ForUpdate().Find(&ps, &plock{Inode: inode})`, section 6 `scanRows(filter)` and
`findForUpdate(filter)`. -/
def findPlocks (f : Faults) (inode : Ino) (db : DB) : List plock × Option GoError :=
  match f.find with
  | some msg => ([], some (GoError.other msg))
  | none => (db.plocks.filter (fun r => decide (r.inode = inode)), none)

/-- Modelled from the spec: the xorm call `s.ForUpdate().Get(&l)` with
`l = plock{Inode, Owner, Sid}`, section 6 `getForUpdate(row)`: the row found, if any. -/
def getPlock (f : Faults) (inode : Ino) (sid : Nat) (owner : Int) (db : DB) :
    Option plock × Option GoError :=
  match f.find with
  | some msg => (none, some (GoError.other msg))
  | none => (db.plocks.find? (samePlock inode sid owner), none)

/-- Modelled from the spec: the xorm call
`s.Delete(&plock{Inode: inode, Owner: owner, Sid: sid})`, section 6 `delete(filter)`. -/
def deletePlock (f : Faults) (inode : Ino) (sid : Nat) (owner : Int) (db : DB) :
    Nat × Option GoError × DB :=
  match f.write with
  | some msg => (0, some (GoError.other msg), db)
  | none =>
    ((db.plocks.filter (samePlock inode sid owner)).length, none,
      { db with plocks := db.plocks.filter (fun r => !samePlock inode sid owner r) })

/-- Modelled from the spec: the xorm call
`s.Cols("records").Update(plock{Records: records}, cond)`, section 6
`updateColumns(columns, newValues, filter)`. -/
def updatePlockRecords (f : Faults) (records : List Nat) (cond : plock → Bool) (db : DB) :
    Nat × Option GoError × DB :=
  match f.write with
  | some msg => (0, some (GoError.other msg), db)
  | none =>
    if f.zeroRows then (0, none, db)
    else
      ((db.plocks.filter cond).length, none,
        { db with
          plocks := db.plocks.map (fun r => if cond r then { r with records := records } else r) })

/-- Modelled from the spec: the xorm call `s.InsertOne(&row)` on the byte-range
table, section 6 `insertOne(row)`; a second row with the same key is refused
(section 3: one row per (inode, sid, owner)). -/
def insertOnePlock (f : Faults) (row : plock) (db : DB) : Nat × Option GoError × DB :=
  match f.write with
  | some msg => (0, some (GoError.other msg), db)
  | none =>
    if f.zeroRows then (0, none, db)
    else if db.plocks.any (samePlock row.inode row.sid row.owner) then
      (0, some (GoError.other "duplicate key"), db)
    else (1, none, { db with plocks := db.plocks ++ [row] })

/-- The test under `// find conflicted locks` (lines 133 and 207). -/
def conflicted (ltype start end_ : Nat) (l : plockRecord) : Bool :=
  (ltype == F_WRLCK || l.ltype == F_WRLCK) && decide (end_ ≥ l.start) && decide (start ≤ l.end_)

/-- The scan loop of `Getlk` (lines 121-126): rows whose scan fails and the rows
of the caller's own (sid, owner) are left out of the map. -/
def getlkMap (m : dbMeta) (f : Faults) (owner : Int) (rows : List plock) : GoMap (List Nat) :=
  rows.foldl (fun locks l =>
    if !f.scan l && !(decide (l.sid = m.sid) && decide (l.owner = owner)) then
      mapSet locks (l.sid, l.owner) l.records
    else locks) []

/-- The nested loops of `Getlk` (lines 129-145) over the map entries in the
order `entries`: the first conflicting record and the key it is held under. -/
def firstConflict (ops : RecordOps) (ltype start end_ : Nat) (entries : GoMap (List Nat)) :
    Option (key × plockRecord) :=
  entries.findSome? (fun p =>
    ((ops.loadLocks p.2).find? (conflicted ltype start end_)).map (fun l => (p.1, l)))

/-- Go `dbMeta.Getlk`. The result is the error code and the final values of
`*ltype`, `*start`, `*end`, `*pid`; `order` is the order in which `range`
visits the entries of the map. -/
def Getlk (ops : RecordOps) (m : dbMeta) (f : Faults)
    (order : GoMap (List Nat) → GoMap (List Nat)) (inode : Ino) (owner_ : Nat)
    (ltype start end_ pid : Nat) (db : DB) : Errno × Nat × Nat × Nat × Nat :=
  if ltype = F_UNLCK then (0, ltype, 0, 0, 0)
  else
    let owner := int64 owner_
    match findPlocks f inode db with
    | (_, some err) => (errno (some err), ltype, start, end_, pid)
    | (rows, none) =>
      let locks := getlkMap m f owner rows
      match firstConflict ops ltype start end_ (order locks) with
      | some (k, l) => (0, l.ltype, l.start, l.end_, if k.1 = m.sid then l.pid else 0)
      | none => (0, F_UNLCK, 0, 0, 0)

/-- The local map of `Setlk`: `for _, l := range ps { locks[key{l.Sid, l.Owner}] = l.Records }`. -/
def plockMap (ps : List plock) : GoMap (List Nat) :=
  ps.foldl (fun locks l => mapSet locks (l.sid, l.owner) l.records) []

/-- The transaction body of the retry loop of `Setlk` (lines 158-224). -/
def setlkAttempt (ops : RecordOps) (m : dbMeta) (f : Faults) (inode : Ino) (owner : Int)
    (ltype start end_ pid : Nat) (db : DB) : Option GoError × DB :=
  let lock : plockRecord := { ltype := ltype, pid := pid, start := start, end_ := end_ }
  match getNode f inode db with
  | (_, some err) => (some err, db)
  | (false, none) => (some (GoError.errno ENOENT), db)
  | (true, none) =>
    if ltype = F_UNLCK then
      match getPlock f inode m.sid owner db with
      | (_, some err) => (some err, db)
      | (none, none) => (none, db)
      | (some l, none) =>
        let ls := ops.loadLocks l.records
        if ls.length = 0 then (none, db)
        else
          let ls := ops.updateLocks ls lock
          let r := if ls.length = 0 then deletePlock f inode m.sid owner db
            else updatePlockRecords f (ops.dumpLocks ls) (fun r => decide (r = l)) db
          (r.2.1, r.2.2)
    else
      match findPlocks f inode db with
      | (_, some err) => (some err, db)
      | (ps, none) =>
        let locks := plockMap ps
        let lkey : key := (m.sid, owner)
        if locks.any (fun p => decide (p.1 ≠ lkey) &&
            (ops.loadLocks p.2).any (conflicted ltype start end_)) then
          (some (GoError.errno EAGAIN), db)
        else
          let mine := (mapGet locks lkey).getD []
          let ls := ops.updateLocks (ops.loadLocks mine) lock
          checkAffected
            (if mine.length > 0 then
              updatePlockRecords f (ops.dumpLocks ls) (samePlock inode m.sid owner) db
            else insertOnePlock f
              { inode := inode, sid := m.sid, owner := owner, records := ops.dumpLocks ls } db)

/-- The retry loop of `Setlk` (lines 157-238); `k` counts the attempts made so far. -/
def setlkLoop (ops : RecordOps) (m : dbMeta) (store : Nat → Faults) (ctx : Context) (inode : Ino)
    (owner : Int) (block : Bool) (ltype start end_ pid : Nat) :
    Nat → Nat → DB → Option (Errno × DB)
  | 0, _, _ => none
  | fuel + 1, k, db =>
    let r := txn (setlkAttempt ops m (store k) inode owner ltype start end_ pid) db
    let err := errno r.1
    if !block || err != EAGAIN then some (err, r.2)
    else if ctx.canceled k then some (EINTR, r.2)
    else setlkLoop ops m store ctx inode owner block ltype start end_ pid fuel (k + 1) r.2

/-- Go `dbMeta.Setlk`. `none` means that the loop is still running when the fuel
is used up. -/
def Setlk (ops : RecordOps) (m : dbMeta) (store : Nat → Faults) (ctx : Context) (inode : Ino)
    (owner_ : Nat) (block : Bool) (ltype start end_ pid : Nat) (fuel : Nat) (db : DB) :
    Option (Errno × DB) :=
  setlkLoop ops m store ctx inode (int64 owner_) block ltype start end_ pid fuel 0 db

/-- The store that never fails. -/
def healthy : Nat → Faults := fun _ => {}

/-- A context that is never canceled. -/
def background : Context := { canceled := fun _ => false }

/-! ## A codec and a range algebra

Modelled from the spec: `loadLocks`, `dumpLocks` and `updateLocks` are defined
outside `sql_lock.go`. Section 4.1 asks for a fixed-width record format that keeps
type, pid, start and end exactly and reads an empty blob as zero records;
section 4.2 describes the algebra. -/

/-- Big-endian bytes of `x`, `width` of them. -/
def putBytes (width x : Nat) : List Nat :=
  (List.range width).map (fun i => x / 256 ^ (width - 1 - i) % 256)

/-- The number with the big-endian bytes `bs`. -/
def getBytes (bs : List Nat) : Nat :=
  bs.foldl (fun acc b => acc * 256 + b) 0

/-- Modelled from the spec: section 4.1 `encode`, 24 bytes per record (type and
pid in 4 bytes each, start and end in 8 bytes each). -/
def encodeRecords (ls : List plockRecord) : List Nat :=
  ls.flatMap (fun l => putBytes 4 l.ltype ++ putBytes 4 l.pid ++ putBytes 8 l.start ++ putBytes 8 l.end_)

/-- Reads `n` records of 24 bytes. -/
def decodeN : Nat → List Nat → List plockRecord
  | 0, _ => []
  | n + 1, d =>
    { ltype := getBytes (d.take 4), pid := getBytes ((d.drop 4).take 4),
      start := getBytes ((d.drop 8).take 8), end_ := getBytes ((d.drop 16).take 8) }
      :: decodeN n (d.drop 24)

/-- Modelled from the spec: section 4.1 `decode`; an empty blob holds zero records. -/
def decodeRecords (d : List Nat) : List plockRecord :=
  decodeN (d.length / 24) d

/-- Modelled from the spec: section 4.2, removal of [start, end] from a sorted
disjoint record list: a record inside the interval is dropped, a record partly
inside is trimmed, a record that straddles it is split in two. -/
def removeRange (start end_ : Nat) (cur : List plockRecord) : List plockRecord :=
  cur.flatMap (fun r =>
    if r.end_ < start ∨ end_ < r.start then [r]
    else
      (if r.start < start then [{ r with end_ := start - 1 }] else []) ++
      (if end_ < r.end_ then [{ r with start := end_ + 1 }] else []))

/-- Modelled from the spec: section 4.2 `apply`. An unlock removes [start, end];
a lock removes it, inserts the new record in its place and merges it with the
neighbour on each side when that neighbour has the same type and is contiguous.
A request for an empty range (end < start) leaves the list as it is. -/
def applyRequest (cur : List plockRecord) (nl : plockRecord) : List plockRecord :=
  if nl.end_ < nl.start then cur
  else
    let rest := removeRange nl.start nl.end_ cur
    if nl.ltype = F_UNLCK then rest
    else
      let before := rest.filter (fun r => decide (r.end_ < nl.start))
      let after := rest.filter (fun r => decide (nl.end_ < r.start))
      let joinL := match before.getLast? with
        | some p => decide (p.ltype = nl.ltype ∧ p.end_ + 1 = nl.start)
        | none => false
      let joinR := match after.head? with
        | some q => decide (q.ltype = nl.ltype ∧ nl.end_ + 1 = q.start)
        | none => false
      let lo := match before.getLast? with
        | some p => if joinL then p.start else nl.start
        | none => nl.start
      let hi := match after.head? with
        | some q => if joinR then q.end_ else nl.end_
        | none => nl.end_
      (if joinL then before.dropLast else before) ++
        [{ nl with start := lo, end_ := hi }] ++
        (if joinR then after.tail else after)

/-- The record operations modelled from sections 4.1 and 4.2 of the spec. -/
def specOps : RecordOps :=
  { loadLocks := decodeRecords, dumpLocks := encodeRecords, updateLocks := applyRequest }

/-! ## Tables and reachable states -/

/-- The unique key of a whole-file row. -/
def flockKey (r : flock) : Ino × Nat × Int := (r.inode, r.sid, r.owner)

/-- The unique key of a byte-range row. -/
def plockKey (r : plock) : Ino × Nat × Int := (r.inode, r.sid, r.owner)

/-- At most one whole-file row per (inode, sid, owner). -/
def FlockKeysUnique (t : List flock) : Prop := (t.map flockKey).Nodup

/-- At most one byte-range row per (inode, sid, owner). -/
def PlockKeysUnique (t : List plock) : Prop := (t.map plockKey).Nodup

/-- A row of type 'W' is the only row of its inode. -/
def WriteExclusive (t : List flock) : Prop :=
  ∀ r ∈ t, r.ltype = 'W' → ∀ r1 ∈ t, r1.inode = r.inode → r1 = r

/-- The states reached from an empty whole-file table by `Flock` calls of any
holder, with any arguments, store behaviour and cancellation; the rest of the
system may change the other tables in between. -/
inductive FlockReachable : DB → Prop
  | init (nodes : List Ino) (plocks : List plock) :
      FlockReachable { nodes := nodes, flocks := [], plocks := plocks }
  | call {db db1 : DB} (m : dbMeta) (store : Nat → Faults) (ctx : Context) (inode : Ino)
      (owner_ ltype : Nat) (block : Bool) (fuel : Nat) (err : Errno) :
      FlockReachable db →
      Flock m store ctx inode owner_ ltype block fuel db = some (err, db1) →
      FlockReachable db1
  | other {db db1 : DB} : FlockReachable db → db1.flocks = db.flocks → FlockReachable db1


/-- The states reached from an empty byte-range table by `Setlk` calls of any
holder, with any arguments, store behaviour and cancellation; the rest of the
system may change the other tables in between. -/
inductive SetlkReachable (ops : RecordOps) : DB → Prop
  | init (nodes : List Ino) (flocks : List flock) :
      SetlkReachable ops { nodes := nodes, flocks := flocks, plocks := [] }
  | call {db db1 : DB} (m : dbMeta) (store : Nat → Faults) (ctx : Context) (inode : Ino)
      (owner_ : Nat) (block : Bool) (ltype start end_ pid fuel : Nat) (err : Errno) :
      SetlkReachable ops db →
      Setlk ops m store ctx inode owner_ block ltype start end_ pid fuel db = some (err, db1) →
      SetlkReachable ops db1
  | other {db db1 : DB} : SetlkReachable ops db → db1.plocks = db.plocks → SetlkReachable ops db1

/-- The fields of a record fit their Go types: `uint32` for type and pid, `uint64`
for start and end. -/
def FitsFields (l : plockRecord) : Prop :=
  l.ltype < 2 ^ 32 ∧ l.pid < 2 ^ 32 ∧ l.start < 2 ^ 64 ∧ l.end_ < 2 ^ 64

/-- Two records of one list, the first before the second: the first ends before the
second starts, and they are not two pieces of the same type that touch. -/
def Apart (a b : plockRecord) : Prop :=
  a.end_ < b.start ∧ ¬ (a.ltype = b.ltype ∧ a.end_ + 1 = b.start)

/-- A record list as section 3 of the spec wants it: ranges in increasing order that
do not overlap and are not adjacent with equal type, each with start ≤ end. -/
def WellFormed (ls : List plockRecord) : Prop :=
  ls.Pairwise Apart ∧ ∀ r ∈ ls, r.start ≤ r.end_

/-- The states reached from an empty byte-range table by `Setlk` calls whose
arguments satisfy `ok ltype start end pid`, by any holder, with any store behaviour
and cancellation; the rest of the system may change the other tables in between. -/
inductive SetlkReachableBy (ops : RecordOps) (ok : Nat → Nat → Nat → Nat → Prop) : DB → Prop
  | init (nodes : List Ino) (flocks : List flock) :
      SetlkReachableBy ops ok { nodes := nodes, flocks := flocks, plocks := [] }
  | call {db db1 : DB} (m : dbMeta) (store : Nat → Faults) (ctx : Context) (inode : Ino)
      (owner_ : Nat) (block : Bool) (ltype start end_ pid fuel : Nat) (err : Errno) :
      SetlkReachableBy ops ok db → ok ltype start end_ pid →
      Setlk ops m store ctx inode owner_ block ltype start end_ pid fuel db = some (err, db1) →
      SetlkReachableBy ops ok db1
  | other {db db1 : DB} :
      SetlkReachableBy ops ok db → db1.plocks = db.plocks → SetlkReachableBy ops ok db1

/-- A lock request names a range: start ≤ end (an unlock may name any). -/
def RangeRequest (ltype start end_ _pid : Nat) : Prop := ltype = F_UNLCK ∨ start ≤ end_

/-- The arguments of a request fit the Go types of `Setlk`: `uint32` for type and
pid, `uint64` for start and end. -/
def FitsRequest (ltype start end_ pid : Nat) : Prop :=
  FitsFields { ltype := ltype, pid := pid, start := start, end_ := end_ }

/-- The store works during the attempt: no call fails and every insert or
update reports the rows it wrote. -/
def NoFault (f : Faults) : Prop :=
  f.get = none ∧ f.find = none ∧ f.write = none ∧ f.zeroRows = false ∧ ∀ l, f.scan l = false

/-- Nil or an error that is not a `syscall.Errno`: what the calls of the store return. -/
def StoreError (e : Option GoError) : Prop := e = none ∨ ∃ msg, e = some (GoError.other msg)

/-- The type of the lock that the record list holds on the byte offset `x`, if any. -/
def typeAt (ls : List plockRecord) (x : Nat) : Option Nat :=
  (ls.find? (fun r => decide (r.start ≤ x ∧ x ≤ r.end_))).map (fun r => r.ltype)

/-- The record list holds a lock of type `t` on the byte offset `x`. -/
def Covers (ls : List plockRecord) (x t : Nat) : Prop :=
  ∃ r ∈ ls, r.start ≤ x ∧ x ≤ r.end_ ∧ r.ltype = t

/-- Records of different holders on one inode do not meet, unless both are read
locks. -/
def Compatible (ops : RecordOps) (t : List plock) : Prop :=
  ∀ r1 ∈ t, ∀ r2 ∈ t, r1.inode = r2.inode → (r1.sid, r1.owner) ≠ (r2.sid, r2.owner) →
    ∀ a ∈ ops.loadLocks r1.records, ∀ b ∈ ops.loadLocks r2.records,
      a.start ≤ b.end_ → b.start ≤ a.end_ → a.ltype = F_RDLCK ∧ b.ltype = F_RDLCK

/-- A record blob as `Setlk` leaves it with the codec and the algebra of sections 4.1
and 4.2: the encoding of a well-formed list of read and write records whose
fields fit their Go types. -/
def WellKept (recs : List Nat) : Prop :=
  ∃ ls, recs = encodeRecords ls ∧ WellFormed ls ∧ (∀ r ∈ ls, FitsFields r) ∧
    ∀ r ∈ ls, r.ltype = F_RDLCK ∨ r.ltype = F_WRLCK

/-- The requests of `Setlk`: read, write or unlock, with arguments within their Go
types. -/
def LockRequest (ltype start end_ pid : Nat) : Prop :=
  (ltype = F_RDLCK ∨ ltype = F_WRLCK ∨ ltype = F_UNLCK) ∧ FitsRequest ltype start end_ pid

/-! ## The ceph object store (`pkg/object/ceph.go`)

The cluster is reached through go-ceph (`rados.Conn`, `rados.IOContext`), which is
not part of the repository. Its calls are described here by what go-ceph documents:
`Read` fills the buffer from an offset as far as the object goes, `Write` writes at
an offset and keeps the rest of the object, `WriteFull` replaces the object, `Iter`
walks over the object names of the pool in no particular order. -/

/-- A Go `string` or `[]byte`, as its bytes. Go compares strings byte by byte, which
is the lexicographic order of the lists. -/
abbrev Bytes := List Nat

/-- A Go `error` of the object store that is not nil. -/
inductive CephError where
  | EOF
  | ErrNotFound
  | other (msg : String)
deriving DecidableEq, Repr

/-- Go `*ceph` with the pool it talks to: the objects of the pool (name and content,
in the order of `ctx.Iter()`), and the failures of the cluster: of `c.newContext()`,
of `ctx.Iter()`, of `ctx.Write`/`ctx.WriteFull` and of `ctx.Stat` for a name. -/
structure ceph where
  objects : List (Bytes × Bytes) := []
  openError : Option String := none
  iterError : Option String := none
  writeError : Option String := none
  statError : Bytes → Option CephError := fun _ => none

/-- The content of the object `oid` of the pool, if there is one. -/
def lookupObject (objects : List (Bytes × Bytes)) (oid : Bytes) : Option Bytes :=
  (objects.find? (fun o => decide (o.1 = oid))).map Prod.snd

/-- The pool in which `oid` has the content `data`. -/
def storeObject (objects : List (Bytes × Bytes)) (oid data : Bytes) : List (Bytes × Bytes) :=
  if objects.any (fun o => decide (o.1 = oid)) then
    objects.map (fun o => if o.1 = oid then (oid, data) else o)
  else objects ++ [(oid, data)]

/-- The rados call `ctx.Read(oid, data, offset)`: the bytes of the object from
`offset` on, at most `len(data)` of them; an object that does not exist is an error. -/
def radosRead (c : ceph) (oid : Bytes) (len offset : Nat) : Bytes × Option CephError :=
  match lookupObject c.objects oid with
  | none => ([], some CephError.ErrNotFound)
  | some d => ((d.drop offset).take len, none)

/-- The rados call `ctx.WriteFull(oid, data)`: the object is created or replaced and
holds `data`. -/
def radosWriteFull (c : ceph) (oid data : Bytes) : Option CephError × ceph :=
  match c.writeError with
  | some msg => (some (CephError.other msg), c)
  | none => (none, { c with objects := storeObject c.objects oid data })

/-- The rados call `ctx.Write(oid, data, offset)`: `data` is written at `offset`; the
bytes of the object before `offset` and after `offset + len(data)` stay, a gap
before `offset` reads as zeros, and a missing object is created. -/
def radosWrite (c : ceph) (oid data : Bytes) (offset : Nat) : Option CephError × ceph :=
  match c.writeError with
  | some msg => (some (CephError.other msg), c)
  | none =>
    let old := (lookupObject c.objects oid).getD []
    (none, { c with
      objects := storeObject c.objects oid
        ((old ++ List.replicate (offset - old.length) 0).take offset ++ data ++
          old.drop (offset + data.length)) })

/-- The rados call `ctx.Stat(oid)`: the size of the object. -/
def radosStat (c : ceph) (oid : Bytes) : Nat × Option CephError :=
  match c.statError oid with
  | some err => (0, some err)
  | none =>
    match lookupObject c.objects oid with
    | none => (0, some CephError.ErrNotFound)
    | some d => (d.length, none)

/-- Go `int64` arithmetic: the result of an operation on `int64` values wraps. -/
def wrapInt64 (x : Int) : Int := (x + 2 ^ 63) % 2 ^ 64 - 2 ^ 63

/-- Go `uint64(x)` for an `int64` value `x`. -/
def uint64 (x : Int) : Nat := (x % 2 ^ 64).toNat

/-- Go `cephReader` (lines 92-98); the pool of its `ctx` is passed to `Read`. -/
structure cephReader where
  key : Bytes
  off : Int
  limit : Int
deriving DecidableEq, Repr

/-- Go `cephReader.Read` (lines 100-113) for a buffer of `bufLen` bytes: the reader
after the call, the bytes put into the buffer (`n` is their number) and `err`. -/
def cephReader.Read (c : ceph) (r : cephReader) (bufLen : Nat) :
    cephReader × Bytes × Option CephError :=
  let len := if r.limit > 0 ∧ (bufLen : Int) > r.limit then r.limit.toNat else bufLen
  let res := radosRead c r.key len (uint64 r.off)
  let n := res.1.length
  let off := wrapInt64 (r.off + n)
  let limit := if r.limit > 0 then wrapInt64 (r.limit - n) else r.limit
  let err := if res.2 = none ∧ n < len then some CephError.EOF else res.2
  ({ r with off := off, limit := limit }, res.1, err)

/-- Go `ceph.Get` (lines 123-129). -/
def ceph.Get (c : ceph) (key : Bytes) (off limit : Int) : Option cephReader × Option CephError :=
  match c.openError with
  | some msg => (none, some (CephError.other msg))
  | none => (some { key := key, off := off, limit := limit }, none)

/-- Go `ioutil.ReadAll(r)` for a `cephReader`: `Read` is called with a buffer that is
not empty (`bufs k` bytes at call `k`) until it returns an error; the bytes read so
far are returned, with the error unless it is `io.EOF`. `none` means that the
reader has not ended when the fuel is used up. -/
def readAll (c : ceph) (bufs : Nat → Nat) :
    Nat → Nat → cephReader → Bytes → Option (Bytes × Option CephError)
  | 0, _, _, _ => none
  | fuel + 1, k, r, acc =>
    match r.Read c (bufs k) with
    | (_, data, some CephError.EOF) => some (acc ++ data, none)
    | (_, data, some err) => some (acc ++ data, some err)
    | (r1, data, none) => readAll c bufs fuel (k + 1) r1 (acc ++ data)

/-- The helper `get` of `object_storage_test.go` (lines 39-49) and of `objbench.go`:
`Get`, then `ioutil.ReadAll`; the data as a string, or the error. -/
def get (c : ceph) (bufs : Nat → Nat) (fuel : Nat) (k : Bytes) (off limit : Int) :
    Option (Bytes × Option CephError) :=
  match c.Get k off limit with
  | (_, some err) => some ([], some err)
  | (none, none) => none
  | (some r, none) =>
    match readAll c bufs fuel 0 r [] with
    | none => none
    | some (_, some err) => some ([], some err)
    | some (data, none) => some (data, none)

/-- The `io.Reader` handed to `Put`: a `*bytes.Reader` with its slice `s` and its
read position `i`, or a reader of another type, given by the results `(buf[:n], err)`
of its `Read` calls in turn; when they are used up it returns `0, io.EOF`. -/
inductive Reader where
  | bytesReader (s : Bytes) (i : Nat)
  | stream (reads : List (Bytes × Option CephError))

/-- The bytes that a reader yields until it ends. -/
def Reader.content : Reader → Bytes
  | Reader.bytesReader s i => s.drop i
  | Reader.stream reads => (reads.map Prod.fst).flatten

/-- The `for` loop of `ceph.Put` (lines 146-160), with `off` as it stands and the
results of the `Read` calls still to come. -/
def putLoop (key : Bytes) : List (Bytes × Option CephError) → Nat → ceph → Option CephError × ceph
  | [], _, c => (none, c)
  | (data, err) :: rest, off, c =>
    if data.length > 0 then
      match radosWrite c key data off with
      | (some e, c1) => (some e, c1)
      | (none, c1) => putLoop key rest ((off + data.length) % 2 ^ 64) c1
    else if err = some CephError.EOF then (none, c)
    else (err, c)

/-- Go `ceph.Put` (lines 137-162). For a `*bytes.Reader` the data is field 0 of the
struct, the slice `s`. -/
def ceph.Put (c : ceph) (key : Bytes) (in_ : Reader) : Option CephError × ceph :=
  match c.openError with
  | some msg => (some (CephError.other msg), c)
  | none =>
    match in_ with
    | Reader.bytesReader s _ => radosWriteFull c key s
    | Reader.stream reads => putLoop key reads 0 c

/-- Go `strings.HasPrefix(s, pfx)`. -/
def HasPrefix (s pfx : Bytes) : Bool :=
  decide (s.length ≥ pfx.length) && decide (s.take pfx.length = pfx)

/-- Go `strings.HasSuffix(s, suffix)`. -/
def HasSuffix (s suffix : Bytes) : Bool :=
  decide (s.length ≥ suffix.length) && decide (s.drop (s.length - suffix.length) = suffix)

/-- Go `obj` as `ListAll` fills it, without the modification time. -/
structure obj where
  key : Bytes
  size : Int
  isDir : Bool
deriving DecidableEq, Repr

/-- The goroutine of `ceph.ListAll` (lines 192-207): what it sends to the channel
for the sorted keys; `none` is the `nil` sent before it gives up. -/
def statAll (c : ceph) : List Bytes → List (Option obj)
  | [] => []
  | key :: rest =>
    match radosStat c key with
    | (_, some CephError.ErrNotFound) => statAll c rest
    | (_, some _) => [none]
    | (size, none) =>
      some { key := key, size := size, isDir := HasSuffix key [47] } :: statAll c rest

/-- Go `ceph.ListAll` (lines 170-211): what is sent to the channel `objs` until it
is closed, and `err`. `sort.Strings` is the sort into ascending order. -/
def ceph.ListAll (c : ceph) (pfx marker : Bytes) : List (Option obj) × Option CephError :=
  match c.openError with
  | some msg => ([], some (CephError.other msg))
  | none =>
    match c.iterError with
    | some msg => ([], some (CephError.other msg))
    | none =>
      let keys := (c.objects.map Prod.fst).filter
        (fun key => !(decide (key ≤ marker) || !HasPrefix key pfx))
      (statAll c (keys.insertionSort (fun a b => a ≤ b)), none)

/-! ## The totals of `objbench` (`cmd/objbench.go`)

The sizes are natural numbers; they are taken small enough for the Go `int`
operations not to overflow. -/

/-- Line 118: `bSize := int(ctx.Uint("block-size")) << 10`. -/
def bSize (blockSize : Nat) : Nat := blockSize <<< 10

/-- Line 119: `fsize := int(ctx.Uint("big-object-size")) << 20`. -/
def fsize (bigObjectSize : Nat) : Nat := bigObjectSize <<< 20

/-- Line 121: `bCount := int(math.Ceil(float64(fsize) / float64(bSize)))`. Below 2^53
both sizes are exact as `float64` and the rounded quotient has the ceiling of the
exact one, which is computed here; a block size of 0 is left out (the quotient is
then not a number that `int` converts). -/
def bCount (blockSize bigObjectSize : Nat) : Nat :=
  (fsize bigObjectSize + bSize blockSize - 1) / bSize blockSize

/-- The numerator `bSize>>20*bCount` of the "put" and "get" results (lines 205 and
217). In Go `>>` and `*` bind equally and group to the left. -/
def mibTotal (blockSize bigObjectSize : Nat) : Nat :=
  (bSize blockSize >>> 20) * bCount blockSize bigObjectSize

/-! ## Go maps built from rows -/

section MapLemmas

variable {R V : Type} (kf : R → key) (vf : R → V)

theorem mem_mapSet {m : GoMap V} {k : key} {v : V} {p : key × V} :
    p ∈ mapSet m k v ↔ p = (k, v) ∨ (p ∈ m ∧ p.1 ≠ k) := by
  simp [mapSet, List.mem_filter]

/-- Every entry of the map built from `rows` comes from the start map or from a row. -/
theorem mem_foldl_mapSet (rows : List R) (acc : GoMap V) (p : key × V)
    (h : p ∈ rows.foldl (fun locks l => mapSet locks (kf l) (vf l)) acc) :
    p ∈ acc ∨ ∃ l ∈ rows, p = (kf l, vf l) := by
  induction rows generalizing acc with
  | nil => exact Or.inl h
  | cons x xs ih =>
    rcases ih _ h with h1 | ⟨l, hl, rfl⟩
    · rcases mem_mapSet.mp h1 with rfl | ⟨h2, _⟩
      · exact Or.inr ⟨x, by simp, rfl⟩
      · exact Or.inl h2
    · exact Or.inr ⟨l, by simp [hl], rfl⟩

/-- The keys of the map built from `rows` are the keys of the start map and of the rows. -/
theorem key_mem_foldl_mapSet (rows : List R) (acc : GoMap V) (k : key) :
    (∃ p ∈ rows.foldl (fun locks l => mapSet locks (kf l) (vf l)) acc, p.1 = k) ↔
      (∃ p ∈ acc, p.1 = k) ∨ ∃ l ∈ rows, kf l = k := by
  induction rows generalizing acc with
  | nil => simp
  | cons x xs ih =>
    rw [List.foldl_cons, ih]
    constructor
    · rintro (⟨p, hp, rfl⟩ | ⟨l, hl, rfl⟩)
      · rcases mem_mapSet.mp hp with rfl | ⟨h2, _⟩
        · exact Or.inr ⟨x, by simp, rfl⟩
        · exact Or.inl ⟨p, h2, rfl⟩
      · exact Or.inr ⟨l, by simp [hl], rfl⟩
    · rintro (⟨p, hp, rfl⟩ | ⟨l, hl, rfl⟩)
      · by_cases hk : p.1 = kf x
        · exact Or.inl ⟨(kf x, vf x), mem_mapSet.mpr (Or.inl rfl), hk.symm⟩
        · exact Or.inl ⟨p, mem_mapSet.mpr (Or.inr ⟨hp, hk⟩), rfl⟩
      · rcases List.mem_cons.mp hl with rfl | hl
        · exact Or.inl ⟨(kf l, vf l), mem_mapSet.mpr (Or.inl rfl), rfl⟩
        · exact Or.inr ⟨l, hl, rfl⟩

/-- An entry stays in the map when no later row has its key. -/
theorem foldl_mapSet_keep (rows : List R) (acc : GoMap V) (p : key × V) (hp : p ∈ acc)
    (hk : ∀ l ∈ rows, kf l ≠ p.1) :
    p ∈ rows.foldl (fun locks l => mapSet locks (kf l) (vf l)) acc := by
  induction rows generalizing acc with
  | nil => exact hp
  | cons x xs ih =>
    apply ih
    · exact mem_mapSet.mpr (Or.inr ⟨hp, fun h => hk x (by simp) h.symm⟩)
    · intro l hl
      exact hk l (by simp [hl])

/-- With one row per key, every row is an entry of the map built from the rows. -/
theorem foldl_mapSet_of_mem (rows : List R) (acc : GoMap V) (hnd : (rows.map kf).Nodup)
    (l : R) (hl : l ∈ rows) :
    (kf l, vf l) ∈ rows.foldl (fun locks l => mapSet locks (kf l) (vf l)) acc := by
  induction rows generalizing acc with
  | nil => simp at hl
  | cons x xs ih =>
    rw [List.map_cons, List.nodup_cons] at hnd
    rw [List.foldl_cons]
    rcases List.mem_cons.mp hl with rfl | hl
    · apply foldl_mapSet_keep
      · exact mem_mapSet.mpr (Or.inl rfl)
      · intro y hy h
        exact hnd.1 (List.mem_map.mpr ⟨y, hy, h⟩)
    · exact ih _ hnd.2 hl

theorem foldl_if_eq_filter {A : Type} (c : R → Bool) (g : A → R → A) (rows : List R) (acc : A) :
    rows.foldl (fun a l => if c l then g a l else a) acc = (rows.filter c).foldl g acc := by
  induction rows generalizing acc with
  | nil => rfl
  | cons x xs ih =>
    by_cases hc : c x
    · simp [List.filter_cons, hc, ih]
    · simp [List.filter_cons, hc, ih]

end MapLemmas

/-! ## The whole-file lock table -/

theorem flockMap_key_iff (fs : List flock) (k : key) :
    (∃ p ∈ flockMap fs, p.1 = k) ↔ ∃ l ∈ fs, (l.sid, l.owner) = k := by
  have h := key_mem_foldl_mapSet (fun l : flock => (l.sid, l.owner)) (fun l => l) fs [] k
  simpa [flockMap] using h

theorem flockMap_value_mem (fs : List flock) (p : key × flock) (h : p ∈ flockMap fs) :
    p.2 ∈ fs ∧ (p.2.sid, p.2.owner) = p.1 := by
  rcases mem_foldl_mapSet (fun l : flock => (l.sid, l.owner)) (fun l => l) fs [] p h with
    h1 | ⟨l, hl, rfl⟩
  · simp at h1
  · exact ⟨hl, rfl⟩

theorem flockMap_of_mem (fs : List flock)
    (hnd : (fs.map (fun l : flock => (l.sid, l.owner))).Nodup) (l : flock) (hl : l ∈ fs) :
    ((l.sid, l.owner), l) ∈ flockMap fs :=
  foldl_mapSet_of_mem (fun l : flock => (l.sid, l.owner)) (fun l => l) fs [] hnd l hl

/-- Among the rows of one inode the holder (sid, owner) identifies the row. -/
theorem nodup_holders_of_unique (t : List flock) (h : FlockKeysUnique t) (inode : Ino) :
    ((t.filter (fun r => decide (r.inode = inode))).map
      (fun l : flock => (l.sid, l.owner))).Nodup := by
  apply List.Nodup.map_on
  · intro x hx y hy hxy
    simp only [List.mem_filter, decide_eq_true_eq] at hx hy
    apply List.inj_on_of_nodup_map h hx.1 hy.1
    simp only [flockKey, Prod.mk.injEq] at hxy ⊢
    exact ⟨hx.2.trans hy.2.symm, hxy.1, hxy.2⟩
  · exact (List.Nodup.of_map _ h).filter _

theorem mustInsert_ok (f : Faults) (row : flock) (db db1 : DB)
    (h : mustInsert f row db = (none, db1)) : db1 = (mustInsert {} row db).2 := by
  unfold mustInsert at h ⊢
  cases hw : f.write with
  | some msg => simp [hw] at h
  | none =>
    cases hz : f.zeroRows with
    | true => simp [hw, hz] at h
    | false =>
      simp only [hw, hz] at h
      have h2 := congrArg Prod.snd h
      simp only [Bool.false_eq_true, ↓reduceIte] at h2 ⊢
      exact h2.symm

theorem updateFlockLtype_ok (f : Faults) (t : Char) (inode : Ino) (sid : Nat) (owner : Int)
    (db : DB) (h1 : (updateFlockLtype f t inode sid owner db).2.1 = none)
    (h2 : (updateFlockLtype f t inode sid owner db).1 ≠ 0) :
    updateFlockLtype f t inode sid owner db = updateFlockLtype {} t inode sid owner db := by
  unfold updateFlockLtype at h1 h2 ⊢
  cases hw : f.write with
  | some msg => simp [hw] at h1
  | none =>
    cases hz : f.zeroRows with
    | true => simp [hw, hz] at h2
    | false => simp [hw, hz]

theorem insertOneFlock_ok (f : Faults) (row : flock) (db : DB)
    (h1 : (insertOneFlock f row db).2.1 = none) (h2 : (insertOneFlock f row db).1 ≠ 0) :
    (∀ r ∈ db.flocks, flockKey r ≠ flockKey row) ∧
      (insertOneFlock f row db).2.2 = { db with flocks := db.flocks ++ [row] } := by
  unfold insertOneFlock at h1 h2 ⊢
  cases hw : f.write with
  | some msg => simp [hw] at h1
  | none =>
    cases hz : f.zeroRows with
    | true => simp [hw, hz] at h2
    | false =>
      simp only [hw, hz] at h1 h2 ⊢
      by_cases hany : db.flocks.any (sameFlock row.inode row.sid row.owner) = true
      · simp [hany] at h1
      · simp only [hany]
        refine ⟨?_, by simp⟩
        intro r hr hk
        apply hany
        refine List.any_eq_true.mpr ⟨r, hr, ?_⟩
        simp only [flockKey, Prod.mk.injEq] at hk
        simp [sameFlock, hk]



theorem checkAffected_ok (r : Nat × Option GoError × DB) (db1 : DB)
    (h : checkAffected r = (none, db1)) : r.2.1 = none ∧ r.1 ≠ 0 ∧ r.2.2 = db1 := by
  unfold checkAffected at h
  split at h
  · simp at h
  · rename_i hc
    simp only [Prod.mk.injEq] at h
    refine ⟨h.1, ?_, h.2⟩
    intro h0
    exact hc ⟨h.1, h0⟩

theorem flockAttempt_ok (m : dbMeta) (f : Faults) (inode : Ino) (owner : Int) (ltype : Nat)
    (db db1 : DB) (h : flockAttempt m f inode owner ltype db = (none, db1)) :
    inode ∈ db.nodes ∧
    ((ltype = F_RDLCK ∧
        (∀ p ∈ flockMap (db.flocks.filter (fun r => decide (r.inode = inode))), p.2.ltype ≠ 'W') ∧
        db1 = (mustInsert {} { inode := inode, owner := owner, ltype := 'R', sid := m.sid } db).2) ∨
     (ltype ≠ F_RDLCK ∧
        (∀ p ∈ flockMap (db.flocks.filter (fun r => decide (r.inode = inode))),
          p.1 = (m.sid, owner)) ∧
        (((∃ p ∈ flockMap (db.flocks.filter (fun r => decide (r.inode = inode))),
            p.1 = (m.sid, owner)) ∧
          db1 = (updateFlockLtype {} 'W' inode m.sid owner db).2.2) ∨
         ((∀ p ∈ flockMap (db.flocks.filter (fun r => decide (r.inode = inode))),
            p.1 ≠ (m.sid, owner)) ∧
          db1 = { db with flocks := db.flocks ++ [{ inode := inode, owner := owner, ltype := 'W', sid := m.sid }] })))) := by
  unfold flockAttempt at h
  cases hg : f.get with
  | some msg => simp [getNode, hg] at h
  | none =>
    by_cases hn : inode ∈ db.nodes
    · cases hf : f.find with
      | some msg => simp [getNode, hg, hn, findFlocks, hf] at h
      | none =>
        simp only [getNode, hg, hn, decide_True, findFlocks, hf] at h
        refine ⟨hn, ?_⟩
        by_cases hl : ltype = F_RDLCK
        · left
          simp only [hl, if_true] at h
          split at h
          · simp at h
          · rename_i hany
            refine ⟨hl, ?_, mustInsert_ok _ _ _ _ h⟩
            intro p hp hw
            apply hany
            exact List.any_eq_true.mpr ⟨p, hp, by simpa using hw⟩
        · right
          simp only [hl, if_false] at h
          split at h
          · simp at h
          · rename_i hlen
            refine ⟨hl, ?_, ?_⟩
            · intro p hp
              by_contra hne
              apply hlen
              apply List.length_pos.mpr
              intro hnil
              have : p ∈ mapDelete (flockMap (db.flocks.filter (fun r => decide (r.inode = inode)))) (m.sid, owner) := by
                simp only [mapDelete, List.mem_filter]
                exact ⟨hp, by simpa using hne⟩
              rw [hnil] at this
              simp at this
            · have hc := checkAffected_ok _ _ h
              by_cases hok : (mapGet (flockMap (db.flocks.filter (fun r => decide (r.inode = inode)))) (m.sid, owner)).isSome = true
              · left
                rw [if_pos hok] at hc
                constructor
                · simp only [mapGet, Option.isSome_map', List.find?_isSome] at hok
                  obtain ⟨p, hp, hpk⟩ := hok
                  exact ⟨p, hp, by simpa using hpk⟩
                · rw [← updateFlockLtype_ok f _ _ _ _ _ hc.1 hc.2.1]
                  exact hc.2.2.symm
              · right
                rw [if_neg hok] at hc
                have hi := insertOneFlock_ok f _ db hc.1 hc.2.1
                constructor
                · intro p hp hpk
                  apply hok
                  simp only [mapGet, Option.isSome_map', List.find?_isSome]
                  exact ⟨p, hp, by simpa using hpk⟩
                · rw [← hc.2.2, hi.2]
    · simp [getNode, hg, hn] at h

theorem writeExclusive_of_read (t t1 : List flock) (row : flock)
    (hmem : ∀ r ∈ t1, r = row ∨ r ∈ t) (hrow : row.ltype ≠ 'W')
    (hpre : ∀ r ∈ t, r.inode = row.inode → r.ltype ≠ 'W') (hw : WriteExclusive t) :
    WriteExclusive t1 := by
  intro r hr hW r1 hr1 hin
  rcases hmem r hr with rfl | hrt
  · exact absurd hW hrow
  · have hne : r.inode ≠ row.inode := fun e => hpre r hrt e hW
    rcases hmem r1 hr1 with rfl | h1
    · exact absurd hin.symm hne
    · exact hw r hrt hW r1 h1 hin

theorem writeExclusive_of_write (t t1 : List flock) (inode : Ino) (k : Ino × Nat × Int)
    (hu : FlockKeysUnique t1) (h1 : ∀ r ∈ t1, r.inode = inode → flockKey r = k)
    (h2 : ∀ r ∈ t1, r.inode ≠ inode → r ∈ t) (hw : WriteExclusive t) :
    WriteExclusive t1 := by
  intro r hr hW r1 hr1 hin
  by_cases e : r.inode = inode
  · apply List.inj_on_of_nodup_map hu hr1 hr
    rw [h1 r1 hr1 (hin.trans e), h1 r hr e]
  · exact hw r (h2 r hr e) hW r1 (h2 r1 hr1 (by rw [hin]; exact e)) hin

/-- Replacing rows by rows with the same key keeps the key list. -/
theorem map_flockKey_replace (t : List flock) (g : flock → flock)
    (hg : ∀ r ∈ t, flockKey (g r) = flockKey r) : (t.map g).map flockKey = t.map flockKey := by
  rw [List.map_map]
  exact List.map_congr_left (fun r hr => hg r hr)

theorem sameFlock_iff (inode : Ino) (sid : Nat) (owner : Int) (r : flock) :
    sameFlock inode sid owner r = true ↔ flockKey r = (inode, sid, owner) := by
  simp [sameFlock, flockKey]

theorem rows_of_flockMap_keys (t : List flock) (inode : Ino) (k : key)
    (h : ∀ p ∈ flockMap (t.filter (fun r => decide (r.inode = inode))), p.1 = k) :
    ∀ r ∈ t, r.inode = inode → (r.sid, r.owner) = k := by
  intro r hr hi
  have hx : ∃ l ∈ t.filter (fun r => decide (r.inode = inode)), (l.sid, l.owner) = (r.sid, r.owner) :=
    ⟨r, by simp [List.mem_filter, hr, hi], rfl⟩
  obtain ⟨p, hp, hpk⟩ := (flockMap_key_iff _ _).mpr hx
  rw [← hpk]
  exact h p hp

theorem rows_of_flockMap_values (t : List flock) (inode : Ino) (hu : FlockKeysUnique t)
    (P : flock → Prop)
    (h : ∀ p ∈ flockMap (t.filter (fun r => decide (r.inode = inode))), P p.2) :
    ∀ r ∈ t, r.inode = inode → P r := by
  intro r hr hi
  have hm := flockMap_of_mem _ (nodup_holders_of_unique t hu inode) r
    (by simp [List.mem_filter, hr, hi])
  exact h _ hm

theorem flockAttempt_preserves (m : dbMeta) (f : Faults) (inode : Ino) (owner : Int)
    (ltype : Nat) (db db1 : DB) (h : flockAttempt m f inode owner ltype db = (none, db1))
    (hu : FlockKeysUnique db.flocks) (hw : WriteExclusive db.flocks) :
    FlockKeysUnique db1.flocks ∧ WriteExclusive db1.flocks := by
  obtain ⟨_, hcase⟩ := flockAttempt_ok m f inode owner ltype db db1 h
  rcases hcase with ⟨_, hmap, rfl⟩ | ⟨_, hmap, ⟨hex, rfl⟩ | ⟨hnone, rfl⟩⟩
  · -- read
    have hpre := rows_of_flockMap_values db.flocks inode hu (fun r => r.ltype ≠ 'W') hmap
    unfold mustInsert
    simp only [Bool.false_eq_true, if_false]
    split
    · have hk : FlockKeysUnique (db.flocks.map (fun r =>
          if sameFlock inode m.sid owner r then
            ({ inode := inode, owner := owner, ltype := 'R', sid := m.sid } : flock) else r)) := by
        unfold FlockKeysUnique
        rw [map_flockKey_replace]
        · exact hu
        · intro r _
          by_cases hs : sameFlock inode m.sid owner r = true
          · simp only [hs, if_true]
            rw [(sameFlock_iff _ _ _ _).mp hs]
            rfl
          · simp only [hs]
            rfl
      refine ⟨hk, ?_⟩
      apply writeExclusive_of_read db.flocks _
        { inode := inode, owner := owner, ltype := 'R', sid := m.sid } _ (by simp) hpre hw
      intro r hr
      simp only [List.mem_map] at hr
      obtain ⟨r0, hr0, rfl⟩ := hr
      by_cases hs : sameFlock inode m.sid owner r0 = true
      · left; simp [hs]
      · right; simp [hs, hr0]
    · rename_i hany
      have hfresh : ∀ r ∈ db.flocks, flockKey r ≠ (inode, m.sid, owner) := by
        intro r hr hk
        apply hany
        exact List.any_eq_true.mpr ⟨r, hr, (sameFlock_iff _ _ _ _).mpr hk⟩
      constructor
      · unfold FlockKeysUnique
        simp only [List.map_append, List.map_cons, List.map_nil]
        apply List.Nodup.append hu (by simp)
        intro k hk1 hk2
        simp only [List.mem_singleton] at hk2
        obtain ⟨r, hr, rfl⟩ := List.mem_map.mp hk1
        exact hfresh r hr hk2
      · apply writeExclusive_of_read db.flocks _
          { inode := inode, owner := owner, ltype := 'R', sid := m.sid } _ (by simp) hpre hw
        intro r hr
        simp only [List.mem_append, List.mem_singleton] at hr
        rcases hr with hr | hr
        · exact Or.inr hr
        · exact Or.inl hr
  · -- write, update in place
    have hkeys := rows_of_flockMap_keys db.flocks inode _ hmap
    unfold updateFlockLtype
    simp only [Bool.false_eq_true, if_false]
    have hk : FlockKeysUnique (db.flocks.map (fun r =>
        if sameFlock inode m.sid owner r then { r with ltype := 'W' } else r)) := by
      unfold FlockKeysUnique
      rw [map_flockKey_replace]
      · exact hu
      · intro r _
        by_cases hs : sameFlock inode m.sid owner r = true
        · simp only [hs, if_true]; rfl
        · simp only [hs]; rfl
    refine ⟨hk, ?_⟩
    apply writeExclusive_of_write db.flocks _ inode (inode, m.sid, owner) hk _ _ hw
    · intro r hr hi
      simp only [List.mem_map] at hr
      obtain ⟨r0, hr0, rfl⟩ := hr
      by_cases hs : sameFlock inode m.sid owner r0 = true
      · simp only [hs, if_true]
        have := (sameFlock_iff _ _ _ _).mp hs
        simpa [flockKey] using this
      · rw [if_neg hs] at hi ⊢
        have := hkeys r0 hr0 hi
        simp only [Prod.mk.injEq] at this
        simp [flockKey, hi, this.1, this.2]
    · intro r hr hi
      simp only [List.mem_map] at hr
      obtain ⟨r0, hr0, rfl⟩ := hr
      by_cases hs : sameFlock inode m.sid owner r0 = true
      · exfalso
        apply hi
        simp only [hs, if_true]
        have := (sameFlock_iff _ _ _ _).mp hs
        simp only [flockKey, Prod.mk.injEq] at this
        exact this.1
      · simpa [hs] using hr0
  · -- write, new row
    have hkeys := rows_of_flockMap_keys db.flocks inode _ hmap
    have hempty : ∀ r ∈ db.flocks, r.inode ≠ inode := by
      intro r hr hi
      have hx : ∃ l ∈ db.flocks.filter (fun r => decide (r.inode = inode)),
          (l.sid, l.owner) = (m.sid, owner) :=
        ⟨r, by simp [List.mem_filter, hr, hi], hkeys r hr hi⟩
      obtain ⟨p, hp, hpk⟩ := (flockMap_key_iff _ _).mpr hx
      exact hnone p hp hpk
    have hk : FlockKeysUnique (db.flocks ++
        [({ inode := inode, owner := owner, ltype := 'W', sid := m.sid } : flock)]) := by
      unfold FlockKeysUnique
      simp only [List.map_append, List.map_cons, List.map_nil]
      apply List.Nodup.append hu (by simp)
      intro k hk1 hk2
      simp only [List.mem_singleton] at hk2
      obtain ⟨r, hr, rfl⟩ := List.mem_map.mp hk1
      simp only [flockKey, Prod.mk.injEq] at hk2
      exact hempty r hr hk2.1
    refine ⟨hk, ?_⟩
    apply writeExclusive_of_write db.flocks _ inode (inode, m.sid, owner) hk _ _ hw
    · intro r hr hi
      simp only [List.mem_append, List.mem_singleton] at hr
      rcases hr with hr | rfl
      · exact absurd hi (hempty r hr)
      · rfl
    · intro r hr hi
      simp only [List.mem_append, List.mem_singleton] at hr
      rcases hr with hr | rfl
      · exact hr
      · exact absurd rfl hi

theorem txn_flockAttempt_preserves (m : dbMeta) (f : Faults) (inode : Ino) (owner : Int)
    (ltype : Nat) (db : DB) (hu : FlockKeysUnique db.flocks) (hw : WriteExclusive db.flocks) :
    FlockKeysUnique (txn (flockAttempt m f inode owner ltype) db).2.flocks ∧
      WriteExclusive (txn (flockAttempt m f inode owner ltype) db).2.flocks := by
  rcases h : flockAttempt m f inode owner ltype db with ⟨_ | err, db1⟩
  · simp only [txn, h]
    exact flockAttempt_preserves m f inode owner ltype db db1 h hu hw
  · simp only [txn, h]
    exact ⟨hu, hw⟩

theorem flockLoop_preserves (m : dbMeta) (store : Nat → Faults) (ctx : Context) (inode : Ino)
    (owner : Int) (ltype : Nat) (block : Bool) (fuel k : Nat) (db : DB) (err : Errno) (db1 : DB)
    (h : flockLoop m store ctx inode owner ltype block fuel k db = some (err, db1))
    (hu : FlockKeysUnique db.flocks) (hw : WriteExclusive db.flocks) :
    FlockKeysUnique db1.flocks ∧ WriteExclusive db1.flocks := by
  induction fuel generalizing k db with
  | zero => simp [flockLoop] at h
  | succ n ih =>
    have hp := txn_flockAttempt_preserves m (store k) inode owner ltype db hu hw
    simp only [flockLoop] at h
    split at h
    · simp only [Option.some.injEq, Prod.mk.injEq] at h
      rw [← h.2]
      exact hp
    · split at h
      · simp only [Option.some.injEq, Prod.mk.injEq] at h
        rw [← h.2]
        exact hp
      · exact ih _ _ h hp.1 hp.2

theorem deleteFlock_preserves (f : Faults) (inode : Ino) (sid : Nat) (owner : Int) (db : DB)
    (hu : FlockKeysUnique db.flocks) (hw : WriteExclusive db.flocks) :
    FlockKeysUnique
        (txn (fun s => ((deleteFlock f inode sid owner s).2.1,
          (deleteFlock f inode sid owner s).2.2)) db).2.flocks ∧
      WriteExclusive
        (txn (fun s => ((deleteFlock f inode sid owner s).2.1,
          (deleteFlock f inode sid owner s).2.2)) db).2.flocks := by
  unfold txn deleteFlock
  cases hwf : f.write with
  | some msg => exact ⟨hu, hw⟩
  | none =>
    simp only
    constructor
    · exact List.Nodup.sublist (List.Sublist.map _ (List.filter_sublist _)) hu
    · intro r hr hW r1 hr1 hin
      exact hw r (List.mem_of_mem_filter hr) hW r1 (List.mem_of_mem_filter hr1) hin

theorem Flock_preserves (m : dbMeta) (store : Nat → Faults) (ctx : Context) (inode : Ino)
    (owner_ ltype : Nat) (block : Bool) (fuel : Nat) (db : DB) (err : Errno) (db1 : DB)
    (h : Flock m store ctx inode owner_ ltype block fuel db = some (err, db1))
    (hu : FlockKeysUnique db.flocks) (hw : WriteExclusive db.flocks) :
    FlockKeysUnique db1.flocks ∧ WriteExclusive db1.flocks := by
  unfold Flock at h
  by_cases hl : ltype = F_UNLCK
  · simp only [hl, if_true, Option.some.injEq, Prod.mk.injEq] at h
    rw [← h.2]
    exact deleteFlock_preserves (store 0) inode m.sid (int64 owner_) db hu hw
  · simp only [hl, if_false] at h
    exact flockLoop_preserves m store ctx inode _ ltype block fuel 0 db err db1 h hu hw

theorem flockReachable_inv (db : DB) (h : FlockReachable db) :
    FlockKeysUnique db.flocks ∧ WriteExclusive db.flocks := by
  induction h with
  | init nodes plocks =>
    constructor
    · simp [FlockKeysUnique]
    · intro r hr
      simp at hr
  | call m store ctx inode owner_ ltype block fuel err _ hcall ih =>
    exact Flock_preserves m store ctx inode owner_ ltype block fuel _ err _ hcall ih.1 ih.2
  | other _ heq ih =>
    rw [heq]
    exact ih

theorem filter_eq_singleton {α : Type} (p : α → Bool) (t : List α) (r : α) (hnd : t.Nodup)
    (hr : r ∈ t) (hp : p r = true) (hall : ∀ x ∈ t, p x = true → x = r) :
    t.filter p = [r] := by
  have hmem : r ∈ t.filter p := List.mem_filter.mpr ⟨hr, hp⟩
  have hnd2 : (t.filter p).Nodup := hnd.filter p
  have hall2 : ∀ x ∈ t.filter p, x = r := fun x hx =>
    hall x (List.mem_of_mem_filter hx) (List.mem_filter.mp hx).2
  cases hl : t.filter p with
  | nil => rw [hl] at hmem; simp at hmem
  | cons a rest =>
    rw [hl] at hnd2 hall2
    have ha : a = r := hall2 a (by simp)
    cases rest with
    | nil => rw [ha]
    | cons b rest2 =>
      have hb : b = r := hall2 b (by simp)
      rw [ha, hb] at hnd2
      simp at hnd2

/-- C1: in every state reached from an empty whole-file table by `Flock` calls, a row of
type 'W' is the only whole-file row of its inode; so two write rows of one inode
belong to the same holder and no read row shares an inode with a write row. -/
theorem flock_write_row_is_alone (db : DB) (h : FlockReachable db) :
    (∀ r ∈ db.flocks, r.ltype = 'W' →
        db.flocks.filter (fun x => decide (x.inode = r.inode)) = [r]) ∧
      (∀ r ∈ db.flocks, ∀ r1 ∈ db.flocks, r.inode = r1.inode → r.ltype = 'W' →
        r1.ltype = 'W' → (r1.sid, r1.owner) = (r.sid, r.owner)) ∧
      (∀ r ∈ db.flocks, ∀ r1 ∈ db.flocks, r.inode = r1.inode → r.ltype = 'W' →
        r1.ltype = 'R' → False) := by
  obtain ⟨hu, hw⟩ := flockReachable_inv db h
  refine ⟨?_, ?_, ?_⟩
  · intro r hr hW
    apply filter_eq_singleton _ _ _ (List.Nodup.of_map _ hu) hr (by simp)
    intro x hx hxi
    exact hw r hr hW x hx (by simpa using hxi)
  · intro r hr r1 hr1 hin hW _
    rw [hw r hr hW r1 hr1 hin.symm]
  · intro r hr r1 hr1 hin hW hR
    rw [hw r hr hW r1 hr1 hin.symm, hW] at hR
    exact absurd hR (by decide)

theorem flock_write_row_is_alone_witness :
    FlockReachable ⟨[5], [⟨5, 1, 7, 'W'⟩], []⟩ ∧
      [(⟨5, 1, 7, 'W'⟩ : flock)].filter (fun x => decide (x.inode = 5)) = [⟨5, 1, 7, 'W'⟩] :=
  have hreach : FlockReachable ⟨[5], [⟨5, 1, 7, 'W'⟩], []⟩ :=
    FlockReachable.call ⟨1⟩ healthy background 5 7 F_WRLCK false 1 0
      (FlockReachable.init [5] []) (by decide)
  ⟨hreach, (flock_write_row_is_alone _ hreach).1 ⟨5, 1, 7, 'W'⟩ (by simp) rfl⟩

theorem mapDelete_length_pos_iff {V : Type} (mp : GoMap V) (k : key) :
    (mapDelete mp k).length > 0 ↔ ∃ p ∈ mp, p.1 ≠ k := by
  unfold mapDelete
  rw [gt_iff_lt, List.length_pos]
  constructor
  · intro h
    obtain ⟨p, hp⟩ := List.exists_mem_of_ne_nil _ h
    rw [List.mem_filter] at hp
    exact ⟨p, hp.1, by simpa using hp.2⟩
  · rintro ⟨p, hp, hk⟩ hnil
    have : p ∈ mp.filter (fun p => decide (p.1 ≠ k)) := List.mem_filter.mpr ⟨hp, by simpa using hk⟩
    rw [hnil] at this
    simp at this

theorem mapGet_isSome_iff {V : Type} (mp : GoMap V) (k : key) :
    (mapGet mp k).isSome = true ↔ ∃ p ∈ mp, p.1 = k := by
  simp only [mapGet, Option.isSome_map', List.find?_isSome]
  constructor
  · rintro ⟨p, hp, hk⟩
    exact ⟨p, hp, by simpa using hk⟩
  · rintro ⟨p, hp, hk⟩
    exact ⟨p, hp, by simpa using hk⟩

/-- The body of `flockAttempt` after the node lookup and the scan have succeeded. -/
theorem flockAttempt_eq (m : dbMeta) (f : Faults) (inode : Ino) (owner : Int) (ltype : Nat)
    (db : DB) (hg : f.get = none) (hfi : f.find = none) (hn : inode ∈ db.nodes) :
    flockAttempt m f inode owner ltype db =
      if ltype = F_RDLCK then
        if (flockMap (db.flocks.filter (fun r => decide (r.inode = inode)))).any
            (fun p => decide (p.2.ltype = 'W')) then (some (GoError.errno EAGAIN), db)
        else mustInsert f { inode := inode, owner := owner, ltype := 'R', sid := m.sid } db
      else
        if (mapDelete (flockMap (db.flocks.filter (fun r => decide (r.inode = inode))))
            (m.sid, owner)).length > 0 then (some (GoError.errno EAGAIN), db)
        else
          checkAffected
            (if (mapGet (flockMap (db.flocks.filter (fun r => decide (r.inode = inode))))
                (m.sid, owner)).isSome then updateFlockLtype f 'W' inode m.sid owner db
            else insertOneFlock f
              { inode := inode, owner := owner, ltype := 'W', sid := m.sid } db) := by
  unfold flockAttempt
  simp only [getNode, hg, hn, decide_True, findFlocks, hfi]

/-- Other holders of whole-file rows, read off the local map. -/
theorem flock_others_iff (t : List flock) (inode : Ino) (me : key) :
    (∃ p ∈ flockMap (t.filter (fun r => decide (r.inode = inode))), p.1 ≠ me) ↔
      ∃ r ∈ t, r.inode = inode ∧ (r.sid, r.owner) ≠ me := by
  constructor
  · rintro ⟨p, hp, hk⟩
    obtain ⟨hm, hkey⟩ := flockMap_value_mem _ p hp
    simp only [List.mem_filter, decide_eq_true_eq] at hm
    exact ⟨p.2, hm.1, hm.2, by rw [hkey]; exact hk⟩
  · rintro ⟨r, hr, hi, hk⟩
    have hx : ∃ l ∈ t.filter (fun r => decide (r.inode = inode)),
        (l.sid, l.owner) = (r.sid, r.owner) := ⟨r, by simp [List.mem_filter, hr, hi], rfl⟩
    obtain ⟨p, hp, hpk⟩ := (flockMap_key_iff _ _).mpr hx
    exact ⟨p, hp, by rw [hpk]; exact hk⟩

theorem flock_mine_iff (t : List flock) (inode : Ino) (sid : Nat) (owner : Int) :
    (∃ p ∈ flockMap (t.filter (fun r => decide (r.inode = inode))), p.1 = (sid, owner)) ↔
      ∃ r ∈ t, sameFlock inode sid owner r = true := by
  rw [flockMap_key_iff]
  constructor
  · rintro ⟨l, hl, hk⟩
    simp only [List.mem_filter, decide_eq_true_eq] at hl
    simp only [Prod.mk.injEq] at hk
    exact ⟨l, hl.1, by simp [sameFlock, hl.2, hk.1, hk.2]⟩
  · rintro ⟨r, hr, hs⟩
    simp only [sameFlock, decide_eq_true_eq] at hs
    exact ⟨r, by simp [List.mem_filter, hr, hs.1], by simp [hs.2.1, hs.2.2]⟩

/-- One attempt of `Flock` in the loop, for a non-blocking call or an attempt that
does not end in EAGAIN. -/
theorem flockLoop_once (m : dbMeta) (store : Nat → Faults) (ctx : Context) (inode : Ino)
    (owner : Int) (ltype : Nat) (block : Bool) (fuel k : Nat) (db : DB)
    (h : block = false ∨ errno (txn (flockAttempt m (store k) inode owner ltype) db).1 ≠ EAGAIN) :
    flockLoop m store ctx inode owner ltype block (fuel + 1) k db =
      some (errno (txn (flockAttempt m (store k) inode owner ltype) db).1,
        (txn (flockAttempt m (store k) inode owner ltype) db).2) := by
  simp only [flockLoop]
  rcases h with h | h
  · simp [h]
  · simp [h]

theorem Flock_lock_eq (m : dbMeta) (store : Nat → Faults) (ctx : Context) (inode : Ino)
    (owner_ ltype : Nat) (block : Bool) (fuel : Nat) (db : DB) (hl : ltype ≠ F_UNLCK) :
    Flock m store ctx inode owner_ ltype block fuel db =
      flockLoop m store ctx inode (int64 owner_) ltype block fuel 0 db := by
  simp [Flock, hl]

theorem sameFlock_setW (inode : Ino) (sid : Nat) (owner : Int) (r : flock)
    (h : sameFlock inode sid owner r = true) :
    ({ r with ltype := 'W' } : flock) = { inode := inode, sid := sid, owner := owner, ltype := 'W' } := by
  simp only [sameFlock, decide_eq_true_eq] at h
  simp [h.1, h.2.1, h.2.2]

/-- The write attempt that finds another holder's row ends in EAGAIN. -/
theorem flockAttempt_write_conflict (m : dbMeta) (f : Faults) (inode : Ino) (owner : Int)
    (ltype : Nat) (db : DB) (hg : f.get = none) (hfi : f.find = none) (hn : inode ∈ db.nodes)
    (hl : ltype ≠ F_RDLCK)
    (hc : ∃ r ∈ db.flocks, r.inode = inode ∧ (r.sid, r.owner) ≠ (m.sid, owner)) :
    txn (flockAttempt m f inode owner ltype) db = (some (GoError.errno EAGAIN), db) := by
  have hpos := (mapDelete_length_pos_iff _ _).mpr ((flock_others_iff db.flocks inode _).mpr hc)
  simp only [txn, flockAttempt_eq m f inode owner ltype db hg hfi hn, hl, if_false, hpos, if_true]

/-- The write attempt that finds no other holder: the caller's row is set to 'W' in
place, or a 'W' row is added. -/
theorem flockAttempt_write_ok (m : dbMeta) (f : Faults) (inode : Ino) (owner : Int)
    (ltype : Nat) (db : DB) (hf : NoFault f) (hn : inode ∈ db.nodes) (hl : ltype ≠ F_RDLCK)
    (hc : ∀ r ∈ db.flocks, r.inode = inode → (r.sid, r.owner) = (m.sid, owner)) :
    txn (flockAttempt m f inode owner ltype) db =
      (none, { db with
        flocks := if db.flocks.any (sameFlock inode m.sid owner) then
            db.flocks.map (fun r => if sameFlock inode m.sid owner r then { r with ltype := 'W' } else r)
          else db.flocks ++ [{ inode := inode, sid := m.sid, owner := owner, ltype := 'W' }] }) := by
  obtain ⟨hg, hfi, hw, hz, _⟩ := hf
  have hnot : ¬ (mapDelete (flockMap (db.flocks.filter (fun r => decide (r.inode = inode))))
      (m.sid, owner)).length > 0 := by
    rw [mapDelete_length_pos_iff, flock_others_iff]
    rintro ⟨r, hr, hi, hk⟩
    exact hk (hc r hr hi)
  unfold txn
  rw [flockAttempt_eq m f inode owner ltype db hg hfi hn]
  simp only [hl, if_false, hnot]
  by_cases hany : db.flocks.any (sameFlock inode m.sid owner) = true
  · have hok : (mapGet (flockMap (db.flocks.filter (fun r => decide (r.inode = inode))))
        (m.sid, owner)).isSome = true := by
      rw [mapGet_isSome_iff, flock_mine_iff]
      exact List.any_eq_true.mp hany
    have hlen : (db.flocks.filter (sameFlock inode m.sid owner)).length ≠ 0 := by
      obtain ⟨r, hr, hs⟩ := List.any_eq_true.mp hany
      intro h0
      have : r ∈ db.flocks.filter (sameFlock inode m.sid owner) := List.mem_filter.mpr ⟨hr, hs⟩
      rw [List.length_eq_zero.mp h0] at this
      simp at this
    simp only [hok, if_true, hany, updateFlockLtype, hw, hz, checkAffected, txn, hlen,
      Bool.false_eq_true, if_false, and_false]
  · have hok : ¬ (mapGet (flockMap (db.flocks.filter (fun r => decide (r.inode = inode))))
        (m.sid, owner)).isSome = true := by
      rw [mapGet_isSome_iff, flock_mine_iff]
      intro h
      exact hany (List.any_eq_true.mpr h)
    simp only [hok, if_false, hany, insertOneFlock, hw, hz, checkAffected, txn,
      Bool.false_eq_true, if_false, and_false, one_ne_zero]

/-- The read attempt that finds a 'W' row ends in EAGAIN, whoever holds the row. -/
theorem flockAttempt_read_conflict (m : dbMeta) (f : Faults) (inode : Ino) (owner : Int)
    (db : DB) (hg : f.get = none) (hfi : f.find = none) (hn : inode ∈ db.nodes)
    (hu : FlockKeysUnique db.flocks)
    (hc : ∃ r ∈ db.flocks, r.inode = inode ∧ r.ltype = 'W') :
    txn (flockAttempt m f inode owner F_RDLCK) db = (some (GoError.errno EAGAIN), db) := by
  obtain ⟨r, hr, hi, hW⟩ := hc
  have hm := flockMap_of_mem _ (nodup_holders_of_unique db.flocks hu inode) r
    (by simp [List.mem_filter, hr, hi])
  have hany : (flockMap (db.flocks.filter (fun r => decide (r.inode = inode)))).any
      (fun p => decide (p.2.ltype = 'W')) = true :=
    List.any_eq_true.mpr ⟨_, hm, by simpa using hW⟩
  simp only [txn, flockAttempt_eq m f inode owner F_RDLCK db hg hfi hn, if_true, hany]

/-- The read attempt that finds no 'W' row writes the caller's row as 'R'. -/
theorem flockAttempt_read_ok (m : dbMeta) (f : Faults) (inode : Ino) (owner : Int)
    (db : DB) (hf : NoFault f) (hn : inode ∈ db.nodes)
    (hc : ∀ r ∈ db.flocks, r.inode = inode → r.ltype ≠ 'W') :
    txn (flockAttempt m f inode owner F_RDLCK) db =
      (none, { db with
        flocks := if db.flocks.any (sameFlock inode m.sid owner) then
            db.flocks.map (fun r => if sameFlock inode m.sid owner r then
              { inode := inode, sid := m.sid, owner := owner, ltype := 'R' } else r)
          else db.flocks ++ [{ inode := inode, sid := m.sid, owner := owner, ltype := 'R' }] }) := by
  obtain ⟨hg, hfi, hw, hz, _⟩ := hf
  have hany : ¬ (flockMap (db.flocks.filter (fun r => decide (r.inode = inode)))).any
      (fun p => decide (p.2.ltype = 'W')) = true := by
    intro h
    obtain ⟨p, hp, hpW⟩ := List.any_eq_true.mp h
    obtain ⟨hm, _⟩ := flockMap_value_mem _ p hp
    simp only [List.mem_filter, decide_eq_true_eq] at hm
    exact hc p.2 hm.1 hm.2 (by simpa using hpW)
  unfold txn
  rw [flockAttempt_eq m f inode owner F_RDLCK db hg hfi hn]
  simp only [if_true, hany, if_false, mustInsert, hw, hz, Bool.false_eq_true]
  by_cases hs : db.flocks.any (sameFlock inode m.sid owner) = true
  · simp [hs]
  · simp [hs]

/-- C3: a write `Flock` on an existing inode with a working store. If another holder
has a whole-file row on the inode (of any type), the attempt ends in EAGAIN and
changes nothing; otherwise the call returns 0 and the caller then has exactly one
whole-file row on the inode, of type 'W': its earlier row with the type set in
place if it had one, a row added at the end if it had none. -/
theorem flock_write_request (m : dbMeta) (store : Nat → Faults) (ctx : Context) (inode : Ino)
    (owner_ : Nat) (block : Bool) (fuel : Nat) (db : DB) (hn : inode ∈ db.nodes)
    (hf : NoFault (store 0)) (hu : FlockKeysUnique db.flocks) :
    ((∃ r ∈ db.flocks, r.inode = inode ∧ (r.sid, r.owner) ≠ (m.sid, int64 owner_)) →
        txn (flockAttempt m (store 0) inode (int64 owner_) F_WRLCK) db =
          (some (GoError.errno EAGAIN), db) ∧
        Flock m store ctx inode owner_ F_WRLCK false (fuel + 1) db = some (EAGAIN, db)) ∧
      ((∀ r ∈ db.flocks, r.inode = inode → (r.sid, r.owner) = (m.sid, int64 owner_)) →
        ∃ db1, Flock m store ctx inode owner_ F_WRLCK block (fuel + 1) db = some (0, db1) ∧
          db1.nodes = db.nodes ∧ db1.plocks = db.plocks ∧
          db1.flocks.filter (sameFlock inode m.sid (int64 owner_)) =
            [{ inode := inode, sid := m.sid, owner := int64 owner_, ltype := 'W' }] ∧
          ((∃ r ∈ db.flocks, sameFlock inode m.sid (int64 owner_) r = true) →
            db1.flocks = db.flocks.map (fun r =>
              if sameFlock inode m.sid (int64 owner_) r then { r with ltype := 'W' } else r)) ∧
          ((∀ r ∈ db.flocks, sameFlock inode m.sid (int64 owner_) r = false) →
            db1.flocks = db.flocks ++
              [{ inode := inode, sid := m.sid, owner := int64 owner_, ltype := 'W' }])) := by
  constructor
  · intro hc
    have ha := flockAttempt_write_conflict m (store 0) inode (int64 owner_) F_WRLCK db
      hf.1 hf.2.1 hn (by decide) hc
    refine ⟨ha, ?_⟩
    rw [Flock_lock_eq _ _ _ _ _ _ _ _ _ (by decide), flockLoop_once _ _ _ _ _ _ _ _ _ _ (Or.inl rfl),
      ha]
    rfl
  · intro hc
    have ha := flockAttempt_write_ok m (store 0) inode (int64 owner_) F_WRLCK db hf hn
      (by decide) hc
    refine ⟨(txn (flockAttempt m (store 0) inode (int64 owner_) F_WRLCK) db).2, ?_, ?_⟩
    · rw [Flock_lock_eq _ _ _ _ _ _ _ _ _ (by decide),
        flockLoop_once _ _ _ _ _ _ _ _ _ _ (Or.inr (by rw [ha]; simp [errno, EAGAIN])), ha]
      rfl
    rw [ha]
    refine ⟨rfl, rfl, ?_, ?_, ?_⟩
    · by_cases hany : db.flocks.any (sameFlock inode m.sid (int64 owner_)) = true
      · simp only [hany, if_true]
        obtain ⟨r0, hr0, hs0⟩ := List.any_eq_true.mp hany
        apply filter_eq_singleton
        · apply List.Nodup.of_map flockKey
          rw [map_flockKey_replace]
          · exact hu
          · intro r _
            by_cases hs : sameFlock inode m.sid (int64 owner_) r = true
            · simp only [hs, if_true]; rfl
            · simp only [hs]; rfl
        · apply List.mem_map.mpr
          exact ⟨r0, hr0, by rw [if_pos hs0]; exact sameFlock_setW _ _ _ _ hs0⟩
        · simp [sameFlock]
        · intro x hx hsx
          obtain ⟨r, hr, rfl⟩ := List.mem_map.mp hx
          by_cases hs : sameFlock inode m.sid (int64 owner_) r = true
          · rw [if_pos hs]; exact sameFlock_setW _ _ _ _ hs
          · rw [if_neg hs] at hsx; exact absurd hsx hs
      · simp only [hany]
        have hnone : db.flocks.filter (sameFlock inode m.sid (int64 owner_)) = [] := by
          rw [List.filter_eq_nil_iff]
          intro a ha hs
          exact hany (List.any_eq_true.mpr ⟨a, ha, hs⟩)
        simp [List.filter_append, hnone, sameFlock]
    · intro hex
      have hany : db.flocks.any (sameFlock inode m.sid (int64 owner_)) = true :=
        List.any_eq_true.mpr hex
      simp only [hany, if_true]
    · intro hno
      have hany : ¬ db.flocks.any (sameFlock inode m.sid (int64 owner_)) = true := by
        intro h
        obtain ⟨r, hr, hs⟩ := List.any_eq_true.mp h
        rw [hno r hr] at hs
        exact absurd hs (by decide)
      simp only [hany]
      rfl

theorem noFault_healthy (k : Nat) : NoFault (healthy k) :=
  ⟨rfl, rfl, rfl, rfl, fun _ => rfl⟩

theorem flock_write_request_witness :
    Flock ⟨1⟩ healthy background 5 7 F_WRLCK false 1 ⟨[5], [⟨5, 2, 9, 'R'⟩], []⟩ =
        some (EAGAIN, ⟨[5], [⟨5, 2, 9, 'R'⟩], []⟩) ∧
      ∃ db1, Flock ⟨1⟩ healthy background 5 7 F_WRLCK true 1 ⟨[5], [⟨5, 1, 7, 'R'⟩], []⟩ =
          some (0, db1) ∧
        db1.flocks.filter (sameFlock 5 1 (int64 7)) = [⟨5, 1, int64 7, 'W'⟩] :=
  ⟨((flock_write_request ⟨1⟩ healthy background 5 7 false 0 ⟨[5], [⟨5, 2, 9, 'R'⟩], []⟩
      (by decide) (noFault_healthy 0) (by simp [FlockKeysUnique])).1
      ⟨⟨5, 2, 9, 'R'⟩, by simp, rfl, by decide⟩).2,
    let h := (flock_write_request ⟨1⟩ healthy background 5 7 true 0 ⟨[5], [⟨5, 1, 7, 'R'⟩], []⟩
      (by decide) (noFault_healthy 0) (by simp [FlockKeysUnique])).2
      (by intro r hr _; simp at hr; rw [hr]; decide)
    ⟨h.choose, h.choose_spec.1, h.choose_spec.2.2.2.1⟩⟩

/-- C5: a read `Flock` on an existing inode that carries no 'W' row, by a holder
without a row on it, returns 0 and adds the holder's 'R' row after the rows that
were there, which stay as they are; the inode then has one more row, however many
it had. -/
theorem flock_read_shared (m : dbMeta) (store : Nat → Faults) (ctx : Context) (inode : Ino)
    (owner_ : Nat) (block : Bool) (fuel : Nat) (db : DB) (hn : inode ∈ db.nodes)
    (hf : NoFault (store 0)) (hr : ∀ r ∈ db.flocks, r.inode = inode → r.ltype ≠ 'W')
    (hnew : ∀ r ∈ db.flocks, r.inode = inode → (r.sid, r.owner) ≠ (m.sid, int64 owner_)) :
    Flock m store ctx inode owner_ F_RDLCK block (fuel + 1) db =
        some (0, { db with
          flocks := db.flocks ++
            [{ inode := inode, sid := m.sid, owner := int64 owner_, ltype := 'R' }] }) ∧
      (db.flocks ++ [({ inode := inode, sid := m.sid, owner := int64 owner_, ltype := 'R' } :
          flock)]).filter (fun r => decide (r.inode = inode)) =
        db.flocks.filter (fun r => decide (r.inode = inode)) ++
          [{ inode := inode, sid := m.sid, owner := int64 owner_, ltype := 'R' }] := by
  have ha := flockAttempt_read_ok m (store 0) inode (int64 owner_) db hf hn hr
  have hany : ¬ db.flocks.any (sameFlock inode m.sid (int64 owner_)) = true := by
    intro h
    obtain ⟨r, hr1, hs⟩ := List.any_eq_true.mp h
    simp only [sameFlock, decide_eq_true_eq] at hs
    exact hnew r hr1 hs.1 (by rw [hs.2.1, hs.2.2])
  simp only [hany] at ha
  constructor
  · rw [Flock_lock_eq _ _ _ _ _ _ _ _ _ (by decide),
      flockLoop_once _ _ _ _ _ _ _ _ _ _ (Or.inr (by rw [ha]; simp [errno, EAGAIN])), ha]
    rfl
  · simp [List.filter_append]

theorem flock_read_shared_witness :
    Flock ⟨3⟩ healthy background 5 1 F_RDLCK true 1
        ⟨[5], [⟨5, 1, 7, 'R'⟩, ⟨5, 2, 7, 'R'⟩], []⟩ =
      some (0, ⟨[5], [⟨5, 1, 7, 'R'⟩, ⟨5, 2, 7, 'R'⟩, ⟨5, 3, 1, 'R'⟩], []⟩) :=
  (flock_read_shared ⟨3⟩ healthy background 5 1 true 0
    ⟨[5], [⟨5, 1, 7, 'R'⟩, ⟨5, 2, 7, 'R'⟩], []⟩ (by decide) (noFault_healthy 0)
    (by decide) (by decide)).1

/-- C6: on an existing inode on which another holder has a 'W' row, a read `Flock`
with block=false returns EAGAIN after its first attempt and changes nothing. -/
theorem flock_read_would_block (m : dbMeta) (store : Nat → Faults) (ctx : Context)
    (inode : Ino) (owner_ : Nat) (fuel : Nat) (db : DB) (hn : inode ∈ db.nodes)
    (hf : NoFault (store 0)) (hu : FlockKeysUnique db.flocks)
    (hW : ∃ r ∈ db.flocks, r.inode = inode ∧ r.ltype = 'W' ∧
      (r.sid, r.owner) ≠ (m.sid, int64 owner_)) :
    Flock m store ctx inode owner_ F_RDLCK false (fuel + 1) db = some (EAGAIN, db) := by
  obtain ⟨r, hr, hi, hw, _⟩ := hW
  have ha := flockAttempt_read_conflict m (store 0) inode (int64 owner_) db hf.1 hf.2.1 hn hu
    ⟨r, hr, hi, hw⟩
  rw [Flock_lock_eq _ _ _ _ _ _ _ _ _ (by decide), flockLoop_once _ _ _ _ _ _ _ _ _ _ (Or.inl rfl),
    ha]
  rfl

theorem flock_read_would_block_witness :
    Flock ⟨2⟩ healthy background 5 9 F_RDLCK false 1 ⟨[5], [⟨5, 1, 7, 'W'⟩], []⟩ =
      some (EAGAIN, ⟨[5], [⟨5, 1, 7, 'W'⟩], []⟩) :=
  flock_read_would_block ⟨2⟩ healthy background 5 9 0 ⟨[5], [⟨5, 1, 7, 'W'⟩], []⟩
    (by decide) (noFault_healthy 0) (by simp [FlockKeysUnique])
    ⟨⟨5, 1, 7, 'W'⟩, by simp, rfl, rfl, by decide⟩

theorem flockLoop_own_write_spins (fuel k : Nat) :
    flockLoop ⟨1⟩ healthy background 5 (int64 7) F_RDLCK true fuel k
      ⟨[5], [⟨5, 1, 7, 'W'⟩], []⟩ = none := by
  induction fuel generalizing k with
  | zero => rfl
  | succ n ih =>
    have ha : txn (flockAttempt ⟨1⟩ (healthy k) 5 (int64 7) F_RDLCK) ⟨[5], [⟨5, 1, 7, 'W'⟩], []⟩ =
        (some (GoError.errno EAGAIN), ⟨[5], [⟨5, 1, 7, 'W'⟩], []⟩) :=
      flockAttempt_read_conflict ⟨1⟩ (healthy k) 5 (int64 7) _ rfl rfl (by decide)
        (by simp [FlockKeysUnique]) ⟨⟨5, 1, 7, 'W'⟩, by simp, rfl, rfl⟩
    simp only [flockLoop, ha]
    simpa [errno, background] using ih (k + 1)

/-- C4 (the code at the failing input): holder (1, 7) takes the write lock on inode 5
and then asks for the read lock. The read request finds the holder's own 'W' row
in the map and ends in EAGAIN; the row stays 'W'. With block=true and no
cancellation the call never returns. -/
theorem flock_downgrade_would_block :
    Flock ⟨1⟩ healthy background 5 7 F_WRLCK false 1 ⟨[5], [], []⟩ =
        some (0, ⟨[5], [⟨5, 1, 7, 'W'⟩], []⟩) ∧
      Flock ⟨1⟩ healthy background 5 7 F_RDLCK false 1 ⟨[5], [⟨5, 1, 7, 'W'⟩], []⟩ =
        some (EAGAIN, ⟨[5], [⟨5, 1, 7, 'W'⟩], []⟩) ∧
      ∀ fuel, Flock ⟨1⟩ healthy background 5 7 F_RDLCK true fuel
        ⟨[5], [⟨5, 1, 7, 'W'⟩], []⟩ = none := by
  refine ⟨by decide, by decide, ?_⟩
  intro fuel
  rw [Flock_lock_eq _ _ _ _ _ _ _ _ _ (by decide)]
  exact flockLoop_own_write_spins fuel 0

/-! ## The byte-range lock table -/

theorem plockMap_mem (ps : List plock) (p : key × List Nat) (h : p ∈ plockMap ps) :
    ∃ l ∈ ps, p = ((l.sid, l.owner), l.records) := by
  rcases mem_foldl_mapSet (fun l : plock => (l.sid, l.owner)) (fun l => l.records) ps [] p h with
    h1 | h1
  · simp at h1
  · exact h1

theorem plockMap_of_mem (ps : List plock)
    (hnd : (ps.map (fun l : plock => (l.sid, l.owner))).Nodup) (l : plock) (hl : l ∈ ps) :
    ((l.sid, l.owner), l.records) ∈ plockMap ps :=
  foldl_mapSet_of_mem (fun l : plock => (l.sid, l.owner)) (fun l => l.records) ps [] hnd l hl

/-- Among the rows of one inode the holder (sid, owner) identifies the row. -/
theorem nodup_pholders_of_unique (t : List plock) (h : PlockKeysUnique t) (inode : Ino)
    (c : plock → Bool) :
    (((t.filter (fun r => decide (r.inode = inode))).filter c).map
      (fun l : plock => (l.sid, l.owner))).Nodup := by
  apply List.Nodup.map_on
  · intro x hx y hy hxy
    simp only [List.mem_filter, decide_eq_true_eq] at hx hy
    apply List.inj_on_of_nodup_map h hx.1.1 hy.1.1
    simp only [plockKey, Prod.mk.injEq] at hxy ⊢
    exact ⟨hx.1.2.trans hy.1.2.symm, hxy.1, hxy.2⟩
  · exact ((List.Nodup.of_map _ h).filter _).filter _

theorem conflicted_iff (ltype start end_ : Nat) (l : plockRecord) :
    conflicted ltype start end_ l = true ↔
      (ltype = F_WRLCK ∨ l.ltype = F_WRLCK) ∧ end_ ≥ l.start ∧ start ≤ l.end_ := by
  simp [conflicted, and_assoc]

theorem txn_fst (fn : DB → Option GoError × DB) (db : DB) : (txn fn db).1 = (fn db).1 := by
  unfold txn
  rcases fn db with ⟨_ | e, d⟩ <;> rfl

theorem txn_snd_of_error (fn : DB → Option GoError × DB) (db : DB) (h : (fn db).1 ≠ none) :
    (txn fn db).2 = db := by
  unfold txn
  rcases hx : fn db with ⟨_ | e, d⟩
  · rw [hx] at h; exact absurd rfl h
  · rfl

/-- The conflict scan of `Setlk` over the local map, read off the table. -/
theorem setlk_scan_iff (ops : RecordOps) (t : List plock) (hu : PlockKeysUnique t)
    (inode : Ino) (lkey : key) (ltype start end_ : Nat) :
    (plockMap (t.filter (fun r => decide (r.inode = inode)))).any
        (fun p => decide (p.1 ≠ lkey) && (ops.loadLocks p.2).any (conflicted ltype start end_))
        = true ↔
      ∃ r ∈ t, r.inode = inode ∧ (r.sid, r.owner) ≠ lkey ∧
        ∃ l ∈ ops.loadLocks r.records, conflicted ltype start end_ l = true := by
  rw [List.any_eq_true]
  constructor
  · rintro ⟨p, hp, hc⟩
    obtain ⟨r, hr, rfl⟩ := plockMap_mem _ p hp
    simp only [List.mem_filter, decide_eq_true_eq] at hr
    simp only [Bool.and_eq_true, decide_eq_true_eq, List.any_eq_true] at hc
    exact ⟨r, hr.1, hr.2, hc.1, hc.2⟩
  · rintro ⟨r, hr, hi, hk, hl⟩
    have hnd := nodup_pholders_of_unique t hu inode (fun _ => true)
    rw [List.filter_true] at hnd
    refine ⟨_, plockMap_of_mem _ hnd r (by simp [List.mem_filter, hr, hi]), ?_⟩
    simp only [Bool.and_eq_true, decide_eq_true_eq, List.any_eq_true]
    exact ⟨hk, hl⟩

/-- The lock branch of `setlkAttempt` after the node lookup and the scan have succeeded. -/
theorem setlkAttempt_eq_lock (ops : RecordOps) (m : dbMeta) (f : Faults) (inode : Ino)
    (owner : Int) (ltype start end_ pid : Nat) (db : DB) (hg : f.get = none)
    (hfi : f.find = none) (hn : inode ∈ db.nodes) (hl : ltype ≠ F_UNLCK) :
    setlkAttempt ops m f inode owner ltype start end_ pid db =
      if (plockMap (db.plocks.filter (fun r => decide (r.inode = inode)))).any
          (fun p => decide (p.1 ≠ (m.sid, owner)) &&
            (ops.loadLocks p.2).any (conflicted ltype start end_)) then
        (some (GoError.errno EAGAIN), db)
      else
        checkAffected
          (if ((mapGet (plockMap (db.plocks.filter (fun r => decide (r.inode = inode))))
              (m.sid, owner)).getD []).length > 0 then
            updatePlockRecords f
              (ops.dumpLocks (ops.updateLocks (ops.loadLocks
                ((mapGet (plockMap (db.plocks.filter (fun r => decide (r.inode = inode))))
                  (m.sid, owner)).getD []))
                { ltype := ltype, pid := pid, start := start, end_ := end_ }))
              (samePlock inode m.sid owner) db
          else insertOnePlock f
            { inode := inode, sid := m.sid, owner := owner,
              records := ops.dumpLocks (ops.updateLocks (ops.loadLocks
                ((mapGet (plockMap (db.plocks.filter (fun r => decide (r.inode = inode))))
                  (m.sid, owner)).getD []))
                { ltype := ltype, pid := pid, start := start, end_ := end_ }) } db) := by
  unfold setlkAttempt
  simp only [getNode, hg, hn, decide_True, findPlocks, hfi, hl, if_false]

theorem errno_storeError (e : Option GoError) (h : StoreError e) : errno e ≠ EAGAIN := by
  rcases h with rfl | ⟨msg, rfl⟩ <;> simp [errno, EAGAIN, EIO]

theorem checkAffected_storeError (r : Nat × Option GoError × DB) (h : StoreError r.2.1) :
    StoreError (checkAffected r).1 := by
  unfold checkAffected
  split
  · exact Or.inr ⟨_, rfl⟩
  · exact h

theorem updatePlockRecords_storeError (f : Faults) (records : List Nat) (cond : plock → Bool)
    (db : DB) : StoreError (updatePlockRecords f records cond db).2.1 := by
  unfold updatePlockRecords
  cases f.write with
  | some msg => exact Or.inr ⟨_, rfl⟩
  | none =>
    cases f.zeroRows <;> exact Or.inl rfl

theorem insertOnePlock_storeError (f : Faults) (row : plock) (db : DB) :
    StoreError (insertOnePlock f row db).2.1 := by
  unfold insertOnePlock
  cases f.write with
  | some msg => exact Or.inr ⟨_, rfl⟩
  | none =>
    cases f.zeroRows with
    | true => exact Or.inl rfl
    | false =>
      simp only [Bool.false_eq_true, if_false]
      split
      · exact Or.inr ⟨_, rfl⟩
      · exact Or.inl rfl

theorem deletePlock_storeError (f : Faults) (inode : Ino) (sid : Nat) (owner : Int) (db : DB) :
    StoreError (deletePlock f inode sid owner db).2.1 := by
  unfold deletePlock
  cases f.write with
  | some msg => exact Or.inr ⟨_, rfl⟩
  | none => exact Or.inl rfl

/-- An attempt of `Setlk` ends in EAGAIN only from the conflict scan of the lock branch. -/
theorem setlkAttempt_eagain (ops : RecordOps) (m : dbMeta) (f : Faults) (inode : Ino)
    (owner : Int) (ltype start end_ pid : Nat) (db : DB)
    (h : errno (setlkAttempt ops m f inode owner ltype start end_ pid db).1 = EAGAIN) :
    (plockMap (db.plocks.filter (fun r => decide (r.inode = inode)))).any
        (fun p => decide (p.1 ≠ (m.sid, owner)) &&
          (ops.loadLocks p.2).any (conflicted ltype start end_)) = true := by
  by_contra hno
  revert h
  cases hg : f.get with
  | some msg => simp [setlkAttempt, getNode, hg, errno, EAGAIN, EIO]
  | none =>
    by_cases hn : inode ∈ db.nodes
    · cases hfi : f.find with
      | some msg =>
        by_cases hl : ltype = F_UNLCK
        · simp [setlkAttempt, getNode, hg, hn, hl, getPlock, findPlocks, hfi, errno, EAGAIN, EIO]
        · simp [setlkAttempt, getNode, hg, hn, hl, getPlock, findPlocks, hfi, errno, EAGAIN, EIO]
      | none =>
        by_cases hl : ltype = F_UNLCK
        · unfold setlkAttempt
          simp only [getNode, hg, hn, decide_True, hl, if_true, getPlock, hfi]
          cases db.plocks.find? (samePlock inode m.sid owner) with
          | none => simp [errno, EAGAIN]
          | some l =>
            simp only
            split
            · simp [errno, EAGAIN]
            · split
              · exact errno_storeError _ (deletePlock_storeError _ _ _ _ _)
              · exact errno_storeError _ (updatePlockRecords_storeError _ _ _ _)
        · rw [setlkAttempt_eq_lock ops m f inode owner ltype start end_ pid db hg hfi hn hl]
          simp only [hno]
          apply errno_storeError
          apply checkAffected_storeError
          split
          · exact updatePlockRecords_storeError _ _ _ _
          · exact insertOnePlock_storeError _ _ _
    · simp [setlkAttempt, getNode, hg, hn, errno, EAGAIN, ENOENT]

theorem setlkLoop_once (ops : RecordOps) (m : dbMeta) (store : Nat → Faults) (ctx : Context)
    (inode : Ino) (owner : Int) (block : Bool) (ltype start end_ pid : Nat) (fuel k : Nat)
    (db : DB)
    (h : block = false ∨
      errno (txn (setlkAttempt ops m (store k) inode owner ltype start end_ pid) db).1 ≠ EAGAIN) :
    setlkLoop ops m store ctx inode owner block ltype start end_ pid (fuel + 1) k db =
      some (errno (txn (setlkAttempt ops m (store k) inode owner ltype start end_ pid) db).1,
        (txn (setlkAttempt ops m (store k) inode owner ltype start end_ pid) db).2) := by
  simp only [setlkLoop]
  rcases h with h | h
  · simp [h]
  · simp [h]

/-- C2: a non-blocking read or write `Setlk` on an existing inode, with a working
store, returns EAGAIN exactly when a byte-range row of the inode held under another
(sid, owner) has a record that meets [start, end] while the request or the record
is a write; in that case nothing is changed. -/
theorem setlk_conflict_iff (ops : RecordOps) (m : dbMeta) (store : Nat → Faults)
    (ctx : Context) (inode : Ino) (owner_ ltype start end_ pid fuel : Nat) (db : DB)
    (hl : ltype = F_RDLCK ∨ ltype = F_WRLCK) (hn : inode ∈ db.nodes)
    (hf : NoFault (store 0)) (hu : PlockKeysUnique db.plocks) :
    ((Setlk ops m store ctx inode owner_ false ltype start end_ pid (fuel + 1) db).map Prod.fst =
          some EAGAIN ↔
        ∃ r ∈ db.plocks, r.inode = inode ∧ (r.sid, r.owner) ≠ (m.sid, int64 owner_) ∧
          ∃ l ∈ ops.loadLocks r.records,
            end_ ≥ l.start ∧ start ≤ l.end_ ∧ (ltype = F_WRLCK ∨ l.ltype = F_WRLCK)) ∧
      ((∃ r ∈ db.plocks, r.inode = inode ∧ (r.sid, r.owner) ≠ (m.sid, int64 owner_) ∧
          ∃ l ∈ ops.loadLocks r.records,
            end_ ≥ l.start ∧ start ≤ l.end_ ∧ (ltype = F_WRLCK ∨ l.ltype = F_WRLCK)) →
        Setlk ops m store ctx inode owner_ false ltype start end_ pid (fuel + 1) db =
          some (EAGAIN, db)) := by
  have hne : ltype ≠ F_UNLCK := by
    rcases hl with rfl | rfl <;> decide
  have hscan := setlk_scan_iff ops db.plocks hu inode (m.sid, int64 owner_) ltype start end_
  have hrw : (∃ r ∈ db.plocks, r.inode = inode ∧ (r.sid, r.owner) ≠ (m.sid, int64 owner_) ∧
      ∃ l ∈ ops.loadLocks r.records,
        end_ ≥ l.start ∧ start ≤ l.end_ ∧ (ltype = F_WRLCK ∨ l.ltype = F_WRLCK)) ↔
      ∃ r ∈ db.plocks, r.inode = inode ∧ (r.sid, r.owner) ≠ (m.sid, int64 owner_) ∧
        ∃ l ∈ ops.loadLocks r.records, conflicted ltype start end_ l = true := by
    simp only [conflicted_iff]
    constructor
    · rintro ⟨r, hr, hi, hk, l, hl1, h1, h2, h3⟩
      exact ⟨r, hr, hi, hk, l, hl1, h3, h1, h2⟩
    · rintro ⟨r, hr, hi, hk, l, hl1, h3, h1, h2⟩
      exact ⟨r, hr, hi, hk, l, hl1, h1, h2, h3⟩
  rw [hrw, ← hscan]
  have hS : Setlk ops m store ctx inode owner_ false ltype start end_ pid (fuel + 1) db =
      some (errno (txn (setlkAttempt ops m (store 0) inode (int64 owner_) ltype start end_ pid)
          db).1,
        (txn (setlkAttempt ops m (store 0) inode (int64 owner_) ltype start end_ pid) db).2) := by
    unfold Setlk
    exact setlkLoop_once _ _ _ _ _ _ _ _ _ _ _ _ _ _ (Or.inl rfl)
  have hconf : (plockMap (db.plocks.filter (fun r => decide (r.inode = inode)))).any
        (fun p => decide (p.1 ≠ (m.sid, int64 owner_)) &&
          (ops.loadLocks p.2).any (conflicted ltype start end_)) = true →
      txn (setlkAttempt ops m (store 0) inode (int64 owner_) ltype start end_ pid) db =
        (some (GoError.errno EAGAIN), db) := by
    intro hc
    simp only [txn, setlkAttempt_eq_lock ops m (store 0) inode (int64 owner_) ltype start end_ pid
      db hf.1 hf.2.1 hn hne, hc, if_true]
  constructor
  · constructor
    · intro h
      rw [hS] at h
      simp only [Option.map_some', Option.some.injEq, txn_fst] at h
      exact setlkAttempt_eagain ops m (store 0) inode (int64 owner_) ltype start end_ pid db h
    · intro hc
      rw [hS, hconf hc]
      rfl
  · intro hc
    rw [hS, hconf hc]
    rfl

/-- C7: when every byte-range row of the inode belongs to the caller's own
(sid, owner), `Setlk` returns after one attempt with an error code that is not
EAGAIN, for every type, range, blocking mode and store behaviour. -/
theorem setlk_own_rows_no_conflict (ops : RecordOps) (m : dbMeta) (store : Nat → Faults)
    (ctx : Context) (inode : Ino) (owner_ : Nat) (block : Bool)
    (ltype start end_ pid fuel : Nat) (db : DB)
    (hown : ∀ r ∈ db.plocks, r.inode = inode → (r.sid, r.owner) = (m.sid, int64 owner_)) :
    ∃ err db1,
      Setlk ops m store ctx inode owner_ block ltype start end_ pid (fuel + 1) db =
        some (err, db1) ∧ err ≠ EAGAIN := by
  have hno : errno (txn (setlkAttempt ops m (store 0) inode (int64 owner_) ltype start end_ pid)
      db).1 ≠ EAGAIN := by
    rw [txn_fst]
    intro h
    have hc := setlkAttempt_eagain ops m (store 0) inode (int64 owner_) ltype start end_ pid db h
    obtain ⟨p, hp, hpc⟩ := List.any_eq_true.mp hc
    obtain ⟨r, hr, rfl⟩ := plockMap_mem _ p hp
    simp only [List.mem_filter, decide_eq_true_eq] at hr
    simp only [Bool.and_eq_true, decide_eq_true_eq] at hpc
    exact hpc.1 (hown r hr.1 hr.2)
  refine ⟨errno (txn (setlkAttempt ops m (store 0) inode (int64 owner_) ltype start end_ pid)
      db).1, (txn (setlkAttempt ops m (store 0) inode (int64 owner_) ltype start end_ pid) db).2,
    ?_, hno⟩
  unfold Setlk
  exact setlkLoop_once _ _ _ _ _ _ _ _ _ _ _ _ _ _ (Or.inr hno)

theorem setlk_conflict_iff_witness :
    Setlk specOps ⟨1⟩ healthy background 5 7 false F_WRLCK 0 99 42 1 ⟨[5], [], []⟩ =
        some (0, ⟨[5], [], [⟨5, 1, 7, encodeRecords [⟨F_WRLCK, 42, 0, 99⟩]⟩]⟩) ∧
      Setlk specOps ⟨2⟩ healthy background 5 9 false F_WRLCK 50 149 43 1
          ⟨[5], [], [⟨5, 1, 7, encodeRecords [⟨F_WRLCK, 42, 0, 99⟩]⟩]⟩ =
        some (EAGAIN, ⟨[5], [], [⟨5, 1, 7, encodeRecords [⟨F_WRLCK, 42, 0, 99⟩]⟩]⟩) :=
  ⟨by decide,
    (setlk_conflict_iff specOps ⟨2⟩ healthy background 5 9 F_WRLCK 50 149 43 0
      ⟨[5], [], [⟨5, 1, 7, encodeRecords [⟨F_WRLCK, 42, 0, 99⟩]⟩]⟩ (Or.inr rfl) (by decide)
      (noFault_healthy 0) (by simp [PlockKeysUnique])).2
      ⟨⟨5, 1, 7, encodeRecords [⟨F_WRLCK, 42, 0, 99⟩]⟩, by simp, rfl, by decide,
        ⟨F_WRLCK, 42, 0, 99⟩, by decide, by decide, by decide, Or.inl rfl⟩⟩

theorem setlk_own_rows_no_conflict_witness :
    ∃ err db1,
      Setlk specOps ⟨1⟩ healthy background 5 7 true F_WRLCK 50 99 42 1
          ⟨[5], [], [⟨5, 1, 7, encodeRecords [⟨F_RDLCK, 42, 0, 199⟩]⟩]⟩ = some (err, db1) ∧
        err ≠ EAGAIN :=
  setlk_own_rows_no_conflict specOps ⟨1⟩ healthy background 5 7 true F_WRLCK 50 99 42 0
    ⟨[5], [], [⟨5, 1, 7, encodeRecords [⟨F_RDLCK, 42, 0, 199⟩]⟩]⟩ (by decide)

/-- C10 (as stated, refuted): on an inode without a node row, `Setlk` with ltype
unlock by a holder without any lock returns ENOENT, not success. -/
theorem setlk_unlock_missing_inode :
    Setlk specOps ⟨1⟩ healthy background 5 7 false F_UNLCK 0 99 42 1 ⟨[], [], []⟩ =
        some (ENOENT, ⟨[], [], []⟩) ∧ ENOENT ≠ 0 := by
  decide

/-- C10 (amended): for a holder without a whole-file row and without a byte-range
row on the inode, and a working store, `Flock` with ltype unlock returns 0 and
`Setlk` with ltype unlock (any range, blocking or not) returns 0 when the inode has
a node row and ENOENT when it has none; each of them leaves the store as it was. -/
theorem unlock_without_lock (ops : RecordOps) (m : dbMeta) (store : Nat → Faults)
    (ctx : Context) (inode : Ino) (owner_ : Nat) (block : Bool) (start end_ pid fuel : Nat)
    (db : DB) (hf : NoFault (store 0))
    (hF : ∀ r ∈ db.flocks, ¬ (r.inode = inode ∧ r.sid = m.sid ∧ r.owner = int64 owner_))
    (hP : ∀ r ∈ db.plocks, ¬ (r.inode = inode ∧ r.sid = m.sid ∧ r.owner = int64 owner_)) :
    Flock m store ctx inode owner_ F_UNLCK block fuel db = some (0, db) ∧
      (inode ∈ db.nodes →
        Setlk ops m store ctx inode owner_ block F_UNLCK start end_ pid (fuel + 1) db =
          some (0, db)) ∧
      (inode ∉ db.nodes →
        Setlk ops m store ctx inode owner_ block F_UNLCK start end_ pid (fuel + 1) db =
          some (ENOENT, db)) := by
  obtain ⟨hg, hfi, hw, hz, _⟩ := hf
  refine ⟨?_, ?_, ?_⟩
  · have hfilter : db.flocks.filter (fun r => !sameFlock inode m.sid (int64 owner_) r) =
        db.flocks := by
      rw [List.filter_eq_self]
      intro r hr
      have hr2 := hF r hr
      simp [sameFlock, hr2]
    simp only [Flock, if_true, txn, deleteFlock, hw, hfilter, errno]
  · intro hn
    have ha : txn (setlkAttempt ops m (store 0) inode (int64 owner_) F_UNLCK start end_ pid) db =
        (none, db) := by
      have hfind : db.plocks.find? (samePlock inode m.sid (int64 owner_)) = none := by
        rw [List.find?_eq_none]
        intro r hr
        have hr2 := hP r hr
        simp [samePlock, hr2]
      simp only [txn, setlkAttempt, getNode, hg, hn, decide_True, if_true, getPlock, hfi, hfind]
    unfold Setlk
    rw [setlkLoop_once _ _ _ _ _ _ _ _ _ _ _ _ _ _ (Or.inr (by rw [ha]; simp [errno, EAGAIN])), ha]
    rfl
  · intro hn
    have ha : txn (setlkAttempt ops m (store 0) inode (int64 owner_) F_UNLCK start end_ pid) db =
        (some (GoError.errno ENOENT), db) := by
      simp only [txn, setlkAttempt, getNode, hg, hn, decide_False]
    unfold Setlk
    rw [setlkLoop_once _ _ _ _ _ _ _ _ _ _ _ _ _ _
      (Or.inr (by rw [ha]; simp [errno, EAGAIN, ENOENT])), ha]
    rfl

theorem unlock_without_lock_witness :
    Flock ⟨2⟩ healthy background 5 9 F_UNLCK true 0
        ⟨[5], [⟨5, 1, 7, 'W'⟩], [⟨5, 1, 7, encodeRecords [⟨F_WRLCK, 42, 0, 99⟩]⟩]⟩ =
      some (0, ⟨[5], [⟨5, 1, 7, 'W'⟩], [⟨5, 1, 7, encodeRecords [⟨F_WRLCK, 42, 0, 99⟩]⟩]⟩) ∧
    Setlk specOps ⟨2⟩ healthy background 5 9 true F_UNLCK 0 99 43 1
        ⟨[5], [⟨5, 1, 7, 'W'⟩], [⟨5, 1, 7, encodeRecords [⟨F_WRLCK, 42, 0, 99⟩]⟩]⟩ =
      some (0, ⟨[5], [⟨5, 1, 7, 'W'⟩], [⟨5, 1, 7, encodeRecords [⟨F_WRLCK, 42, 0, 99⟩]⟩]⟩) :=
  let h := unlock_without_lock specOps ⟨2⟩ healthy background 5 9 true 0 99 43 0
    ⟨[5], [⟨5, 1, 7, 'W'⟩], [⟨5, 1, 7, encodeRecords [⟨F_WRLCK, 42, 0, 99⟩]⟩]⟩
    (noFault_healthy 0) (by decide) (by decide)
  ⟨h.1, h.2.1 (by decide)⟩

/-! ## Getlk -/

theorem getlkMap_eq (m : dbMeta) (f : Faults) (owner : Int) (rows : List plock) :
    getlkMap m f owner rows =
      plockMap (rows.filter (fun l =>
        !f.scan l && !(decide (l.sid = m.sid) && decide (l.owner = owner)))) := by
  unfold getlkMap plockMap
  exact foldl_if_eq_filter _ _ rows []

theorem firstConflict_some (ops : RecordOps) (ltype start end_ : Nat)
    (entries : GoMap (List Nat)) (k : key) (l : plockRecord)
    (h : firstConflict ops ltype start end_ entries = some (k, l)) :
    ∃ d, (k, d) ∈ entries ∧ l ∈ ops.loadLocks d ∧ conflicted ltype start end_ l = true := by
  unfold firstConflict at h
  obtain ⟨p, hp, hfp⟩ := List.exists_of_findSome?_eq_some h
  simp only [Option.map_eq_some'] at hfp
  obtain ⟨l1, hfind, heq⟩ := hfp
  simp only [Prod.mk.injEq] at heq
  obtain ⟨rfl, rfl⟩ := heq
  exact ⟨p.2, hp, List.mem_of_find?_eq_some hfind, List.find?_some hfind⟩

theorem firstConflict_none (ops : RecordOps) (ltype start end_ : Nat)
    (entries : GoMap (List Nat)) :
    firstConflict ops ltype start end_ entries = none ↔
      ∀ p ∈ entries, ∀ l ∈ ops.loadLocks p.2, ¬ conflicted ltype start end_ l = true := by
  unfold firstConflict
  rw [List.findSome?_eq_none_iff]
  constructor
  · intro h p hp l hl
    have := h p hp
    simp only [Option.map_eq_none', List.find?_eq_none] at this
    exact this l hl
  · intro h p hp
    simp only [Option.map_eq_none', List.find?_eq_none]
    exact h p hp

/-- The answer of `Getlk` for a read or write query with a working store: some
conflicting record of another holder when there is one, "unlocked" when there is
none. -/
theorem Getlk_answer (ops : RecordOps) (m : dbMeta) (f : Faults)
    (order : GoMap (List Nat) → GoMap (List Nat)) (inode : Ino)
    (owner_ ltype start end_ pid : Nat) (db : DB) (hl : ltype ≠ F_UNLCK) (hf : NoFault f)
    (hu : PlockKeysUnique db.plocks) (horder : ∀ mp, (order mp).Perm mp) :
    ((∃ r ∈ db.plocks, r.inode = inode ∧ (r.sid, r.owner) ≠ (m.sid, int64 owner_) ∧
        ∃ l ∈ ops.loadLocks r.records, conflicted ltype start end_ l = true) →
      ∃ r ∈ db.plocks, r.inode = inode ∧ (r.sid, r.owner) ≠ (m.sid, int64 owner_) ∧
        ∃ l ∈ ops.loadLocks r.records, conflicted ltype start end_ l = true ∧
          Getlk ops m f order inode owner_ ltype start end_ pid db =
            (0, l.ltype, l.start, l.end_, if r.sid = m.sid then l.pid else 0)) ∧
      ((¬ ∃ r ∈ db.plocks, r.inode = inode ∧ (r.sid, r.owner) ≠ (m.sid, int64 owner_) ∧
        ∃ l ∈ ops.loadLocks r.records, conflicted ltype start end_ l = true) →
      Getlk ops m f order inode owner_ ltype start end_ pid db = (0, F_UNLCK, 0, 0, 0)) := by
  obtain ⟨_, hfi, _, _, hsc⟩ := hf
  have hG : Getlk ops m f order inode owner_ ltype start end_ pid db =
      match firstConflict ops ltype start end_ (order (getlkMap m f (int64 owner_)
        (db.plocks.filter (fun r => decide (r.inode = inode))))) with
      | some (k, l) => (0, l.ltype, l.start, l.end_, if k.1 = m.sid then l.pid else 0)
      | none => (0, F_UNLCK, 0, 0, 0) := by
    unfold Getlk
    simp only [hl, if_false, findPlocks, hfi]
  have hmemrow : ∀ p ∈ order (getlkMap m f (int64 owner_)
      (db.plocks.filter (fun r => decide (r.inode = inode)))),
      ∃ r ∈ db.plocks, r.inode = inode ∧ (r.sid, r.owner) ≠ (m.sid, int64 owner_) ∧
        p = ((r.sid, r.owner), r.records) := by
    intro p hp
    rw [(horder _).mem_iff, getlkMap_eq] at hp
    obtain ⟨r, hr, rfl⟩ := plockMap_mem _ p hp
    simp only [List.mem_filter, decide_eq_true_eq, hsc, Bool.not_false, Bool.true_and,
      Bool.not_eq_true', Bool.and_eq_false_imp, decide_eq_false_iff_not] at hr
    refine ⟨r, hr.1.1, hr.1.2, ?_, rfl⟩
    intro hk
    simp only [Prod.mk.injEq] at hk
    exact hr.2 hk.1 hk.2
  have hrowmem : ∀ r ∈ db.plocks, r.inode = inode → (r.sid, r.owner) ≠ (m.sid, int64 owner_) →
      ((r.sid, r.owner), r.records) ∈ order (getlkMap m f (int64 owner_)
        (db.plocks.filter (fun r => decide (r.inode = inode)))) := by
    intro r hr hi hk
    rw [(horder _).mem_iff, getlkMap_eq]
    apply plockMap_of_mem _ (nodup_pholders_of_unique db.plocks hu inode _) r
    simp only [List.mem_filter, decide_eq_true_eq, hsc, Bool.not_false, Bool.true_and,
      Bool.not_eq_true', Bool.and_eq_false_imp, decide_eq_false_iff_not]
    refine ⟨⟨hr, hi⟩, ?_⟩
    intro h1 h2
    exact hk (by rw [h1, h2])
  constructor
  · rintro ⟨r, hr, hi, hk, l, hlm, hc⟩
    cases hfc : firstConflict ops ltype start end_ (order (getlkMap m f (int64 owner_)
        (db.plocks.filter (fun r => decide (r.inode = inode))))) with
    | none =>
      exfalso
      exact (firstConflict_none _ _ _ _ _).mp hfc _ (hrowmem r hr hi hk) l hlm hc
    | some kl =>
      obtain ⟨k, l1⟩ := kl
      obtain ⟨d, hd, hl1, hc1⟩ := firstConflict_some _ _ _ _ _ _ _ hfc
      obtain ⟨r1, hr1, hi1, hk1, heq⟩ := hmemrow _ hd
      simp only [Prod.mk.injEq] at heq
      obtain ⟨rfl, rfl⟩ := heq
      refine ⟨r1, hr1, hi1, hk1, l1, hl1, hc1, ?_⟩
      rw [hG, hfc]
  · intro hno
    have hfc : firstConflict ops ltype start end_ (order (getlkMap m f (int64 owner_)
        (db.plocks.filter (fun r => decide (r.inode = inode))))) = none := by
      rw [firstConflict_none]
      intro p hp l hlm hc
      obtain ⟨r1, hr1, hi1, hk1, rfl⟩ := hmemrow _ hp
      exact hno ⟨r1, hr1, hi1, hk1, l, hlm, hc⟩
    rw [hG, hfc]

/-- Whether the scan of `Getlk` finds a conflict does not depend on the order of the
map entries. -/
theorem firstConflict_isSome_perm (ops : RecordOps) (ltype start end_ : Nat)
    (e1 e2 : GoMap (List Nat)) (h : e1.Perm e2) :
    (firstConflict ops ltype start end_ e1).isSome =
      (firstConflict ops ltype start end_ e2).isSome := by
  have key : ∀ a b : GoMap (List Nat), a.Perm b →
      firstConflict ops ltype start end_ a = none → firstConflict ops ltype start end_ b = none := by
    intro a b hab ha
    rw [firstConflict_none] at ha ⊢
    intro p hp
    exact ha p (hab.mem_iff.mpr hp)
  cases h1 : firstConflict ops ltype start end_ e1 with
  | none => rw [key e1 e2 h h1]
  | some x =>
    cases h2 : firstConflict ops ltype start end_ e2 with
    | none =>
      rw [key e2 e1 h.symm h2] at h1
      exact absurd h1 (by simp)
    | some y => rfl

theorem conflict_rows_iff (ops : RecordOps) (t : List plock) (inode : Ino) (me : key)
    (ltype start end_ : Nat) :
    (∃ r ∈ t, r.inode = inode ∧ (r.sid, r.owner) ≠ me ∧
        ∃ l ∈ ops.loadLocks r.records,
          end_ ≥ l.start ∧ start ≤ l.end_ ∧ (ltype = F_WRLCK ∨ l.ltype = F_WRLCK)) ↔
      ∃ r ∈ t, r.inode = inode ∧ (r.sid, r.owner) ≠ me ∧
        ∃ l ∈ ops.loadLocks r.records, conflicted ltype start end_ l = true := by
  simp only [conflicted_iff]
  constructor
  · rintro ⟨r, hr, hi, hk, l, hl1, h1, h2, h3⟩
    exact ⟨r, hr, hi, hk, l, hl1, h3, h1, h2⟩
  · rintro ⟨r, hr, hi, hk, l, hl1, h3, h1, h2⟩
    exact ⟨r, hr, hi, hk, l, hl1, h1, h2, h3⟩

/-- C8: `Getlk` for a read or write query over [start, end], with a working store
and any iteration order of the map. If a record held under another (sid, owner)
(another owner of the caller's own session included) meets [start, end] while the
query or the record is a write, `Getlk` returns 0 and type, start and end of one
such record; if there is none it returns 0 with F_UNLCK, 0, 0 and pid 0. Whether
the scan finds a conflict is the same for every iteration order. -/
theorem getlk_reports_conflict (ops : RecordOps) (m : dbMeta) (f : Faults)
    (order : GoMap (List Nat) → GoMap (List Nat)) (inode : Ino)
    (owner_ ltype start end_ pid : Nat) (db : DB) (hl : ltype = F_RDLCK ∨ ltype = F_WRLCK)
    (hf : NoFault f) (hu : PlockKeysUnique db.plocks) (horder : ∀ mp, (order mp).Perm mp) :
    ((∃ r ∈ db.plocks, r.inode = inode ∧ (r.sid, r.owner) ≠ (m.sid, int64 owner_) ∧
        ∃ l ∈ ops.loadLocks r.records,
          end_ ≥ l.start ∧ start ≤ l.end_ ∧ (ltype = F_WRLCK ∨ l.ltype = F_WRLCK)) →
      ∃ r ∈ db.plocks, r.inode = inode ∧ (r.sid, r.owner) ≠ (m.sid, int64 owner_) ∧
        ∃ l ∈ ops.loadLocks r.records,
          (end_ ≥ l.start ∧ start ≤ l.end_ ∧ (ltype = F_WRLCK ∨ l.ltype = F_WRLCK)) ∧
          (Getlk ops m f order inode owner_ ltype start end_ pid db).1 = 0 ∧
          (Getlk ops m f order inode owner_ ltype start end_ pid db).2.1 = l.ltype ∧
          (Getlk ops m f order inode owner_ ltype start end_ pid db).2.2.1 = l.start ∧
          (Getlk ops m f order inode owner_ ltype start end_ pid db).2.2.2.1 = l.end_) ∧
      ((¬ ∃ r ∈ db.plocks, r.inode = inode ∧ (r.sid, r.owner) ≠ (m.sid, int64 owner_) ∧
        ∃ l ∈ ops.loadLocks r.records,
          end_ ≥ l.start ∧ start ≤ l.end_ ∧ (ltype = F_WRLCK ∨ l.ltype = F_WRLCK)) →
        Getlk ops m f order inode owner_ ltype start end_ pid db = (0, F_UNLCK, 0, 0, 0)) ∧
      (∀ order2 : GoMap (List Nat) → GoMap (List Nat), (∀ mp, (order2 mp).Perm mp) →
        (firstConflict ops ltype start end_ (order (getlkMap m f (int64 owner_)
          (db.plocks.filter (fun r => decide (r.inode = inode)))))).isSome =
        (firstConflict ops ltype start end_ (order2 (getlkMap m f (int64 owner_)
          (db.plocks.filter (fun r => decide (r.inode = inode)))))).isSome) := by
  have hne : ltype ≠ F_UNLCK := by
    rcases hl with rfl | rfl <;> decide
  have ha := Getlk_answer ops m f order inode owner_ ltype start end_ pid db hne hf hu horder
  rw [conflict_rows_iff]
  refine ⟨?_, ha.2, ?_⟩
  · intro hc
    obtain ⟨r, hr, hi, hk, l, hlm, hcl, hG⟩ := ha.1 hc
    refine ⟨r, hr, hi, hk, l, hlm, ?_, ?_⟩
    · have := (conflicted_iff _ _ _ _).mp hcl
      exact ⟨this.2.1, this.2.2, this.1⟩
    · rw [hG]
      exact ⟨rfl, rfl, rfl, rfl⟩
  · intro order2 h2
    exact firstConflict_isSome_perm _ _ _ _ _ _ ((horder _).trans (h2 _).symm)

/-- C9: when a record held under another (sid, owner) conflicts with the query,
`Getlk` answers with one such record and reports the pid stored in it if the
holder of the record has the caller's sid, and pid 0 if not. -/
theorem getlk_pid_same_session_only (ops : RecordOps) (m : dbMeta) (f : Faults)
    (order : GoMap (List Nat) → GoMap (List Nat)) (inode : Ino)
    (owner_ ltype start end_ pid : Nat) (db : DB) (hl : ltype = F_RDLCK ∨ ltype = F_WRLCK)
    (hf : NoFault f) (hu : PlockKeysUnique db.plocks) (horder : ∀ mp, (order mp).Perm mp)
    (hc : ∃ r ∈ db.plocks, r.inode = inode ∧ (r.sid, r.owner) ≠ (m.sid, int64 owner_) ∧
      ∃ l ∈ ops.loadLocks r.records,
        end_ ≥ l.start ∧ start ≤ l.end_ ∧ (ltype = F_WRLCK ∨ l.ltype = F_WRLCK)) :
    ∃ r ∈ db.plocks, r.inode = inode ∧ (r.sid, r.owner) ≠ (m.sid, int64 owner_) ∧
      ∃ l ∈ ops.loadLocks r.records,
        (end_ ≥ l.start ∧ start ≤ l.end_ ∧ (ltype = F_WRLCK ∨ l.ltype = F_WRLCK)) ∧
        Getlk ops m f order inode owner_ ltype start end_ pid db =
          (0, l.ltype, l.start, l.end_, if r.sid = m.sid then l.pid else 0) := by
  have hne : ltype ≠ F_UNLCK := by
    rcases hl with rfl | rfl <;> decide
  have ha := Getlk_answer ops m f order inode owner_ ltype start end_ pid db hne hf hu horder
  obtain ⟨r, hr, hi, hk, l, hlm, hcl, hG⟩ := ha.1 ((conflict_rows_iff _ _ _ _ _ _ _).mp hc)
  have := (conflicted_iff _ _ _ _).mp hcl
  exact ⟨r, hr, hi, hk, l, hlm, ⟨this.2.1, this.2.2, this.1⟩, hG⟩

theorem decode_read_0_99 :
    specOps.loadLocks (encodeRecords [⟨F_RDLCK, 42, 0, 99⟩]) = [⟨F_RDLCK, 42, 0, 99⟩] := by
  decide

theorem getlk_reports_conflict_witness :
    Getlk specOps ⟨1⟩ {} List.reverse 5 9 F_WRLCK 0 50 0
        ⟨[5], [], [⟨5, 1, 7, encodeRecords [⟨F_RDLCK, 42, 0, 99⟩]⟩]⟩ = (0, F_RDLCK, 0, 99, 42) ∧
      Getlk specOps ⟨1⟩ {} List.reverse 5 9 F_RDLCK 0 50 0
        ⟨[5], [], [⟨5, 1, 7, encodeRecords [⟨F_RDLCK, 42, 0, 99⟩]⟩]⟩ = (0, F_UNLCK, 0, 0, 0) :=
  ⟨by decide,
    (getlk_reports_conflict specOps ⟨1⟩ {} List.reverse 5 9 F_RDLCK 0 50 0
      ⟨[5], [], [⟨5, 1, 7, encodeRecords [⟨F_RDLCK, 42, 0, 99⟩]⟩]⟩ (Or.inl rfl)
      (noFault_healthy 0) (by simp [PlockKeysUnique]) (fun mp => List.reverse_perm mp)).2.1
      (by
        rintro ⟨r, hr, _, _, l, hlm, _, _, h3⟩
        simp only [List.mem_singleton] at hr
        subst hr
        rw [decode_read_0_99] at hlm
        simp only [List.mem_singleton] at hlm
        subst hlm
        revert h3
        decide)⟩

theorem getlk_pid_same_session_only_witness :
    Getlk specOps ⟨3⟩ {} id 5 1 F_WRLCK 0 50 77
        ⟨[5], [], [⟨5, 1, 7, encodeRecords [⟨F_RDLCK, 42, 0, 99⟩]⟩]⟩ = (0, F_RDLCK, 0, 99, 0) := by
  obtain ⟨r, hr, _, _, l, hlm, _, hG⟩ :=
    getlk_pid_same_session_only specOps ⟨3⟩ {} id 5 1 F_WRLCK 0 50 77
      ⟨[5], [], [⟨5, 1, 7, encodeRecords [⟨F_RDLCK, 42, 0, 99⟩]⟩]⟩ (Or.inr rfl)
      (noFault_healthy 0) (by simp [PlockKeysUnique]) (fun mp => List.Perm.refl mp)
      ⟨⟨5, 1, 7, encodeRecords [⟨F_RDLCK, 42, 0, 99⟩]⟩, by simp, rfl, by decide,
        ⟨F_RDLCK, 42, 0, 99⟩, by decide, by decide, by decide, Or.inl rfl⟩
  simp only [List.mem_singleton] at hr
  subst hr
  rw [decode_read_0_99] at hlm
  simp only [List.mem_singleton] at hlm
  subst hlm
  rw [hG]
  decide

/-! ## Reachable byte-range tables -/

/-- Replacing rows by rows with the same key keeps the key list. -/
theorem map_plockKey_replace (t : List plock) (g : plock → plock)
    (hg : ∀ r ∈ t, plockKey (g r) = plockKey r) : (t.map g).map plockKey = t.map plockKey := by
  rw [List.map_map]
  exact List.map_congr_left (fun r hr => hg r hr)

theorem deletePlock_unique (f : Faults) (inode : Ino) (sid : Nat) (owner : Int) (db : DB)
    (hu : PlockKeysUnique db.plocks) :
    PlockKeysUnique (deletePlock f inode sid owner db).2.2.plocks := by
  unfold deletePlock
  cases f.write with
  | some msg => exact hu
  | none => exact List.Nodup.sublist (List.Sublist.map _ (List.filter_sublist _)) hu

theorem updatePlockRecords_unique (f : Faults) (records : List Nat) (cond : plock → Bool)
    (db : DB) (hu : PlockKeysUnique db.plocks) :
    PlockKeysUnique (updatePlockRecords f records cond db).2.2.plocks := by
  unfold updatePlockRecords
  cases f.write with
  | some msg => exact hu
  | none =>
    cases f.zeroRows with
    | true => exact hu
    | false =>
      simp only [Bool.false_eq_true, if_false]
      unfold PlockKeysUnique
      rw [map_plockKey_replace]
      · exact hu
      · intro r _
        by_cases hc : cond r = true
        · rw [if_pos hc]; rfl
        · rw [if_neg hc]

theorem insertOnePlock_unique (f : Faults) (row : plock) (db : DB)
    (hu : PlockKeysUnique db.plocks) :
    PlockKeysUnique (insertOnePlock f row db).2.2.plocks := by
  unfold insertOnePlock
  cases f.write with
  | some msg => exact hu
  | none =>
    cases f.zeroRows with
    | true => exact hu
    | false =>
      simp only [Bool.false_eq_true, if_false]
      split
      · exact hu
      · rename_i hany
        unfold PlockKeysUnique
        simp only [List.map_append, List.map_cons, List.map_nil]
        apply List.Nodup.append hu (by simp)
        intro k hk1 hk2
        simp only [List.mem_singleton] at hk2
        obtain ⟨r, hr, rfl⟩ := List.mem_map.mp hk1
        apply hany
        refine List.any_eq_true.mpr ⟨r, hr, ?_⟩
        simp only [plockKey, Prod.mk.injEq] at hk2
        simp [samePlock, hk2]

theorem checkAffected_snd (r : Nat × Option GoError × DB) : (checkAffected r).2 = r.2.2 := by
  unfold checkAffected
  split <;> rfl

/-- An attempt of `Setlk` keeps one byte-range row per (inode, sid, owner). -/
theorem setlkAttempt_unique (ops : RecordOps) (m : dbMeta) (f : Faults) (inode : Ino)
    (owner : Int) (ltype start end_ pid : Nat) (db : DB) (hu : PlockKeysUnique db.plocks) :
    PlockKeysUnique (setlkAttempt ops m f inode owner ltype start end_ pid db).2.plocks := by
  unfold setlkAttempt
  dsimp only
  split
  · exact hu
  · exact hu
  · split
    · split
      · exact hu
      · exact hu
      · split
        · exact hu
        · split
          · exact deletePlock_unique _ _ _ _ _ hu
          · exact updatePlockRecords_unique _ _ _ _ hu
    · split
      · exact hu
      · split
        · exact hu
        · rw [checkAffected_snd]
          split
          · exact updatePlockRecords_unique _ _ _ _ hu
          · exact insertOnePlock_unique _ _ _ hu

theorem txn_setlkAttempt_unique (ops : RecordOps) (m : dbMeta) (f : Faults) (inode : Ino)
    (owner : Int) (ltype start end_ pid : Nat) (db : DB) (hu : PlockKeysUnique db.plocks) :
    PlockKeysUnique
      (txn (setlkAttempt ops m f inode owner ltype start end_ pid) db).2.plocks := by
  have h := setlkAttempt_unique ops m f inode owner ltype start end_ pid db hu
  unfold txn
  rcases hx : setlkAttempt ops m f inode owner ltype start end_ pid db with ⟨_ | e, d⟩
  · rw [hx] at h; exact h
  · exact hu

theorem setlkLoop_unique (ops : RecordOps) (m : dbMeta) (store : Nat → Faults) (ctx : Context)
    (inode : Ino) (owner : Int) (block : Bool) (ltype start end_ pid : Nat) (fuel k : Nat)
    (db : DB) (err : Errno) (db1 : DB)
    (h : setlkLoop ops m store ctx inode owner block ltype start end_ pid fuel k db =
      some (err, db1))
    (hu : PlockKeysUnique db.plocks) : PlockKeysUnique db1.plocks := by
  induction fuel generalizing k db with
  | zero => simp [setlkLoop] at h
  | succ n ih =>
    have hp := txn_setlkAttempt_unique ops m (store k) inode owner ltype start end_ pid db hu
    simp only [setlkLoop] at h
    split at h
    · simp only [Option.some.injEq, Prod.mk.injEq] at h
      rw [← h.2]
      exact hp
    · split at h
      · simp only [Option.some.injEq, Prod.mk.injEq] at h
        rw [← h.2]
        exact hp
      · exact ih _ _ h hp

/-- Every state reached by `Setlk` calls has one byte-range row per (inode, sid, owner). -/
theorem setlkReachable_unique (ops : RecordOps) (db : DB) (h : SetlkReachable ops db) :
    PlockKeysUnique db.plocks := by
  induction h with
  | init nodes flocks => simp [PlockKeysUnique]
  | call m store ctx inode owner_ block ltype start end_ pid fuel err _ hcall ih =>
    exact setlkLoop_unique ops m store ctx inode _ block ltype start end_ pid fuel 0 _ err _
      hcall ih
  | other _ heq ih =>
    rw [heq]
    exact ih

/-! ## Missing inodes -/

theorem Flock_unlock_eq (m : dbMeta) (store : Nat → Faults) (ctx : Context) (inode : Ino)
    (owner_ : Nat) (block : Bool) (fuel : Nat) (db : DB) :
    Flock m store ctx inode owner_ F_UNLCK block fuel db =
      some (errno (txn (fun s => ((deleteFlock (store 0) inode m.sid (int64 owner_) s).2.1,
          (deleteFlock (store 0) inode m.sid (int64 owner_) s).2.2)) db).1,
        (txn (fun s => ((deleteFlock (store 0) inode m.sid (int64 owner_) s).2.1,
          (deleteFlock (store 0) inode m.sid (int64 owner_) s).2.2)) db).2) := by
  simp [Flock]

theorem flockAttempt_missing (m : dbMeta) (f : Faults) (inode : Ino) (owner : Int)
    (ltype : Nat) (db : DB) (hg : f.get = none) (hn : inode ∉ db.nodes) :
    txn (flockAttempt m f inode owner ltype) db = (some (GoError.errno ENOENT), db) := by
  simp only [txn, flockAttempt, getNode, hg, hn, decide_False]

theorem setlkAttempt_missing (ops : RecordOps) (m : dbMeta) (f : Faults) (inode : Ino)
    (owner : Int) (ltype start end_ pid : Nat) (db : DB) (hg : f.get = none)
    (hn : inode ∉ db.nodes) :
    txn (setlkAttempt ops m f inode owner ltype start end_ pid) db =
      (some (GoError.errno ENOENT), db) := by
  simp only [txn, setlkAttempt, getNode, hg, hn, decide_False]

/-- C11: a read or write `Flock` or `Setlk` on an inode without node row returns
ENOENT after the node lookup, for every blocking mode: the store is left as it
was, and the answer holds whatever the lock tables contain and whatever reading
or writing a lock row would have done. -/
theorem lock_missing_inode (ops : RecordOps) (m : dbMeta) (store : Nat → Faults)
    (ctx : Context) (inode : Ino) (owner_ : Nat) (block : Bool)
    (ltype start end_ pid fuel : Nat) (db : DB) (hl : ltype = F_RDLCK ∨ ltype = F_WRLCK)
    (hg : (store 0).get = none) (hn : inode ∉ db.nodes) :
    Flock m store ctx inode owner_ ltype block (fuel + 1) db = some (ENOENT, db) ∧
      Setlk ops m store ctx inode owner_ block ltype start end_ pid (fuel + 1) db =
        some (ENOENT, db) := by
  have hne : ltype ≠ F_UNLCK := by
    rcases hl with rfl | rfl <;> decide
  have h1 := flockAttempt_missing m (store 0) inode (int64 owner_) ltype db hg hn
  have h2 := setlkAttempt_missing ops m (store 0) inode (int64 owner_) ltype start end_ pid db
    hg hn
  constructor
  · rw [Flock_lock_eq _ _ _ _ _ _ _ _ _ hne,
      flockLoop_once _ _ _ _ _ _ _ _ _ _ (Or.inr (by rw [h1]; simp [errno, EAGAIN, ENOENT])), h1]
    rfl
  · unfold Setlk
    rw [setlkLoop_once _ _ _ _ _ _ _ _ _ _ _ _ _ _
      (Or.inr (by rw [h2]; simp [errno, EAGAIN, ENOENT])), h2]
    rfl

theorem lock_missing_inode_witness :
    Flock ⟨1⟩ healthy background 6 7 F_WRLCK true 1 ⟨[5], [⟨6, 2, 9, 'W'⟩], []⟩ =
        some (ENOENT, ⟨[5], [⟨6, 2, 9, 'W'⟩], []⟩) ∧
      Setlk specOps ⟨1⟩ healthy background 6 7 true F_RDLCK 0 99 42 1
          ⟨[5], [⟨6, 2, 9, 'W'⟩], []⟩ = some (ENOENT, ⟨[5], [⟨6, 2, 9, 'W'⟩], []⟩) :=
  lock_missing_inode specOps ⟨1⟩ healthy background 6 7 true F_WRLCK 0 99 42 0
    ⟨[5], [⟨6, 2, 9, 'W'⟩], []⟩ (Or.inr rfl) rfl (by decide) |>.imp id
    (fun _ => (lock_missing_inode specOps ⟨1⟩ healthy background 6 7 true F_RDLCK 0 99 42 0
      ⟨[5], [⟨6, 2, 9, 'W'⟩], []⟩ (Or.inl rfl) rfl (by decide)).2)

/-! ## Failed attempts -/

theorem map_ite_eq_self {α : Type} (c : α → Bool) (g : α → α) (t : List α)
    (h : (t.filter c).length = 0) : t.map (fun r => if c r then g r else r) = t := by
  have hnil := List.length_eq_zero.mp h
  rw [List.filter_eq_nil_iff] at hnil
  calc t.map (fun r => if c r then g r else r) = t.map id :=
        List.map_congr_left (fun r hr => by simp [hnil r hr])
    _ = t := List.map_id t

theorem updateFlockLtype_unchanged (f : Faults) (t : Char) (inode : Ino) (sid : Nat)
    (owner : Int) (db : DB)
    (h : (updateFlockLtype f t inode sid owner db).2.1 ≠ none ∨
      (updateFlockLtype f t inode sid owner db).1 = 0) :
    (updateFlockLtype f t inode sid owner db).2.2 = db := by
  unfold updateFlockLtype at h ⊢
  cases hw : f.write with
  | some msg => rfl
  | none =>
    cases hz : f.zeroRows with
    | true => rfl
    | false =>
      simp only [hw, hz, Bool.false_eq_true, if_false, ne_eq, not_true_eq_false, false_or] at h
      simp only [Bool.false_eq_true, if_false]
      rw [map_ite_eq_self _ _ _ h]

theorem insertOneFlock_unchanged (f : Faults) (row : flock) (db : DB)
    (h : (insertOneFlock f row db).2.1 ≠ none ∨ (insertOneFlock f row db).1 = 0) :
    (insertOneFlock f row db).2.2 = db := by
  unfold insertOneFlock at h ⊢
  cases hw : f.write with
  | some msg => rfl
  | none =>
    cases hz : f.zeroRows with
    | true => rfl
    | false =>
      simp only [hw, hz, Bool.false_eq_true, if_false] at h
      simp only [Bool.false_eq_true, if_false]
      split
      · rfl
      · rename_i hany
        simp [hany] at h

theorem mustInsert_unchanged (f : Faults) (row : flock) (db : DB)
    (h : (mustInsert f row db).1 ≠ none) : (mustInsert f row db).2 = db := by
  unfold mustInsert at h ⊢
  cases hw : f.write with
  | some msg => rfl
  | none =>
    cases hz : f.zeroRows with
    | true => rfl
    | false =>
      simp only [hw, hz, Bool.false_eq_true, if_false] at h
      split at h <;> simp at h

theorem updatePlockRecords_unchanged (f : Faults) (records : List Nat) (cond : plock → Bool)
    (db : DB)
    (h : (updatePlockRecords f records cond db).2.1 ≠ none ∨
      (updatePlockRecords f records cond db).1 = 0) :
    (updatePlockRecords f records cond db).2.2 = db := by
  unfold updatePlockRecords at h ⊢
  cases hw : f.write with
  | some msg => rfl
  | none =>
    cases hz : f.zeroRows with
    | true => rfl
    | false =>
      simp only [hw, hz, Bool.false_eq_true, if_false, ne_eq, not_true_eq_false, false_or] at h
      simp only [Bool.false_eq_true, if_false]
      rw [map_ite_eq_self _ _ _ h]

theorem insertOnePlock_unchanged (f : Faults) (row : plock) (db : DB)
    (h : (insertOnePlock f row db).2.1 ≠ none ∨ (insertOnePlock f row db).1 = 0) :
    (insertOnePlock f row db).2.2 = db := by
  unfold insertOnePlock at h ⊢
  cases hw : f.write with
  | some msg => rfl
  | none =>
    cases hz : f.zeroRows with
    | true => rfl
    | false =>
      simp only [hw, hz, Bool.false_eq_true, if_false] at h
      simp only [Bool.false_eq_true, if_false]
      split
      · rfl
      · rename_i hany
        simp [hany] at h

theorem deletePlock_unchanged (f : Faults) (inode : Ino) (sid : Nat) (owner : Int) (db : DB)
    (h : (deletePlock f inode sid owner db).2.1 ≠ none) :
    (deletePlock f inode sid owner db).2.2 = db := by
  unfold deletePlock at h ⊢
  cases hw : f.write with
  | some msg => rfl
  | none => simp [hw] at h

theorem checkAffected_error (r : Nat × Option GoError × DB) (h : (checkAffected r).1 ≠ none) :
    r.2.1 ≠ none ∨ r.1 = 0 := by
  unfold checkAffected at h
  split at h
  · rename_i hc
    exact Or.inr hc.2
  · exact Or.inl h

/-- The body of a `Flock` attempt changes nothing before it fails. -/
theorem flockAttempt_error_unchanged (m : dbMeta) (f : Faults) (inode : Ino) (owner : Int)
    (ltype : Nat) (db : DB) (h : (flockAttempt m f inode owner ltype db).1 ≠ none) :
    (flockAttempt m f inode owner ltype db).2 = db := by
  unfold flockAttempt at h ⊢
  dsimp only at h ⊢
  split
  · rfl
  · rfl
  · rename_i hgn
    simp only [hgn] at h
    split
    · rfl
    · rename_i hff
      simp only [hff] at h
      split
      · rename_i hl
        simp only [hl, if_true] at h
        split
        · rfl
        · rename_i hany
          simp only [hany] at h
          exact mustInsert_unchanged _ _ _ h
      · rename_i hl
        simp only [hl, if_false] at h
        split
        · rfl
        · rename_i hlen
          simp only [hlen] at h
          rw [checkAffected_snd]
          have hc := checkAffected_error _ h
          split
          · rename_i hok
            simp only [hok, if_true] at hc
            exact updateFlockLtype_unchanged _ _ _ _ _ _ hc
          · rename_i hok
            simp only [hok] at hc
            exact insertOneFlock_unchanged _ _ _ hc

/-- The body of a `Setlk` attempt changes nothing before it fails. -/
theorem setlkAttempt_error_unchanged (ops : RecordOps) (m : dbMeta) (f : Faults) (inode : Ino)
    (owner : Int) (ltype start end_ pid : Nat) (db : DB)
    (h : (setlkAttempt ops m f inode owner ltype start end_ pid db).1 ≠ none) :
    (setlkAttempt ops m f inode owner ltype start end_ pid db).2 = db := by
  unfold setlkAttempt at h ⊢
  dsimp only at h ⊢
  split
  · rfl
  · rfl
  · rename_i hgn
    simp only [hgn] at h
    split
    · rename_i hl
      subst hl
      simp only [if_true] at h
      split
      · rfl
      · rfl
      · rename_i hgp
        simp only [hgp] at h
        split
        · rfl
        · rename_i hlen
          simp only [hlen, if_false] at h
          split
          · rename_i hl2
            simp only [hl2, if_true] at h
            exact deletePlock_unchanged _ _ _ _ _ h
          · rename_i hl2
            simp only [hl2, if_false] at h
            exact updatePlockRecords_unchanged _ _ _ _ (Or.inl h)
    · rename_i hl
      simp only [hl, if_false] at h
      split
      · rfl
      · rename_i hfp
        simp only [hfp] at h
        split
        · rfl
        · rename_i hany
          simp only [hany] at h
          rw [checkAffected_snd]
          have hc := checkAffected_error _ h
          split
          · rename_i hlen
            simp only [hlen, if_true] at hc
            exact updatePlockRecords_unchanged _ _ _ _ hc
          · rename_i hlen
            simp only [hlen] at hc
            exact insertOnePlock_unchanged _ _ _ hc

theorem errno_ne_zero_ne_none (e : Option GoError) (h : errno e ≠ 0) : e ≠ none := by
  rintro rfl
  exact h rfl

theorem flockLoop_error_unchanged (m : dbMeta) (store : Nat → Faults) (ctx : Context)
    (inode : Ino) (owner : Int) (ltype : Nat) (block : Bool) (fuel k : Nat) (db : DB)
    (err : Errno) (db1 : DB)
    (h : flockLoop m store ctx inode owner ltype block fuel k db = some (err, db1))
    (he : err ≠ 0) : db1 = db := by
  induction fuel generalizing k with
  | zero => simp [flockLoop] at h
  | succ n ih =>
    simp only [flockLoop] at h
    split at h
    · simp only [Option.some.injEq, Prod.mk.injEq] at h
      rw [← h.2]
      apply txn_snd_of_error
      rw [← txn_fst]
      exact errno_ne_zero_ne_none _ (by rw [h.1]; exact he)
    · rename_i hc
      have hE : errno (txn (flockAttempt m (store k) inode owner ltype) db).1 = EAGAIN := by
        simp only [Bool.or_eq_true, Bool.not_eq_true', bne_iff_ne, ne_eq, not_or,
          Bool.not_eq_false, Decidable.not_not] at hc
        exact hc.2
      have hdb : (txn (flockAttempt m (store k) inode owner ltype) db).2 = db := by
        apply txn_snd_of_error
        rw [← txn_fst]
        exact errno_ne_zero_ne_none _ (by rw [hE]; decide)
      rw [hdb] at h
      split at h
      · simp only [Option.some.injEq, Prod.mk.injEq] at h
        exact h.2.symm
      · exact ih _ h

theorem setlkLoop_error_unchanged (ops : RecordOps) (m : dbMeta) (store : Nat → Faults)
    (ctx : Context) (inode : Ino) (owner : Int) (block : Bool) (ltype start end_ pid : Nat)
    (fuel k : Nat) (db : DB) (err : Errno) (db1 : DB)
    (h : setlkLoop ops m store ctx inode owner block ltype start end_ pid fuel k db =
      some (err, db1))
    (he : err ≠ 0) : db1 = db := by
  induction fuel generalizing k with
  | zero => simp [setlkLoop] at h
  | succ n ih =>
    simp only [setlkLoop] at h
    split at h
    · simp only [Option.some.injEq, Prod.mk.injEq] at h
      rw [← h.2]
      apply txn_snd_of_error
      rw [← txn_fst]
      exact errno_ne_zero_ne_none _ (by rw [h.1]; exact he)
    · rename_i hc
      have hE : errno (txn (setlkAttempt ops m (store k) inode owner ltype start end_ pid)
          db).1 = EAGAIN := by
        simp only [Bool.or_eq_true, Bool.not_eq_true', bne_iff_ne, ne_eq, not_or,
          Bool.not_eq_false, Decidable.not_not] at hc
        exact hc.2
      have hdb : (txn (setlkAttempt ops m (store k) inode owner ltype start end_ pid) db).2 =
          db := by
        apply txn_snd_of_error
        rw [← txn_fst]
        exact errno_ne_zero_ne_none _ (by rw [hE]; decide)
      rw [hdb] at h
      split at h
      · simp only [Option.some.injEq, Prod.mk.injEq] at h
        exact h.2.symm
      · exact ih _ h

/-- C14: an attempt of `Flock` or `Setlk` that does not succeed leaves the store as it
was: the body changes nothing before it fails, the transaction keeps nothing of a
failed body, and a call that returns an error code other than 0 returns with the
whole-file and byte-range tables it started from. -/
theorem failed_attempt_changes_nothing (ops : RecordOps) (m : dbMeta) (store : Nat → Faults)
    (ctx : Context) (inode : Ino) (owner_ : Nat) (block : Bool)
    (ltype start end_ pid fuel : Nat) (db : DB) :
    (∀ f : Faults, (flockAttempt m f inode (int64 owner_) ltype db).1 ≠ none →
        (flockAttempt m f inode (int64 owner_) ltype db).2 = db ∧
        txn (flockAttempt m f inode (int64 owner_) ltype) db =
          ((flockAttempt m f inode (int64 owner_) ltype db).1, db)) ∧
      (∀ f : Faults,
        (setlkAttempt ops m f inode (int64 owner_) ltype start end_ pid db).1 ≠ none →
        (setlkAttempt ops m f inode (int64 owner_) ltype start end_ pid db).2 = db ∧
        txn (setlkAttempt ops m f inode (int64 owner_) ltype start end_ pid) db =
          ((setlkAttempt ops m f inode (int64 owner_) ltype start end_ pid db).1, db)) ∧
      (∀ err db1, Flock m store ctx inode owner_ ltype block fuel db = some (err, db1) →
        err ≠ 0 → db1 = db) ∧
      (∀ err db1,
        Setlk ops m store ctx inode owner_ block ltype start end_ pid fuel db = some (err, db1) →
        err ≠ 0 → db1 = db) := by
  refine ⟨?_, ?_, ?_, ?_⟩
  · intro f h
    refine ⟨flockAttempt_error_unchanged m f inode _ ltype db h, ?_⟩
    have h1 := txn_fst (flockAttempt m f inode (int64 owner_) ltype) db
    have h2 := txn_snd_of_error (flockAttempt m f inode (int64 owner_) ltype) db h
    exact Prod.ext h1 h2
  · intro f h
    refine ⟨setlkAttempt_error_unchanged ops m f inode _ ltype start end_ pid db h, ?_⟩
    have h1 := txn_fst (setlkAttempt ops m f inode (int64 owner_) ltype start end_ pid) db
    have h2 := txn_snd_of_error (setlkAttempt ops m f inode (int64 owner_) ltype start end_ pid)
      db h
    exact Prod.ext h1 h2
  · intro err db1 h he
    by_cases hl : ltype = F_UNLCK
    · subst hl
      rw [Flock_unlock_eq] at h
      simp only [Option.some.injEq, Prod.mk.injEq] at h
      rw [← h.2]
      have hne := errno_ne_zero_ne_none _ (by rw [h.1]; exact he)
      rw [txn_fst] at hne
      exact txn_snd_of_error _ _ hne
    · rw [Flock_lock_eq _ _ _ _ _ _ _ _ _ hl] at h
      exact flockLoop_error_unchanged _ _ _ _ _ _ _ _ _ _ _ _ h he
  · intro err db1 h he
    unfold Setlk at h
    exact setlkLoop_error_unchanged _ _ _ _ _ _ _ _ _ _ _ _ _ _ _ _ h he

/-! ## The retry loop -/

theorem deleteFlock_storeError (f : Faults) (inode : Ino) (sid : Nat) (owner : Int) (db : DB) :
    StoreError (deleteFlock f inode sid owner db).2.1 := by
  unfold deleteFlock
  cases f.write with
  | some msg => exact Or.inr ⟨_, rfl⟩
  | none => exact Or.inl rfl

/-- One round of the retry loop of `Flock` after an attempt that ends in EAGAIN. -/
theorem flockLoop_conflict (m : dbMeta) (store : Nat → Faults) (ctx : Context) (inode : Ino)
    (owner : Int) (ltype : Nat) (block : Bool) (fuel k : Nat) (db : DB)
    (h : errno (txn (flockAttempt m (store k) inode owner ltype) db).1 = EAGAIN) :
    flockLoop m store ctx inode owner ltype block (fuel + 1) k db =
      if block = false then some (EAGAIN, db)
      else if ctx.canceled k then some (EINTR, db)
      else flockLoop m store ctx inode owner ltype block fuel (k + 1) db := by
  have hdb : (txn (flockAttempt m (store k) inode owner ltype) db).2 = db := by
    apply txn_snd_of_error
    rw [← txn_fst]
    exact errno_ne_zero_ne_none _ (by rw [h]; decide)
  simp only [flockLoop, h, hdb]
  cases block <;> simp

/-- One round of the retry loop of `Setlk` after an attempt that ends in EAGAIN. -/
theorem setlkLoop_conflict (ops : RecordOps) (m : dbMeta) (store : Nat → Faults)
    (ctx : Context) (inode : Ino) (owner : Int) (block : Bool) (ltype start end_ pid : Nat)
    (fuel k : Nat) (db : DB)
    (h : errno (txn (setlkAttempt ops m (store k) inode owner ltype start end_ pid) db).1 =
      EAGAIN) :
    setlkLoop ops m store ctx inode owner block ltype start end_ pid (fuel + 1) k db =
      if block = false then some (EAGAIN, db)
      else if ctx.canceled k then some (EINTR, db)
      else setlkLoop ops m store ctx inode owner block ltype start end_ pid fuel (k + 1) db := by
  have hdb : (txn (setlkAttempt ops m (store k) inode owner ltype start end_ pid) db).2 = db := by
    apply txn_snd_of_error
    rw [← txn_fst]
    exact errno_ne_zero_ne_none _ (by rw [h]; decide)
  simp only [setlkLoop, h, hdb]
  cases block <;> simp

/-- A blocking `Flock` loop that returns does so with EINTR or with the outcome of an
attempt that did not end in EAGAIN. -/
theorem flockLoop_blocking_result (m : dbMeta) (store : Nat → Faults) (ctx : Context)
    (inode : Ino) (owner : Int) (ltype : Nat) (fuel k : Nat) (db : DB) (err : Errno)
    (db1 : DB) (h : flockLoop m store ctx inode owner ltype true fuel k db = some (err, db1)) :
    err ≠ EAGAIN ∧
      ((err = EINTR ∧ db1 = db) ∨
        ∃ j, err = errno (txn (flockAttempt m (store j) inode owner ltype) db).1 ∧
          db1 = (txn (flockAttempt m (store j) inode owner ltype) db).2) := by
  induction fuel generalizing k with
  | zero => simp [flockLoop] at h
  | succ n ih =>
    by_cases hE : errno (txn (flockAttempt m (store k) inode owner ltype) db).1 = EAGAIN
    · rw [flockLoop_conflict _ _ _ _ _ _ _ _ _ _ hE] at h
      simp only [Bool.true_eq_false, if_false] at h
      split at h
      · simp only [Option.some.injEq, Prod.mk.injEq] at h
        exact ⟨by rw [← h.1]; decide, Or.inl ⟨h.1.symm, h.2.symm⟩⟩
      · exact ih _ h
    · rw [flockLoop_once _ _ _ _ _ _ _ _ _ _ (Or.inr hE)] at h
      simp only [Option.some.injEq, Prod.mk.injEq] at h
      exact ⟨by rw [← h.1]; exact hE, Or.inr ⟨k, h.1.symm, h.2.symm⟩⟩

/-- A blocking `Setlk` loop that returns does so with EINTR or with the outcome of an
attempt that did not end in EAGAIN. -/
theorem setlkLoop_blocking_result (ops : RecordOps) (m : dbMeta) (store : Nat → Faults)
    (ctx : Context) (inode : Ino) (owner : Int) (ltype start end_ pid : Nat) (fuel k : Nat)
    (db : DB) (err : Errno) (db1 : DB)
    (h : setlkLoop ops m store ctx inode owner true ltype start end_ pid fuel k db =
      some (err, db1)) :
    err ≠ EAGAIN ∧
      ((err = EINTR ∧ db1 = db) ∨
        ∃ j, err = errno (txn (setlkAttempt ops m (store j) inode owner ltype start end_ pid)
            db).1 ∧
          db1 = (txn (setlkAttempt ops m (store j) inode owner ltype start end_ pid) db).2) := by
  induction fuel generalizing k with
  | zero => simp [setlkLoop] at h
  | succ n ih =>
    by_cases hE : errno (txn (setlkAttempt ops m (store k) inode owner ltype start end_ pid)
        db).1 = EAGAIN
    · rw [setlkLoop_conflict _ _ _ _ _ _ _ _ _ _ _ _ _ _ hE] at h
      simp only [Bool.true_eq_false, if_false] at h
      split at h
      · simp only [Option.some.injEq, Prod.mk.injEq] at h
        exact ⟨by rw [← h.1]; decide, Or.inl ⟨h.1.symm, h.2.symm⟩⟩
      · exact ih _ h
    · rw [setlkLoop_once _ _ _ _ _ _ _ _ _ _ _ _ _ _ (Or.inr hE)] at h
      simp only [Option.some.injEq, Prod.mk.injEq] at h
      exact ⟨by rw [← h.1]; exact hE, Or.inr ⟨k, h.1.symm, h.2.symm⟩⟩

/-- C12: the retry loop of `Flock` and of `Setlk` (read or write requests). After an
attempt that ends in EAGAIN, a call with block=false returns EAGAIN at once; a call
with block=true polls `ctx.Canceled()` once, returns EINTR if it is set and makes
the next attempt if not. A blocking call that returns never returns EAGAIN: its
result is EINTR or the outcome of an attempt that was not a conflict. -/
theorem conflict_blocks_or_fails (ops : RecordOps) (m : dbMeta) (store : Nat → Faults)
    (ctx : Context) (inode : Ino) (owner_ ltype start end_ pid : Nat)
    (hl : ltype = F_RDLCK ∨ ltype = F_WRLCK) :
    (∀ fuel k db,
        errno (txn (flockAttempt m (store k) inode (int64 owner_) ltype) db).1 = EAGAIN →
        flockLoop m store ctx inode (int64 owner_) ltype false (fuel + 1) k db =
            some (EAGAIN, db) ∧
          flockLoop m store ctx inode (int64 owner_) ltype true (fuel + 1) k db =
            if ctx.canceled k then some (EINTR, db)
            else flockLoop m store ctx inode (int64 owner_) ltype true fuel (k + 1) db) ∧
      (∀ fuel k db,
        errno (txn (setlkAttempt ops m (store k) inode (int64 owner_) ltype start end_ pid)
          db).1 = EAGAIN →
        setlkLoop ops m store ctx inode (int64 owner_) false ltype start end_ pid (fuel + 1) k
            db = some (EAGAIN, db) ∧
          setlkLoop ops m store ctx inode (int64 owner_) true ltype start end_ pid (fuel + 1) k
            db =
            if ctx.canceled k then some (EINTR, db)
            else setlkLoop ops m store ctx inode (int64 owner_) true ltype start end_ pid fuel
              (k + 1) db) ∧
      (∀ fuel db err db1, Flock m store ctx inode owner_ ltype true fuel db = some (err, db1) →
        err ≠ EAGAIN ∧
          ((err = EINTR ∧ db1 = db) ∨
            ∃ j, err = errno (txn (flockAttempt m (store j) inode (int64 owner_) ltype) db).1 ∧
              db1 = (txn (flockAttempt m (store j) inode (int64 owner_) ltype) db).2)) ∧
      (∀ fuel db err db1,
        Setlk ops m store ctx inode owner_ true ltype start end_ pid fuel db = some (err, db1) →
        err ≠ EAGAIN ∧
          ((err = EINTR ∧ db1 = db) ∨
            ∃ j, err = errno (txn (setlkAttempt ops m (store j) inode (int64 owner_) ltype
                start end_ pid) db).1 ∧
              db1 = (txn (setlkAttempt ops m (store j) inode (int64 owner_) ltype start end_
                pid) db).2)) := by
  have hne : ltype ≠ F_UNLCK := by
    rcases hl with rfl | rfl <;> decide
  refine ⟨?_, ?_, ?_, ?_⟩
  · intro fuel k db h
    constructor
    · rw [flockLoop_conflict _ _ _ _ _ _ _ _ _ _ h]
      simp
    · rw [flockLoop_conflict _ _ _ _ _ _ _ _ _ _ h]
      simp
  · intro fuel k db h
    constructor
    · rw [setlkLoop_conflict _ _ _ _ _ _ _ _ _ _ _ _ _ _ h]
      simp
    · rw [setlkLoop_conflict _ _ _ _ _ _ _ _ _ _ _ _ _ _ h]
      simp
  · intro fuel db err db1 h
    rw [Flock_lock_eq _ _ _ _ _ _ _ _ _ hne] at h
    exact flockLoop_blocking_result _ _ _ _ _ _ _ _ _ _ _ h
  · intro fuel db err db1 h
    unfold Setlk at h
    exact setlkLoop_blocking_result _ _ _ _ _ _ _ _ _ _ _ _ _ _ _ h

theorem conflict_blocks_or_fails_witness :
    Flock ⟨2⟩ healthy ⟨fun k => decide (k = 2)⟩ 5 9 F_RDLCK true 3 ⟨[5], [⟨5, 1, 7, 'W'⟩], []⟩ =
        some (EINTR, ⟨[5], [⟨5, 1, 7, 'W'⟩], []⟩) ∧
      EINTR ≠ EAGAIN :=
  ⟨by decide,
    ((conflict_blocks_or_fails specOps ⟨2⟩ healthy ⟨fun k => decide (k = 2)⟩ 5 9 F_RDLCK 0 0 0
      (Or.inl rfl)).2.2.1 3 ⟨[5], [⟨5, 1, 7, 'W'⟩], []⟩ EINTR ⟨[5], [⟨5, 1, 7, 'W'⟩], []⟩
      (by decide)).1⟩

/-- A blocking `Flock` whose attempts `i`, ..., `i + k - 1` end in a conflict without
a cancellation goes on with attempt `i + k` on the same store. -/
theorem flockLoop_after_conflicts (m : dbMeta) (store : Nat → Faults) (ctx : Context)
    (inode : Ino) (owner : Int) (ltype : Nat) (fuel : Nat) :
    ∀ (k i : Nat) (db : DB),
      (∀ j, i ≤ j → j < i + k →
        errno (txn (flockAttempt m (store j) inode owner ltype) db).1 = EAGAIN ∧
          ctx.canceled j = false) →
      flockLoop m store ctx inode owner ltype true (k + fuel) i db =
        flockLoop m store ctx inode owner ltype true fuel (i + k) db := by
  intro k
  induction k with
  | zero =>
    intro i db _
    simp
  | succ k ih =>
    intro i db h
    have hi := h i (le_refl _) (by omega)
    have hfuel : k + 1 + fuel = (k + fuel) + 1 := by omega
    rw [hfuel, flockLoop_conflict _ _ _ _ _ _ _ _ _ _ hi.1, hi.2]
    simp only [Bool.true_eq_false, if_false]
    rw [ih (i + 1) db (fun j h1 h2 => h j (by omega) (by omega))]
    have hidx : i + 1 + k = i + (k + 1) := by omega
    rw [hidx]
    simp

/-- A blocking `Setlk` whose attempts `i`, ..., `i + k - 1` end in a conflict without
a cancellation goes on with attempt `i + k` on the same store. -/
theorem setlkLoop_after_conflicts (ops : RecordOps) (m : dbMeta) (store : Nat → Faults)
    (ctx : Context) (inode : Ino) (owner : Int) (ltype start end_ pid : Nat) (fuel : Nat) :
    ∀ (k i : Nat) (db : DB),
      (∀ j, i ≤ j → j < i + k →
        errno (txn (setlkAttempt ops m (store j) inode owner ltype start end_ pid) db).1 =
            EAGAIN ∧
          ctx.canceled j = false) →
      setlkLoop ops m store ctx inode owner true ltype start end_ pid (k + fuel) i db =
        setlkLoop ops m store ctx inode owner true ltype start end_ pid fuel (i + k) db := by
  intro k
  induction k with
  | zero =>
    intro i db _
    simp
  | succ k ih =>
    intro i db h
    have hi := h i (le_refl _) (by omega)
    have hfuel : k + 1 + fuel = (k + fuel) + 1 := by omega
    rw [hfuel, setlkLoop_conflict _ _ _ _ _ _ _ _ _ _ _ _ _ _ hi.1, hi.2]
    simp only [Bool.true_eq_false, if_false]
    rw [ih (i + 1) db (fun j h1 h2 => h j (by omega) (by omega))]
    have hidx : i + 1 + k = i + (k + 1) := by omega
    rw [hidx]
    simp

/-- C13: in a call of `Flock` (read or write) or of `Setlk` (read or write), let
attempt `k` be the first that does not end in EAGAIN: attempts 0, ..., k - 1 ended
in a conflict and the call went on (so `k = 0`, or block=true and no cancellation
was seen after them). Then the call returns the outcome of attempt `k` (success,
ENOENT or a store failure) and the store of that attempt, with block=true as with
block=false. Only `k + 1` attempts are needed, so no further attempt is made, and
the result does not depend on the cancellation signal at or after attempt `k` nor
on what the store would do later. -/
theorem other_outcome_ends_call (ops : RecordOps) (m : dbMeta) (store : Nat → Faults)
    (ctx : Context) (inode : Ino) (owner_ ltype start end_ pid : Nat) (block : Bool)
    (k fuel : Nat) (db : DB) (hl : ltype ≠ F_UNLCK) (hb : k = 0 ∨ block = true) :
    ((∀ j < k, errno (txn (flockAttempt m (store j) inode (int64 owner_) ltype) db).1 = EAGAIN ∧
          ctx.canceled j = false) →
        errno (txn (flockAttempt m (store k) inode (int64 owner_) ltype) db).1 ≠ EAGAIN →
        Flock m store ctx inode owner_ ltype block (k + 1 + fuel) db =
          some (errno (txn (flockAttempt m (store k) inode (int64 owner_) ltype) db).1,
            (txn (flockAttempt m (store k) inode (int64 owner_) ltype) db).2)) ∧
      ((∀ j < k,
          errno (txn (setlkAttempt ops m (store j) inode (int64 owner_) ltype start end_ pid)
            db).1 = EAGAIN ∧ ctx.canceled j = false) →
        errno (txn (setlkAttempt ops m (store k) inode (int64 owner_) ltype start end_ pid)
          db).1 ≠ EAGAIN →
        Setlk ops m store ctx inode owner_ block ltype start end_ pid (k + 1 + fuel) db =
          some (errno (txn (setlkAttempt ops m (store k) inode (int64 owner_) ltype start end_
              pid) db).1,
            (txn (setlkAttempt ops m (store k) inode (int64 owner_) ltype start end_ pid)
              db).2)) := by
  have hfuel : k + 1 + fuel = k + (fuel + 1) := by omega
  constructor
  · intro hpre h
    rw [Flock_lock_eq _ _ _ _ _ _ _ _ _ hl, hfuel]
    rcases hb with rfl | rfl
    · rw [Nat.zero_add]
      exact flockLoop_once _ _ _ _ _ _ _ _ _ _ (Or.inr h)
    · rw [flockLoop_after_conflicts m store ctx inode (int64 owner_) ltype (fuel + 1) k 0 db
        (fun j _ h2 => hpre j (by omega)), Nat.zero_add]
      exact flockLoop_once _ _ _ _ _ _ _ _ _ _ (Or.inr h)
  · intro hpre h
    unfold Setlk
    rw [hfuel]
    rcases hb with rfl | rfl
    · rw [Nat.zero_add]
      exact setlkLoop_once _ _ _ _ _ _ _ _ _ _ _ _ _ _ (Or.inr h)
    · rw [setlkLoop_after_conflicts ops m store ctx inode (int64 owner_) ltype start end_ pid
        (fuel + 1) k 0 db (fun j _ h2 => hpre j (by omega)), Nat.zero_add]
      exact setlkLoop_once _ _ _ _ _ _ _ _ _ _ _ _ _ _ (Or.inr h)

theorem other_outcome_ends_call_witness :
    Flock ⟨1⟩ (fun j => if j = 0 then {} else { find := some "connection lost" })
        ⟨fun j => decide (1 ≤ j)⟩ 5 7 F_WRLCK true 2 ⟨[5], [⟨5, 2, 9, 'W'⟩], []⟩ =
      some ( EIO, ⟨[5], [⟨5, 2, 9, 'W'⟩], []⟩) :=
  (other_outcome_ends_call specOps ⟨1⟩
    (fun j => if j = 0 then {} else { find := some "connection lost" })
    ⟨fun j => decide (1 ≤ j)⟩ 5 7 F_WRLCK 0 0 0 true 1 0 ⟨[5], [⟨5, 2, 9, 'W'⟩], []⟩
    (by decide) (Or.inr rfl)).1
    (fun j hj => by
      have h0 : j = 0 := by omega
      subst h0
      exact ⟨by decide, by decide⟩)
    (by decide)

/-! ## Zero affected rows -/

theorem setlk_scan_false (ops : RecordOps) (t : List plock) (inode : Ino) (lkey : key)
    (ltype start end_ : Nat)
    (h : ¬ ∃ r ∈ t, r.inode = inode ∧ (r.sid, r.owner) ≠ lkey ∧
      ∃ l ∈ ops.loadLocks r.records, conflicted ltype start end_ l = true) :
    ¬ (plockMap (t.filter (fun r => decide (r.inode = inode)))).any
        (fun p => decide (p.1 ≠ lkey) && (ops.loadLocks p.2).any (conflicted ltype start end_))
        = true := by
  intro hany
  obtain ⟨p, hp, hc⟩ := List.any_eq_true.mp hany
  obtain ⟨r, hr, rfl⟩ := plockMap_mem _ p hp
  simp only [List.mem_filter, decide_eq_true_eq] at hr
  simp only [Bool.and_eq_true, decide_eq_true_eq, List.any_eq_true] at hc
  exact h ⟨r, hr.1, hr.2, hc.1, hc.2⟩

/-- C17: when the insert or update of the write path of `Flock`, or of the read/write
path of `Setlk`, returns no error and reports zero affected rows, the attempt ends
in the error "insert/update failed", never in success, and the call returns the
error code for it (not 0), leaving the store as it was. -/
theorem zero_rows_is_an_error (ops : RecordOps) (m : dbMeta) (store : Nat → Faults)
    (ctx : Context) (inode : Ino) (owner_ : Nat) (block : Bool)
    (ltype start end_ pid fuel : Nat) (db : DB) (hn : inode ∈ db.nodes)
    (hg : (store 0).get = none) (hfi : (store 0).find = none) (hw : (store 0).write = none)
    (hz : (store 0).zeroRows = true) :
    (ltype ≠ F_UNLCK → ltype ≠ F_RDLCK →
        (∀ r ∈ db.flocks, r.inode = inode → (r.sid, r.owner) = (m.sid, int64 owner_)) →
        flockAttempt m (store 0) inode (int64 owner_) ltype db =
            (some (GoError.other "insert/update failed"), db) ∧
          Flock m store ctx inode owner_ ltype block (fuel + 1) db = some ( EIO, db)) ∧
      (ltype ≠ F_UNLCK →
        (¬ ∃ r ∈ db.plocks, r.inode = inode ∧ (r.sid, r.owner) ≠ (m.sid, int64 owner_) ∧
          ∃ l ∈ ops.loadLocks r.records, conflicted ltype start end_ l = true) →
        setlkAttempt ops m (store 0) inode (int64 owner_) ltype start end_ pid db =
            (some (GoError.other "insert/update failed"), db) ∧
          Setlk ops m store ctx inode owner_ block ltype start end_ pid (fuel + 1) db =
            some ( EIO, db)) ∧
      EIO ≠ 0 := by
  refine ⟨?_, ?_, by decide⟩
  · intro hl1 hl2 hc
    have hnot : ¬ (mapDelete (flockMap (db.flocks.filter (fun r => decide (r.inode = inode))))
        (m.sid, int64 owner_)).length > 0 := by
      rw [mapDelete_length_pos_iff, flock_others_iff]
      rintro ⟨r, hr, hi, hk⟩
      exact hk (hc r hr hi)
    have ha : flockAttempt m (store 0) inode (int64 owner_) ltype db =
        (some (GoError.other "insert/update failed"), db) := by
      rw [flockAttempt_eq m (store 0) inode (int64 owner_) ltype db hg hfi hn]
      simp only [hl2, if_false, hnot]
      split
      · simp [updateFlockLtype, hw, hz, checkAffected]
      · simp [insertOneFlock, hw, hz, checkAffected]
    have ht : txn (flockAttempt m (store 0) inode (int64 owner_) ltype) db =
        (some (GoError.other "insert/update failed"), db) := by
      simp only [txn, ha]
    refine ⟨ha, ?_⟩
    rw [Flock_lock_eq _ _ _ _ _ _ _ _ _ hl1,
      flockLoop_once _ _ _ _ _ _ _ _ _ _ (Or.inr (by rw [ht]; simp [errno, EAGAIN, EIO])), ht]
    rfl
  · intro hl1 hc
    have hno := setlk_scan_false ops db.plocks inode (m.sid, int64 owner_) ltype start end_ hc
    have ha : setlkAttempt ops m (store 0) inode (int64 owner_) ltype start end_ pid db =
        (some (GoError.other "insert/update failed"), db) := by
      rw [setlkAttempt_eq_lock ops m (store 0) inode (int64 owner_) ltype start end_ pid db hg
        hfi hn hl1]
      rw [if_neg hno]
      split
      · simp [updatePlockRecords, hw, hz, checkAffected]
      · simp [insertOnePlock, hw, hz, checkAffected]
    have ht : txn (setlkAttempt ops m (store 0) inode (int64 owner_) ltype start end_ pid) db =
        (some (GoError.other "insert/update failed"), db) := by
      simp only [txn, ha]
    refine ⟨ha, ?_⟩
    unfold Setlk
    rw [setlkLoop_once _ _ _ _ _ _ _ _ _ _ _ _ _ _
      (Or.inr (by rw [ht]; simp [errno, EAGAIN, EIO])), ht]
    rfl

theorem zero_rows_is_an_error_witness :
    Flock ⟨1⟩ (fun _ => { zeroRows := true }) background 5 7 F_WRLCK true 1
        ⟨[5], [⟨5, 1, 7, 'R'⟩], []⟩ = some ( EIO, ⟨[5], [⟨5, 1, 7, 'R'⟩], []⟩) ∧
      Setlk specOps ⟨1⟩ (fun _ => { zeroRows := true }) background 5 7 true F_WRLCK 0 99 42 1
        ⟨[5], [], []⟩ = some ( EIO, ⟨[5], [], []⟩) :=
  ⟨((zero_rows_is_an_error specOps ⟨1⟩ (fun _ => { zeroRows := true }) background 5 7 true
      F_WRLCK 0 99 42 0 ⟨[5], [⟨5, 1, 7, 'R'⟩], []⟩ (by decide) rfl rfl rfl rfl).1 (by decide)
      (by decide) (by decide)).2,
    ((zero_rows_is_an_error specOps ⟨1⟩ (fun _ => { zeroRows := true }) background 5 7 true
      F_WRLCK 0 99 42 0 ⟨[5], [], []⟩ (by decide) rfl rfl rfl rfl).2.1 (by decide)
      (by simp)).2⟩

/-! ## One row per holder -/

theorem filter_sameFlock_length_le (t : List flock) (hu : FlockKeysUnique t) (inode : Ino)
    (sid : Nat) (owner : Int) : (t.filter (sameFlock inode sid owner)).length ≤ 1 := by
  have hnd : (t.filter (sameFlock inode sid owner)).Nodup := (List.Nodup.of_map _ hu).filter _
  have hall : ∀ x ∈ t.filter (sameFlock inode sid owner),
      ∀ y ∈ t.filter (sameFlock inode sid owner), x = y := by
    intro x hx y hy
    rw [List.mem_filter] at hx hy
    apply List.inj_on_of_nodup_map hu hx.1 hy.1
    rw [(sameFlock_iff _ _ _ _).mp hx.2, (sameFlock_iff _ _ _ _).mp hy.2]
  cases hl : t.filter (sameFlock inode sid owner) with
  | nil => simp
  | cons a rest =>
    cases rest with
    | nil => simp
    | cons b rest2 =>
      rw [hl] at hnd hall
      have hab : a = b := hall a (by simp) b (by simp)
      rw [hab] at hnd
      simp at hnd

/-- C18: in every state reached by `Flock` calls each (inode, sid, owner) has at most
one whole-file row; and there a read `Flock` by a holder that has a read row on the
inode returns 0 and leaves the table as it was, with exactly one row for the holder,
of type 'R'. -/
theorem flock_one_row_per_holder (db : DB) (h : FlockReachable db) :
    (∀ inode sid owner, (db.flocks.filter (sameFlock inode sid owner)).length ≤ 1) ∧
      (∀ (m : dbMeta) (store : Nat → Faults) (ctx : Context) (inode : Ino) (owner_ : Nat)
          (block : Bool) (fuel : Nat),
        inode ∈ db.nodes → NoFault (store 0) →
        ({ inode := inode, sid := m.sid, owner := int64 owner_, ltype := 'R' } : flock)
          ∈ db.flocks →
        Flock m store ctx inode owner_ F_RDLCK block (fuel + 1) db = some (0, db) ∧
          db.flocks.filter (sameFlock inode m.sid (int64 owner_)) =
            [{ inode := inode, sid := m.sid, owner := int64 owner_, ltype := 'R' }]) := by
  obtain ⟨hu, hw⟩ := flockReachable_inv db h
  refine ⟨fun inode sid owner => filter_sameFlock_length_le _ hu inode sid owner, ?_⟩
  intro m store ctx inode owner_ block fuel hn hf hrow
  have hsame : ∀ r ∈ db.flocks, sameFlock inode m.sid (int64 owner_) r = true →
      r = { inode := inode, sid := m.sid, owner := int64 owner_, ltype := 'R' } := by
    intro r hr hs
    apply List.inj_on_of_nodup_map hu hr hrow
    rw [(sameFlock_iff _ _ _ _).mp hs]
    rfl
  have hnoW : ∀ r ∈ db.flocks, r.inode = inode → r.ltype ≠ 'W' := by
    intro r hr hi hW
    have := hw r hr hW _ hrow (by rw [hi])
    rw [← this] at hW
    simp at hW
  have ha := flockAttempt_read_ok m (store 0) inode (int64 owner_) db hf hn hnoW
  have hany : db.flocks.any (sameFlock inode m.sid (int64 owner_)) = true :=
    List.any_eq_true.mpr ⟨_, hrow, by simp [sameFlock]⟩
  have hmap : db.flocks.map (fun r => if sameFlock inode m.sid (int64 owner_) r then
      ({ inode := inode, sid := m.sid, owner := int64 owner_, ltype := 'R' } : flock) else r) =
      db.flocks := by
    calc _ = db.flocks.map id := List.map_congr_left (fun r hr => by
          by_cases hs : sameFlock inode m.sid (int64 owner_) r = true
          · rw [if_pos hs]; exact (hsame r hr hs).symm
          · rw [if_neg hs]; rfl)
      _ = db.flocks := List.map_id _
  simp only [hany, if_true, hmap] at ha
  constructor
  · rw [Flock_lock_eq _ _ _ _ _ _ _ _ _ (by decide),
      flockLoop_once _ _ _ _ _ _ _ _ _ _ (Or.inr (by rw [ha]; simp [errno, EAGAIN])), ha]
    rfl
  · apply filter_eq_singleton _ _ _ (List.Nodup.of_map _ hu) hrow (by simp [sameFlock])
    intro x hx hs
    exact hsame x hx hs

theorem flock_one_row_per_holder_witness :
    FlockReachable ⟨[5], [⟨5, 1, 7, 'R'⟩], []⟩ ∧
      Flock ⟨1⟩ healthy background 5 7 F_RDLCK false 1 ⟨[5], [⟨5, 1, 7, 'R'⟩], []⟩ =
        some (0, ⟨[5], [⟨5, 1, 7, 'R'⟩], []⟩) :=
  have hreach : FlockReachable ⟨[5], [⟨5, 1, 7, 'R'⟩], []⟩ :=
    FlockReachable.call ⟨1⟩ healthy background 5 7 F_RDLCK false 1 0
      (FlockReachable.init [5] []) (by decide)
  ⟨hreach, ((flock_one_row_per_holder _ hreach).2 ⟨1⟩ healthy background 5 7 false 0
    (by decide) (noFault_healthy 0) (by decide)).1⟩

/-! ## The caller's byte-range row -/

theorem mapGet_plockMap_of_mem (fs : List plock)
    (hnd : (fs.map (fun l : plock => (l.sid, l.owner))).Nodup) (l : plock) (hl : l ∈ fs) :
    mapGet (plockMap fs) (l.sid, l.owner) = some l.records := by
  have hm := plockMap_of_mem fs hnd l hl
  unfold mapGet
  cases hf : (plockMap fs).find? (fun p => decide (p.1 = (l.sid, l.owner))) with
  | none =>
    rw [List.find?_eq_none] at hf
    exact absurd (by simp) (hf _ hm)
  | some p =>
    have hp := List.mem_of_find?_eq_some hf
    have hk := List.find?_some hf
    simp only [decide_eq_true_eq] at hk
    obtain ⟨l2, hl2, rfl⟩ := plockMap_mem _ p hp
    have : l2 = l := by
      apply List.inj_on_of_nodup_map hnd hl2 hl
      exact hk
    rw [this]
    rfl

theorem mapGet_plockMap_none (fs : List plock) (k : key)
    (h : ∀ l ∈ fs, (l.sid, l.owner) ≠ k) : mapGet (plockMap fs) k = none := by
  unfold mapGet
  rw [Option.map_eq_none', List.find?_eq_none]
  intro p hp
  obtain ⟨l, hl, rfl⟩ := plockMap_mem _ p hp
  simpa using h l hl

/-- C15: holder (1, 7) has a byte-range row on inode 5 whose record blob is empty
and no other holder has a row. Its write request over [0, 99] meets no conflict.
Line 214 tests `len(locks[lkey]) > 0`, the length of the blob and not the presence
of the row (`Flock` tests `_, ok := locks[me]`), so the request takes the insert
branch, fails on the key of the row that is there and returns ` EIO`; the row is
left with its empty blob, although the algebra gives a record to store. -/
theorem setlk_empty_blob_row_not_updated :
    Setlk specOps ⟨1⟩ healthy background 5 7 false F_WRLCK 0 99 42 1 ⟨[5], [], [⟨5, 1, 7, []⟩]⟩ =
        some ( EIO, ⟨[5], [], [⟨5, 1, 7, []⟩]⟩) ∧
      EIO ≠ 0 ∧
      specOps.dumpLocks (specOps.updateLocks (specOps.loadLocks []) ⟨F_WRLCK, 42, 0, 99⟩) ≠ [] := by
  decide

/-- The two cases in which the row of the caller is written: a read or write
`Setlk` on an existing inode that meets no
conflict, with a working store, returns 0. If the caller had no row for the inode,
a row with the encoding of `updateLocks(loadLocks(nil), lock)` is added; if it had
a row with a non-empty record blob, the records of that row are replaced by the
encoding of `updateLocks(loadLocks(records), lock)`. All other rows stay as they
are. -/
theorem setlk_writes_own_row (ops : RecordOps) (m : dbMeta) (store : Nat → Faults)
    (ctx : Context) (inode : Ino) (owner_ : Nat) (block : Bool)
    (ltype start end_ pid fuel : Nat) (db : DB) (hl : ltype = F_RDLCK ∨ ltype = F_WRLCK)
    (hn : inode ∈ db.nodes) (hf : NoFault (store 0)) (hu : PlockKeysUnique db.plocks)
    (hc : ¬ ∃ r ∈ db.plocks, r.inode = inode ∧ (r.sid, r.owner) ≠ (m.sid, int64 owner_) ∧
      ∃ l ∈ ops.loadLocks r.records,
        end_ ≥ l.start ∧ start ≤ l.end_ ∧ (ltype = F_WRLCK ∨ l.ltype = F_WRLCK)) :
    ((∀ r ∈ db.plocks, samePlock inode m.sid (int64 owner_) r = false) →
        Setlk ops m store ctx inode owner_ block ltype start end_ pid (fuel + 1) db =
          some (0, { db with
            plocks := db.plocks ++
              [{ inode := inode, sid := m.sid, owner := int64 owner_,
                 records := ops.dumpLocks (ops.updateLocks (ops.loadLocks [])
                   { ltype := ltype, pid := pid, start := start, end_ := end_ }) }] })) ∧
      (∀ row ∈ db.plocks, samePlock inode m.sid (int64 owner_) row = true →
        row.records ≠ [] →
        Setlk ops m store ctx inode owner_ block ltype start end_ pid (fuel + 1) db =
          some (0, { db with
            plocks := db.plocks.map (fun r =>
              if samePlock inode m.sid (int64 owner_) r then
                { r with
                  records := ops.dumpLocks (ops.updateLocks (ops.loadLocks row.records)
                    { ltype := ltype, pid := pid, start := start, end_ := end_ }) }
              else r) })) := by
  have hne : ltype ≠ F_UNLCK := by
    rcases hl with rfl | rfl <;> decide
  obtain ⟨hg, hfi, hw, hz, _⟩ := hf
  have hno := setlk_scan_false ops db.plocks inode (m.sid, int64 owner_) ltype start end_
    (by rw [← conflict_rows_iff]; exact hc)
  have heq := setlkAttempt_eq_lock ops m (store 0) inode (int64 owner_) ltype start end_ pid db
    hg hfi hn hne
  rw [if_neg hno] at heq
  have hnd := nodup_pholders_of_unique db.plocks hu inode (fun _ => true)
  rw [List.filter_true] at hnd
  constructor
  · intro hnone
    have hget : mapGet (plockMap (db.plocks.filter (fun r => decide (r.inode = inode))))
        (m.sid, int64 owner_) = none := by
      apply mapGet_plockMap_none
      intro l hl2 hk
      simp only [List.mem_filter, decide_eq_true_eq] at hl2
      have := hnone l hl2.1
      simp only [Prod.mk.injEq] at hk
      simp [samePlock, hl2.2, hk.1, hk.2] at this
    have hany : ¬ db.plocks.any (samePlock inode m.sid (int64 owner_)) = true := by
      intro h
      obtain ⟨r, hr, hs⟩ := List.any_eq_true.mp h
      rw [hnone r hr] at hs
      exact absurd hs (by decide)
    have ha : txn (setlkAttempt ops m (store 0) inode (int64 owner_) ltype start end_ pid) db =
        (none, { db with
          plocks := db.plocks ++
            [{ inode := inode, sid := m.sid, owner := int64 owner_,
               records := ops.dumpLocks (ops.updateLocks (ops.loadLocks [])
                 { ltype := ltype, pid := pid, start := start, end_ := end_ }) }] }) := by
      unfold txn
      rw [heq, hget]
      simp [insertOnePlock, hw, hz, hany, checkAffected]
    unfold Setlk
    rw [setlkLoop_once _ _ _ _ _ _ _ _ _ _ _ _ _ _ (Or.inr (by rw [ha]; simp [errno, EAGAIN])), ha]
    rfl
  · intro row hrow hs hrec
    have hs2 := hs
    simp only [samePlock, decide_eq_true_eq] at hs2
    have hget : mapGet (plockMap (db.plocks.filter (fun r => decide (r.inode = inode))))
        (m.sid, int64 owner_) = some row.records := by
      have := mapGet_plockMap_of_mem _ hnd row (by simp [List.mem_filter, hrow, hs2.1])
      rw [hs2.2.1, hs2.2.2] at this
      exact this
    have hlen : (db.plocks.filter (samePlock inode m.sid (int64 owner_))).length ≠ 0 := by
      intro h0
      have : row ∈ db.plocks.filter (samePlock inode m.sid (int64 owner_)) :=
        List.mem_filter.mpr ⟨hrow, hs⟩
      rw [List.length_eq_zero.mp h0] at this
      simp at this
    have hpos : 0 < row.records.length := List.length_pos.mpr hrec
    have ha : txn (setlkAttempt ops m (store 0) inode (int64 owner_) ltype start end_ pid) db =
        (none, { db with
          plocks := db.plocks.map (fun r =>
            if samePlock inode m.sid (int64 owner_) r then
              { r with
                records := ops.dumpLocks (ops.updateLocks (ops.loadLocks row.records)
                  { ltype := ltype, pid := pid, start := start, end_ := end_ }) }
            else r) }) := by
      unfold txn
      rw [heq, hget]
      simp [updatePlockRecords, hw, hz, checkAffected, hpos, hlen]
    unfold Setlk
    rw [setlkLoop_once _ _ _ _ _ _ _ _ _ _ _ _ _ _ (Or.inr (by rw [ha]; simp [errno, EAGAIN])), ha]
    rfl

theorem setlk_writes_own_row_witness :
    Setlk specOps ⟨1⟩ healthy background 5 7 false F_WRLCK 50 99 42 1
        ⟨[5], [], [⟨5, 1, 7, encodeRecords [⟨F_RDLCK, 42, 0, 199⟩]⟩]⟩ =
      some (0, ⟨[5], [], [⟨5, 1, 7, encodeRecords
        [⟨F_RDLCK, 42, 0, 49⟩, ⟨F_WRLCK, 42, 50, 99⟩, ⟨F_RDLCK, 42, 100, 199⟩]⟩]⟩) := by
  have h := (setlk_writes_own_row specOps ⟨1⟩ healthy background 5 7 false F_WRLCK 50 99 42 0
    ⟨[5], [], [⟨5, 1, 7, encodeRecords [⟨F_RDLCK, 42, 0, 199⟩]⟩]⟩ (Or.inr rfl) (by decide)
    (noFault_healthy 0) (by simp [PlockKeysUnique]) (by decide)).2
    ⟨5, 1, 7, encodeRecords [⟨F_RDLCK, 42, 0, 199⟩]⟩ (by simp) (by decide) (by decide)
  rw [h]
  decide

/-! ## The codec -/

theorem putBytes_succ (w x : Nat) :
    putBytes (w + 1) x = (x / 256 ^ w % 256) :: putBytes w x := by
  unfold putBytes
  rw [List.range_succ_eq_map, List.map_cons, List.map_map]
  congr 1
  apply List.map_congr_left
  intro i _
  simp only [Function.comp_apply]
  congr 3
  omega

theorem length_putBytes (w x : Nat) : (putBytes w x).length = w := by
  simp [putBytes]

theorem foldl_bytes (acc : Nat) (bs : List Nat) :
    bs.foldl (fun acc b => acc * 256 + b) acc =
      acc * 256 ^ bs.length + bs.foldl (fun acc b => acc * 256 + b) 0 := by
  induction bs generalizing acc with
  | nil => simp
  | cons b bs ih =>
    simp only [List.foldl_cons, List.length_cons]
    rw [ih (acc * 256 + b), ih (0 * 256 + b)]
    ring

theorem getBytes_cons (b : Nat) (bs : List Nat) :
    getBytes (b :: bs) = b * 256 ^ bs.length + getBytes bs := by
  unfold getBytes
  rw [List.foldl_cons, foldl_bytes]
  simp

theorem getBytes_putBytes (w x : Nat) : getBytes (putBytes w x) = x % 256 ^ w := by
  induction w with
  | zero => simp [putBytes, getBytes, Nat.mod_one]
  | succ w ih =>
    rw [putBytes_succ, getBytes_cons, ih, length_putBytes, Nat.mod_pow_succ]
    ring

/-- The 24 bytes of one record. -/
theorem encodeRecords_cons (l : plockRecord) (ls : List plockRecord) :
    encodeRecords (l :: ls) =
      putBytes 4 l.ltype ++ (putBytes 4 l.pid ++ (putBytes 8 l.start ++
        (putBytes 8 l.end_ ++ encodeRecords ls))) := by
  simp [encodeRecords, List.flatMap_cons, List.append_assoc]

theorem length_encodeRecords (ls : List plockRecord) :
    (encodeRecords ls).length = 24 * ls.length := by
  induction ls with
  | nil => rfl
  | cons l ls ih =>
    rw [encodeRecords_cons]
    simp only [List.length_append, length_putBytes, ih, List.length_cons]
    omega

theorem decodeN_encodeRecords (ls : List plockRecord) (hb : ∀ l ∈ ls, FitsFields l) :
    decodeN ls.length (encodeRecords ls) = ls := by
  induction ls with
  | nil => rfl
  | cons l ls ih =>
    obtain ⟨h1, h2, h3, h4⟩ := hb l (by simp)
    have hA := length_putBytes 4 l.ltype
    have hB := length_putBytes 4 l.pid
    have hC := length_putBytes 8 l.start
    have hD := length_putBytes 8 l.end_
    rw [encodeRecords_cons, List.length_cons, decodeN]
    have t1 : (putBytes 4 l.ltype ++ (putBytes 4 l.pid ++ (putBytes 8 l.start ++
        (putBytes 8 l.end_ ++ encodeRecords ls)))).take 4 = putBytes 4 l.ltype :=
      List.take_left' hA
    have d1 : (putBytes 4 l.ltype ++ (putBytes 4 l.pid ++ (putBytes 8 l.start ++
        (putBytes 8 l.end_ ++ encodeRecords ls)))).drop 4 =
        putBytes 4 l.pid ++ (putBytes 8 l.start ++ (putBytes 8 l.end_ ++ encodeRecords ls)) :=
      List.drop_left' hA
    have d2 : (putBytes 4 l.ltype ++ (putBytes 4 l.pid ++ (putBytes 8 l.start ++
        (putBytes 8 l.end_ ++ encodeRecords ls)))).drop 8 =
        putBytes 8 l.start ++ (putBytes 8 l.end_ ++ encodeRecords ls) := by
      rw [show 8 = 4 + 4 from rfl, ← List.drop_drop, d1]
      exact List.drop_left' hB
    have d3 : (putBytes 4 l.ltype ++ (putBytes 4 l.pid ++ (putBytes 8 l.start ++
        (putBytes 8 l.end_ ++ encodeRecords ls)))).drop 16 =
        putBytes 8 l.end_ ++ encodeRecords ls := by
      rw [show 16 = 8 + 8 from rfl, ← List.drop_drop, d2]
      exact List.drop_left' hC
    have d4 : (putBytes 4 l.ltype ++ (putBytes 4 l.pid ++ (putBytes 8 l.start ++
        (putBytes 8 l.end_ ++ encodeRecords ls)))).drop 24 = encodeRecords ls := by
      rw [show 24 = 16 + 8 from rfl, ← List.drop_drop, d3]
      exact List.drop_left' hD
    rw [t1, d1, d2, d3, d4, List.take_left' hB, List.take_left' hC, List.take_left' hD,
      getBytes_putBytes, getBytes_putBytes, getBytes_putBytes, getBytes_putBytes,
      ih (fun x hx => hb x (by simp [hx]))]
    have e1 : l.ltype % 256 ^ 4 = l.ltype := Nat.mod_eq_of_lt (by norm_num; omega)
    have e2 : l.pid % 256 ^ 4 = l.pid := Nat.mod_eq_of_lt (by norm_num; omega)
    have e3 : l.start % 256 ^ 8 = l.start := Nat.mod_eq_of_lt (by norm_num; omega)
    have e4 : l.end_ % 256 ^ 8 = l.end_ := Nat.mod_eq_of_lt (by norm_num; omega)
    rw [e1, e2, e3, e4]

theorem decodeRecords_encodeRecords (ls : List plockRecord) (hb : ∀ l ∈ ls, FitsFields l) :
    decodeRecords (encodeRecords ls) = ls := by
  unfold decodeRecords
  rw [length_encodeRecords, Nat.mul_div_cancel_left _ (by norm_num : 0 < 24)]
  exact decodeN_encodeRecords ls hb

/-- C19: the codec modelled from section 4.1. Decoding the encoding of a record list
gives the list back, with type, pid, start and end as they were, for every list
whose fields fit their Go types (so for every sorted disjoint list, the empty list
and records with end = 2^64-1 included); an empty blob decodes to the empty list. -/
theorem codec_round_trip (r : List plockRecord) (hb : ∀ l ∈ r, FitsFields l) :
    specOps.loadLocks (specOps.dumpLocks r) = r ∧ specOps.loadLocks [] = [] :=
  ⟨decodeRecords_encodeRecords r hb, rfl⟩

theorem codec_round_trip_witness :
    specOps.loadLocks (specOps.dumpLocks
        [⟨F_RDLCK, 42, 0, 99⟩, ⟨F_WRLCK, 4294967295, 100, 18446744073709551615⟩]) =
      [⟨F_RDLCK, 42, 0, 99⟩, ⟨F_WRLCK, 4294967295, 100, 18446744073709551615⟩] ∧
    specOps.loadLocks (specOps.dumpLocks []) = [] :=
  ⟨(codec_round_trip [⟨F_RDLCK, 42, 0, 99⟩, ⟨F_WRLCK, 4294967295, 100, 18446744073709551615⟩]
      (by
        intro l hl
        simp only [List.mem_cons, List.mem_singleton, List.not_mem_nil, or_false] at hl
        rcases hl with rfl | rfl <;> (unfold FitsFields; decide))).1,
    (codec_round_trip [] (by simp)).1⟩

/-! ## The range algebra -/

/-- What a piece left by `removeRange` has in common with the record it comes from. -/
theorem mem_removeRange (s e : Nat) (cur : List plockRecord) (x : plockRecord)
    (hx : x ∈ removeRange s e cur) :
    ∃ r ∈ cur, x.ltype = r.ltype ∧ x.pid = r.pid ∧ r.start ≤ x.start ∧ x.end_ ≤ r.end_ ∧
      (x.end_ < s ∨ e < x.start) ∧ (r.start ≤ r.end_ → x.start ≤ x.end_) := by
  unfold removeRange at hx
  rw [List.mem_flatMap] at hx
  obtain ⟨r, hr, hxr⟩ := hx
  refine ⟨r, hr, ?_⟩
  split at hxr
  · rename_i hside
    simp only [List.mem_singleton] at hxr
    subst hxr
    exact ⟨rfl, rfl, le_refl _, le_refl _, hside, fun h => h⟩
  · rename_i hside
    simp only [not_or, not_lt] at hside
    simp only [List.mem_append] at hxr
    rcases hxr with hxr | hxr
    · split at hxr
      · rename_i hlt
        simp only [List.mem_singleton] at hxr
        subst hxr
        simp only
        refine ⟨by trivial, by trivial, by trivial, by omega, Or.inl (by omega),
          fun _ => by omega⟩
      · simp at hxr
    · split at hxr
      · rename_i hlt
        simp only [List.mem_singleton] at hxr
        subst hxr
        simp only
        refine ⟨by trivial, by trivial, by omega, by trivial, Or.inr (by omega),
          fun _ => by omega⟩
      · simp at hxr

theorem apart_of_pieces (a b x y : plockRecord) (hab : Apart a b)
    (hx : x.ltype = a.ltype ∧ x.end_ ≤ a.end_) (hy : y.ltype = b.ltype ∧ b.start ≤ y.start) :
    Apart x y := by
  unfold Apart at hab ⊢
  obtain ⟨h1, h2⟩ := hab
  refine ⟨by omega, ?_⟩
  rintro ⟨ht, hadj⟩
  apply h2
  refine ⟨by rw [← hx.1, ← hy.1]; exact ht, by omega⟩

/-- Removing a non-empty range keeps a record list well formed. -/
theorem wellFormed_removeRange (s e : Nat) (hse : s ≤ e) (cur : List plockRecord)
    (h : WellFormed cur) : WellFormed (removeRange s e cur) := by
  constructor
  · unfold removeRange
    rw [List.pairwise_flatMap]
    constructor
    · intro r _
      split
      · simp
      · rename_i hside
        simp only [not_or, not_lt] at hside
        split <;> split <;> simp [Apart]
        omega
    · apply List.Pairwise.imp _ h.1
      intro a b hab x hx y hy
      have hxa : x ∈ removeRange s e [a] := by simpa [removeRange] using hx
      have hyb : y ∈ removeRange s e [b] := by simpa [removeRange] using hy
      obtain ⟨r1, hr1, p1⟩ := mem_removeRange s e [a] x hxa
      obtain ⟨r2, hr2, p2⟩ := mem_removeRange s e [b] y hyb
      simp only [List.mem_singleton] at hr1 hr2
      subst hr1 hr2
      exact apart_of_pieces _ _ x y hab ⟨p1.1, p1.2.2.2.1⟩ ⟨p2.1, p2.2.2.1⟩
  · intro x hx
    obtain ⟨r, hr, p⟩ := mem_removeRange s e cur x hx
    exact p.2.2.2.2.2 (h.2 r hr)

theorem fits_removeRange (s e : Nat) (cur : List plockRecord) (h : WellFormed cur)
    (hf : ∀ r ∈ cur, FitsFields r) : ∀ x ∈ removeRange s e cur, FitsFields x := by
  intro x hx
  obtain ⟨r, hr, p1, p2, p3, p4, _, p6⟩ := mem_removeRange s e cur x hx
  obtain ⟨f1, f2, f3, f4⟩ := hf r hr
  have := p6 (h.2 r hr)
  unfold FitsFields
  rw [p1, p2]
  exact ⟨f1, f2, by omega, by omega⟩

/-- A well-formed list is put together from a left part, one record and a right part. -/
theorem wellFormed_assemble (B A : List plockRecord) (n : plockRecord)
    (hB : B.Pairwise Apart) (hA : A.Pairwise Apart) (hBn : ∀ a ∈ B, Apart a n)
    (hnA : ∀ b ∈ A, Apart n b) (hBA : ∀ a ∈ B, ∀ b ∈ A, Apart a b)
    (hBle : ∀ r ∈ B, r.start ≤ r.end_) (hAle : ∀ r ∈ A, r.start ≤ r.end_)
    (hn : n.start ≤ n.end_) : WellFormed (B ++ [n] ++ A) := by
  constructor
  · rw [List.pairwise_append, List.pairwise_append]
    refine ⟨⟨hB, by simp, ?_⟩, hA, ?_⟩
    · intro a ha b hb
      simp only [List.mem_singleton] at hb
      subst hb
      exact hBn a ha
    · intro a ha b hb
      simp only [List.mem_append, List.mem_singleton] at ha
      rcases ha with ha | rfl
      · exact hBA a ha b hb
      · exact hnA b hb
  · intro r hr
    simp only [List.mem_append, List.mem_singleton] at hr
    rcases hr with (hr | rfl) | hr
    · exact hBle r hr
    · exact hn
    · exact hAle r hr

/-- The left part when the new record is not merged with its left neighbour. -/
theorem left_keep (before : List plockRecord) (n : plockRecord)
    (hpw : before.Pairwise Apart) (hle : ∀ r ∈ before, r.start ≤ r.end_)
    (hside : ∀ a ∈ before, a.end_ < n.start)
    (hlast : ∀ p, before.getLast? = some p → ¬ (p.ltype = n.ltype ∧ p.end_ + 1 = n.start)) :
    ∀ a ∈ before, Apart a n := by
  intro a ha
  refine ⟨hside a ha, ?_⟩
  rcases hgl : before.getLast? with _ | p
  · rw [List.getLast?_eq_none_iff] at hgl
    rw [hgl] at ha
    simp at ha
  · have hdec := List.dropLast_append_getLast? p hgl
    rw [← hdec] at ha hpw hle hside
    rw [List.pairwise_append] at hpw
    simp only [List.mem_append, List.mem_singleton] at ha
    rcases ha with ha | rfl
    · have hap := hpw.2.2 a ha p (by simp)
      have hp := hside p (by simp)
      have hple := hle p (by simp)
      unfold Apart at hap
      rintro ⟨_, hadj⟩
      omega
    · exact hlast _ hgl

/-- The left part when the new record is merged with its left neighbour `p`. -/
theorem left_join (before : List plockRecord) (n p : plockRecord)
    (hpw : before.Pairwise Apart) (hgl : before.getLast? = some p)
    (hty : p.ltype = n.ltype) (hst : n.start = p.start) :
    ∀ a ∈ before.dropLast, Apart a n := by
  intro a ha
  have hdec := List.dropLast_append_getLast? p hgl
  rw [← hdec, List.pairwise_append] at hpw
  have hap := hpw.2.2 a ha p (by simp)
  unfold Apart at hap ⊢
  rw [← hty, hst]
  exact hap

/-- The right part when the new record is not merged with its right neighbour. -/
theorem right_keep (after : List plockRecord) (n : plockRecord)
    (hpw : after.Pairwise Apart) (hle : ∀ r ∈ after, r.start ≤ r.end_)
    (hside : ∀ b ∈ after, n.end_ < b.start)
    (hhead : ∀ q, after.head? = some q → ¬ (q.ltype = n.ltype ∧ n.end_ + 1 = q.start)) :
    ∀ b ∈ after, Apart n b := by
  intro b hb
  refine ⟨hside b hb, ?_⟩
  cases after with
  | nil => simp at hb
  | cons q rest =>
    rw [List.pairwise_cons] at hpw
    simp only [List.mem_cons] at hb
    rcases hb with rfl | hb
    · have := hhead b rfl
      rintro ⟨h1, h2⟩
      exact this ⟨h1.symm, h2⟩
    · have hqb := hpw.1 b hb
      have hq := hside q (by simp)
      have hqle := hle q (by simp)
      unfold Apart at hqb
      rintro ⟨_, hadj⟩
      omega

/-- The right part when the new record is merged with its right neighbour `q`. -/
theorem right_join (after : List plockRecord) (n q : plockRecord)
    (hpw : after.Pairwise Apart) (hhd : after.head? = some q)
    (hty : q.ltype = n.ltype) (hen : n.end_ = q.end_) :
    ∀ b ∈ after.tail, Apart n b := by
  intro b hb
  cases after with
  | nil => simp at hhd
  | cons q2 rest =>
    simp only [List.head?_cons, Option.some.injEq] at hhd
    subst hhd
    rw [List.pairwise_cons] at hpw
    simp only [List.tail_cons] at hb
    have hqb := hpw.1 b hb
    unfold Apart at hqb ⊢
    rw [← hty, hen]
    exact hqb

/-- The range algebra keeps a record list well formed and its fields in range. -/
theorem wellFormed_applyRequest (cur : List plockRecord) (nl : plockRecord)
    (h : WellFormed cur) (hf : ∀ r ∈ cur, FitsFields r) (hnl : FitsFields nl) :
    WellFormed (applyRequest cur nl) ∧ ∀ r ∈ applyRequest cur nl, FitsFields r := by
  unfold applyRequest
  by_cases hse : nl.end_ < nl.start
  · rw [if_pos hse]
    exact ⟨h, hf⟩
  rw [if_neg hse]
  have hse2 : nl.start ≤ nl.end_ := Nat.le_of_not_lt hse
  have hrest := wellFormed_removeRange nl.start nl.end_ hse2 cur h
  have hrfit := fits_removeRange nl.start nl.end_ cur h hf
  dsimp only
  by_cases hun : nl.ltype = F_UNLCK
  · rw [if_pos hun]
    exact ⟨hrest, hrfit⟩
  rw [if_neg hun]
  have hBsub : ((removeRange nl.start nl.end_ cur).filter
      (fun r => decide (r.end_ < nl.start))).Sublist (removeRange nl.start nl.end_ cur) :=
    List.filter_sublist _
  have hAsub : ((removeRange nl.start nl.end_ cur).filter
      (fun r => decide (nl.end_ < r.start))).Sublist (removeRange nl.start nl.end_ cur) :=
    List.filter_sublist _
  have hBpw := List.Pairwise.sublist hBsub hrest.1
  have hApw := List.Pairwise.sublist hAsub hrest.1
  have hBside : ∀ a ∈ (removeRange nl.start nl.end_ cur).filter
      (fun r => decide (r.end_ < nl.start)), a.end_ < nl.start := by
    intro a ha
    simpa using (List.mem_filter.mp ha).2
  have hAside : ∀ b ∈ (removeRange nl.start nl.end_ cur).filter
      (fun r => decide (nl.end_ < r.start)), nl.end_ < b.start := by
    intro b hb
    simpa using (List.mem_filter.mp hb).2
  have hBmem : ∀ a ∈ (removeRange nl.start nl.end_ cur).filter
      (fun r => decide (r.end_ < nl.start)), a ∈ removeRange nl.start nl.end_ cur :=
    fun a ha => List.mem_of_mem_filter ha
  have hAmem : ∀ b ∈ (removeRange nl.start nl.end_ cur).filter
      (fun r => decide (nl.end_ < r.start)), b ∈ removeRange nl.start nl.end_ cur :=
    fun b hb => List.mem_of_mem_filter hb
  generalize (removeRange nl.start nl.end_ cur).filter
    (fun r => decide (r.end_ < nl.start)) = before at hBsub hBpw hBside hBmem ⊢
  generalize (removeRange nl.start nl.end_ cur).filter
    (fun r => decide (nl.end_ < r.start)) = after at hAsub hApw hAside hAmem ⊢
  have hBle : ∀ r ∈ before, r.start ≤ r.end_ := fun r hr => hrest.2 r (hBmem r hr)
  have hAle : ∀ r ∈ after, r.start ≤ r.end_ := fun r hr => hrest.2 r (hAmem r hr)
  have hBfit : ∀ r ∈ before, FitsFields r := fun r hr => hrfit r (hBmem r hr)
  have hAfit : ∀ r ∈ after, FitsFields r := fun r hr => hrfit r (hAmem r hr)
  have hcross : ∀ a ∈ before, ∀ b ∈ after, Apart a b := by
    intro a ha b hb
    have h1 := hBside a ha
    have h2 := hAside b hb
    exact ⟨by omega, by rintro ⟨_, hadj⟩; omega⟩
  obtain ⟨n1, n2, n3, n4⟩ := hnl
  -- every way of putting the result together
  have hG : ∀ (B A : List plockRecord) (lo hi : Nat),
      ((∀ a ∈ B, a ∈ before) ∧ B.Pairwise Apart ∧ lo ≤ nl.start ∧
        ∀ n : plockRecord, n.start = lo → n.ltype = nl.ltype → ∀ a ∈ B, Apart a n) →
      ((∀ b ∈ A, b ∈ after) ∧ A.Pairwise Apart ∧ nl.end_ ≤ hi ∧ hi < 2 ^ 64 ∧
        ∀ n : plockRecord, n.end_ = hi → n.ltype = nl.ltype → ∀ b ∈ A, Apart n b) →
      WellFormed (B ++ [{ nl with start := lo, end_ := hi }] ++ A) ∧
        ∀ r ∈ B ++ [{ nl with start := lo, end_ := hi }] ++ A, FitsFields r := by
    rintro B A lo hi ⟨hBin, hBpw2, hlo, hBn⟩ ⟨hAin, hApw2, hhi, hhifit, hnA⟩
    constructor
    · apply wellFormed_assemble B A _ hBpw2 hApw2
      · exact hBn _ rfl rfl
      · exact hnA _ rfl rfl
      · exact fun a ha b hb => hcross a (hBin a ha) b (hAin b hb)
      · exact fun r hr => hBle r (hBin r hr)
      · exact fun r hr => hAle r (hAin r hr)
      · show lo ≤ hi
        omega
    · intro r hr
      simp only [List.mem_append, List.mem_singleton] at hr
      rcases hr with (hr | rfl) | hr
      · exact hBfit r (hBin r hr)
      · exact ⟨n1, n2, by show lo < 2 ^ 64; omega, hhifit⟩
      · exact hAfit r (hAin r hr)
  -- the left neighbour
  have hLkeep : (∀ p, before.getLast? = some p →
      ¬ (p.ltype = nl.ltype ∧ p.end_ + 1 = nl.start)) →
      ((∀ a ∈ before, a ∈ before) ∧ before.Pairwise Apart ∧ nl.start ≤ nl.start ∧
        ∀ n : plockRecord, n.start = nl.start → n.ltype = nl.ltype →
          ∀ a ∈ before, Apart a n) := by
    intro hlast
    refine ⟨fun a ha => ha, hBpw, le_refl _, ?_⟩
    intro n hn1 hn2
    apply left_keep before n hBpw hBle (by rw [hn1]; exact hBside)
    intro p hp
    rw [hn1, hn2]
    exact hlast p hp
  have hLjoin : ∀ p, before.getLast? = some p →
      (p.ltype = nl.ltype ∧ p.end_ + 1 = nl.start) →
      ((∀ a ∈ before.dropLast, a ∈ before) ∧ before.dropLast.Pairwise Apart ∧
        p.start ≤ nl.start ∧
        ∀ n : plockRecord, n.start = p.start → n.ltype = nl.ltype →
          ∀ a ∈ before.dropLast, Apart a n) := by
    intro p hgl hj
    refine ⟨fun a ha => List.mem_of_mem_dropLast ha,
      List.Pairwise.sublist (List.dropLast_sublist _) hBpw, ?_, ?_⟩
    · have hp : p ∈ before := by
        rw [← List.dropLast_append_getLast? p hgl]
        simp
      have := hBle p hp
      omega
    · intro n hn1 hn2
      exact left_join before n p hBpw hgl (by rw [hn2]; exact hj.1) hn1
  -- the right neighbour
  have hRkeep : (∀ q, after.head? = some q →
      ¬ (q.ltype = nl.ltype ∧ nl.end_ + 1 = q.start)) →
      ((∀ b ∈ after, b ∈ after) ∧ after.Pairwise Apart ∧ nl.end_ ≤ nl.end_ ∧
        nl.end_ < 2 ^ 64 ∧
        ∀ n : plockRecord, n.end_ = nl.end_ → n.ltype = nl.ltype →
          ∀ b ∈ after, Apart n b) := by
    intro hhead
    refine ⟨fun b hb => hb, hApw, le_refl _, n4, ?_⟩
    intro n hn1 hn2
    apply right_keep after n hApw hAle (by rw [hn1]; exact hAside)
    intro q hq
    rw [hn1, hn2]
    exact hhead q hq
  have hRjoin : ∀ q, after.head? = some q →
      (q.ltype = nl.ltype ∧ nl.end_ + 1 = q.start) →
      ((∀ b ∈ after.tail, b ∈ after) ∧ after.tail.Pairwise Apart ∧ nl.end_ ≤ q.end_ ∧
        q.end_ < 2 ^ 64 ∧
        ∀ n : plockRecord, n.end_ = q.end_ → n.ltype = nl.ltype →
          ∀ b ∈ after.tail, Apart n b) := by
    intro q hhd hj
    have hq : q ∈ after := List.mem_of_mem_head? hhd
    refine ⟨fun b hb => List.mem_of_mem_tail hb,
      List.Pairwise.sublist (List.tail_sublist _) hApw, ?_, (hAfit q hq).2.2.2, ?_⟩
    · have := hAle q hq
      omega
    · intro n hn1 hn2
      exact right_join after n q hApw hhd (by rw [hn2]; exact hj.1) hn1
  rcases hgl : before.getLast? with _ | p
  · have hL := hLkeep (fun p hp => by rw [hgl] at hp; exact absurd hp (by simp))
    rcases hhd : after.head? with _ | q
    · have hR := hRkeep (fun q hq => by rw [hhd] at hq; exact absurd hq (by simp))
      simpa using hG _ _ _ _ hL hR
    · by_cases hk : q.ltype = nl.ltype ∧ nl.end_ + 1 = q.start
      · simpa [hk] using hG _ _ _ _ hL (hRjoin q hhd hk)
      · have hR := hRkeep (fun q2 hq2 => by
          rw [hhd] at hq2
          simp only [Option.some.injEq] at hq2
          rw [← hq2]
          exact hk)
        simpa [hk] using hG _ _ _ _ hL hR
  · by_cases hj : p.ltype = nl.ltype ∧ p.end_ + 1 = nl.start
    · have hL := hLjoin p hgl hj
      rcases hhd : after.head? with _ | q
      · have hR := hRkeep (fun q hq => by rw [hhd] at hq; exact absurd hq (by simp))
        simpa [hj] using hG _ _ _ _ hL hR
      · by_cases hk : q.ltype = nl.ltype ∧ nl.end_ + 1 = q.start
        · simpa [hj, hk] using hG _ _ _ _ hL (hRjoin q hhd hk)
        · have hR := hRkeep (fun q2 hq2 => by
            rw [hhd] at hq2
            simp only [Option.some.injEq] at hq2
            rw [← hq2]
            exact hk)
          simpa [hj, hk] using hG _ _ _ _ hL hR
    · have hL := hLkeep (fun p2 hp2 => by
        rw [hgl] at hp2
        simp only [Option.some.injEq] at hp2
        rw [← hp2]
        exact hj)
      rcases hhd : after.head? with _ | q
      · have hR := hRkeep (fun q hq => by rw [hhd] at hq; exact absurd hq (by simp))
        simpa [hj] using hG _ _ _ _ hL hR
      · by_cases hk : q.ltype = nl.ltype ∧ nl.end_ + 1 = q.start
        · simpa [hj, hk] using hG _ _ _ _ hL (hRjoin q hhd hk)
        · have hR := hRkeep (fun q2 hq2 => by
            rw [hhd] at hq2
            simp only [Option.some.injEq] at hq2
            rw [← hq2]
            exact hk)
          simpa [hj, hk] using hG _ _ _ _ hL hR

/-! ## Invariants of the byte-range rows -/

theorem rows_deletePlock (f : Faults) (inode : Ino) (sid : Nat) (owner : Int) (db : DB) :
    ∀ r ∈ (deletePlock f inode sid owner db).2.2.plocks, r ∈ db.plocks := by
  intro r hr
  unfold deletePlock at hr
  cases hw : f.write with
  | some msg => simpa [hw] using hr
  | none =>
    simp only [hw] at hr
    exact List.mem_of_mem_filter hr

theorem rows_updatePlockRecords (f : Faults) (records : List Nat) (cond : plock → Bool)
    (db : DB) :
    ∀ r ∈ (updatePlockRecords f records cond db).2.2.plocks,
      r ∈ db.plocks ∨ r.records = records := by
  intro r hr
  unfold updatePlockRecords at hr
  cases hw : f.write with
  | some msg => exact Or.inl (by simpa [hw] using hr)
  | none =>
    cases hz : f.zeroRows with
    | true => exact Or.inl (by simpa [hw, hz] using hr)
    | false =>
      simp only [hw, hz, Bool.false_eq_true, if_false, List.mem_map] at hr
      obtain ⟨r0, hr0, rfl⟩ := hr
      by_cases hc : cond r0 = true
      · right; rw [if_pos hc]
      · left; rw [if_neg hc]; exact hr0

theorem rows_insertOnePlock (f : Faults) (row : plock) (db : DB) :
    ∀ r ∈ (insertOnePlock f row db).2.2.plocks, r ∈ db.plocks ∨ r = row := by
  intro r hr
  unfold insertOnePlock at hr
  cases hw : f.write with
  | some msg => exact Or.inl (by simpa [hw] using hr)
  | none =>
    cases hz : f.zeroRows with
    | true => exact Or.inl (by simpa [hw, hz] using hr)
    | false =>
      simp only [hw, hz, Bool.false_eq_true, if_false] at hr
      split at hr
      · exact Or.inl hr
      · simp only [List.mem_append, List.mem_singleton] at hr
        exact hr

theorem mine_cases (P : List Nat → Prop) (ps : List plock) (k : key)
    (h : ∀ r ∈ ps, P r.records) :
    (mapGet (plockMap ps) k).getD [] = [] ∨ P ((mapGet (plockMap ps) k).getD []) := by
  unfold mapGet
  cases hf : (plockMap ps).find? (fun p => decide (p.1 = k)) with
  | none => left; rfl
  | some p =>
    right
    obtain ⟨l, hl, rfl⟩ := plockMap_mem _ p (List.mem_of_find?_eq_some hf)
    exact h l hl

/-- An attempt of `Setlk` keeps a property of the record blobs of all rows, if the
blob written for a lock request and the non-empty result of an unlock have it. -/
theorem setlkAttempt_rows (ops : RecordOps) (P : List Nat → Prop) (m : dbMeta) (f : Faults)
    (inode : Ino) (owner : Int) (ltype start end_ pid : Nat) (db : DB)
    (hlock : ltype ≠ F_UNLCK → ∀ mine, (mine = [] ∨ P mine) →
      P (ops.dumpLocks (ops.updateLocks (ops.loadLocks mine)
        { ltype := ltype, pid := pid, start := start, end_ := end_ })))
    (hunlock : ltype = F_UNLCK → ∀ recs, P recs →
      (ops.updateLocks (ops.loadLocks recs)
        { ltype := ltype, pid := pid, start := start, end_ := end_ }).length ≠ 0 →
      P (ops.dumpLocks (ops.updateLocks (ops.loadLocks recs)
        { ltype := ltype, pid := pid, start := start, end_ := end_ })))
    (h : ∀ r ∈ db.plocks, P r.records) :
    ∀ r ∈ (setlkAttempt ops m f inode owner ltype start end_ pid db).2.plocks, P r.records := by
  unfold setlkAttempt
  dsimp only
  split
  · exact h
  · exact h
  · split
    · rename_i hl
      split
      · exact h
      · exact h
      · rename_i x l hgp
        have hlmem : l ∈ db.plocks := by
          unfold getPlock at hgp
          cases hfi : f.find with
          | some msg => simp [hfi] at hgp
          | none =>
            simp only [hfi, Prod.mk.injEq, and_true] at hgp
            exact List.mem_of_find?_eq_some hgp
        split
        · exact h
        · split
          · intro r hr
            exact h r (rows_deletePlock _ _ _ _ _ r hr)
          · rename_i hne
            intro r hr
            rcases rows_updatePlockRecords _ _ _ _ r hr with hr | hr
            · exact h r hr
            · rw [hr]
              exact hunlock hl l.records (h l hlmem) hne
    · rename_i hl
      split
      · exact h
      · rename_i x ps hfp
        have hps : ∀ r ∈ ps, P r.records := by
          intro r hr
          unfold findPlocks at hfp
          cases hfi : f.find with
          | some msg => simp [hfi] at hfp
          | none =>
            simp only [hfi, Prod.mk.injEq, and_true] at hfp
            rw [← hfp] at hr
            exact h r (List.mem_of_mem_filter hr)
        split
        · exact h
        · rw [checkAffected_snd]
          have hnew := hlock hl _ (mine_cases P ps (m.sid, owner) hps)
          split
          · intro r hr
            rcases rows_updatePlockRecords _ _ _ _ r hr with hr | hr
            · exact h r hr
            · rw [hr]; exact hnew
          · intro r hr
            rcases rows_insertOnePlock _ _ _ r hr with hr | hr
            · exact h r hr
            · rw [hr]; exact hnew

theorem setlkLoop_rows (ops : RecordOps) (P : List Nat → Prop) (m : dbMeta)
    (store : Nat → Faults) (ctx : Context) (inode : Ino) (owner : Int) (block : Bool)
    (ltype start end_ pid : Nat)
    (hlock : ltype ≠ F_UNLCK → ∀ mine, (mine = [] ∨ P mine) →
      P (ops.dumpLocks (ops.updateLocks (ops.loadLocks mine)
        { ltype := ltype, pid := pid, start := start, end_ := end_ })))
    (hunlock : ltype = F_UNLCK → ∀ recs, P recs →
      (ops.updateLocks (ops.loadLocks recs)
        { ltype := ltype, pid := pid, start := start, end_ := end_ }).length ≠ 0 →
      P (ops.dumpLocks (ops.updateLocks (ops.loadLocks recs)
        { ltype := ltype, pid := pid, start := start, end_ := end_ })))
    (fuel k : Nat) (db : DB) (err : Errno) (db1 : DB)
    (hcall : setlkLoop ops m store ctx inode owner block ltype start end_ pid fuel k db =
      some (err, db1))
    (h : ∀ r ∈ db.plocks, P r.records) : ∀ r ∈ db1.plocks, P r.records := by
  induction fuel generalizing k db with
  | zero => simp [setlkLoop] at hcall
  | succ n ih =>
    have hp : ∀ r ∈ (txn (setlkAttempt ops m (store k) inode owner ltype start end_ pid)
        db).2.plocks, P r.records := by
      have ha := setlkAttempt_rows ops P m (store k) inode owner ltype start end_ pid db hlock
        hunlock h
      unfold txn
      rcases hx : setlkAttempt ops m (store k) inode owner ltype start end_ pid db with
        ⟨_ | e, d⟩
      · rw [hx] at ha; exact ha
      · exact h
    simp only [setlkLoop] at hcall
    split at hcall
    · simp only [Option.some.injEq, Prod.mk.injEq] at hcall
      rw [← hcall.2]
      exact hp
    · split at hcall
      · simp only [Option.some.injEq, Prod.mk.injEq] at hcall
        rw [← hcall.2]
        exact hp
      · exact ih _ _ hcall hp

/-- A property of record blobs that every lock and unlock request keeps holds for
every row of every reachable state. -/
theorem setlkReachableBy_rows (ops : RecordOps) (ok : Nat → Nat → Nat → Nat → Prop)
    (P : List Nat → Prop)
    (hlock : ∀ ltype start end_ pid, ok ltype start end_ pid → ltype ≠ F_UNLCK →
      ∀ mine, (mine = [] ∨ P mine) →
      P (ops.dumpLocks (ops.updateLocks (ops.loadLocks mine)
        { ltype := ltype, pid := pid, start := start, end_ := end_ })))
    (hunlock : ∀ ltype start end_ pid, ok ltype start end_ pid → ltype = F_UNLCK →
      ∀ recs, P recs →
      (ops.updateLocks (ops.loadLocks recs)
        { ltype := ltype, pid := pid, start := start, end_ := end_ }).length ≠ 0 →
      P (ops.dumpLocks (ops.updateLocks (ops.loadLocks recs)
        { ltype := ltype, pid := pid, start := start, end_ := end_ })))
    (db : DB) (h : SetlkReachableBy ops ok db) : ∀ r ∈ db.plocks, P r.records := by
  induction h with
  | init nodes flocks => simp
  | call m store ctx inode owner_ block ltype start end_ pid fuel err _ hok hcall ih =>
    exact setlkLoop_rows ops P m store ctx inode _ block ltype start end_ pid
      (hlock ltype start end_ pid hok) (hunlock ltype start end_ pid hok) fuel 0 _ err _
      hcall ih
  | other _ heq ih =>
    rw [heq]
    exact ih

theorem setlkReachableBy_unique (ops : RecordOps) (ok : Nat → Nat → Nat → Nat → Prop)
    (db : DB) (h : SetlkReachableBy ops ok db) : PlockKeysUnique db.plocks := by
  induction h with
  | init nodes flocks => simp [PlockKeysUnique]
  | call m store ctx inode owner_ block ltype start end_ pid fuel err _ _ hcall ih =>
    exact setlkLoop_unique ops m store ctx inode _ block ltype start end_ pid fuel 0 _ err _
      hcall ih
  | other _ heq ih =>
    rw [heq]
    exact ih

theorem find_own_plock (t : List plock) (hu : PlockKeysUnique t) (inode : Ino) (sid : Nat)
    (owner : Int) (row : plock) (hrow : row ∈ t) (hs : samePlock inode sid owner row = true) :
    t.find? (samePlock inode sid owner) = some row := by
  cases hf : t.find? (samePlock inode sid owner) with
  | none =>
    have := List.find?_eq_none.mp hf row hrow
    exact absurd hs this
  | some l =>
    have hl := List.mem_of_find?_eq_some hf
    have hsl := List.find?_some hf
    simp only [samePlock, decide_eq_true_eq] at hs hsl
    have hk : plockKey l = plockKey row := by
      simp [plockKey, hs.1, hs.2.1, hs.2.2, hsl.1, hsl.2.1, hsl.2.2]
    rw [List.inj_on_of_nodup_map hu hl hrow hk]

theorem filter_not_samePlock (t : List plock) (hu : PlockKeysUnique t) (inode : Ino)
    (sid : Nat) (owner : Int) (row : plock) (hrow : row ∈ t)
    (hs : samePlock inode sid owner row = true) :
    t.filter (fun r => !samePlock inode sid owner r) = t.filter (fun r => decide (r ≠ row)) := by
  apply List.filter_congr
  intro r hr
  simp only [samePlock, decide_eq_true_eq] at hs
  by_cases hrr : r = row
  · subst hrr
    simp [samePlock, hs]
  · have hne : samePlock inode sid owner r = false := by
      by_contra hc
      simp only [Bool.not_eq_false, samePlock, decide_eq_true_eq] at hc
      apply hrr
      apply List.inj_on_of_nodup_map hu hr hrow
      simp [plockKey, hs.1, hs.2.1, hs.2.2, hc.1, hc.2.1, hc.2.2]
    simp [hne, hrr]

/-- The unlock branch of `setlkAttempt` when the caller has a row. -/
theorem setlkAttempt_eq_unlock (ops : RecordOps) (m : dbMeta) (f : Faults) (inode : Ino)
    (owner : Int) (start end_ pid : Nat) (db : DB) (hg : f.get = none)
    (hfi : f.find = none) (hn : inode ∈ db.nodes) (row : plock)
    (hfind : db.plocks.find? (samePlock inode m.sid owner) = some row)
    (hne : ops.loadLocks row.records ≠ []) :
    setlkAttempt ops m f inode owner F_UNLCK start end_ pid db =
      if (ops.updateLocks (ops.loadLocks row.records)
          { ltype := F_UNLCK, pid := pid, start := start, end_ := end_ }).length = 0 then
        ((deletePlock f inode m.sid owner db).2.1, (deletePlock f inode m.sid owner db).2.2)
      else
        ((updatePlockRecords f (ops.dumpLocks (ops.updateLocks (ops.loadLocks row.records)
            { ltype := F_UNLCK, pid := pid, start := start, end_ := end_ }))
            (fun r => decide (r = row)) db).2.1,
         (updatePlockRecords f (ops.dumpLocks (ops.updateLocks (ops.loadLocks row.records)
            { ltype := F_UNLCK, pid := pid, start := start, end_ := end_ }))
            (fun r => decide (r = row)) db).2.2) := by
  have hlen : (ops.loadLocks row.records).length ≠ 0 := by
    rw [Ne, List.length_eq_zero]; exact hne
  unfold setlkAttempt
  simp only [getNode, hg, hn, decide_True, getPlock, hfi, hfind, if_true, hlen, if_false]
  split <;> rfl

theorem length_decodeN (n : Nat) (d : List Nat) : (decodeN n d).length = n := by
  induction n generalizing d with
  | zero => rfl
  | succ n ih => simp [decodeN, ih]

theorem length_decode_encode (ls : List plockRecord) :
    (specOps.loadLocks (specOps.dumpLocks ls)).length = ls.length := by
  show (decodeRecords (encodeRecords ls)).length = ls.length
  unfold decodeRecords
  rw [length_decodeN, length_encodeRecords]
  omega

theorem applyRequest_lock_ne_nil (cur : List plockRecord) (ltype pid start end_ : Nat)
    (hl : ltype ≠ F_UNLCK) (hse : start ≤ end_) :
    specOps.updateLocks cur { ltype := ltype, pid := pid, start := start, end_ := end_ } ≠ [] := by
  show applyRequest cur _ ≠ []
  unfold applyRequest
  simp only [if_neg (Nat.not_lt.mpr hse), if_neg hl]
  simp

/-- Where no row is left empty: in every state reached from an empty byte-range
table by `Setlk` calls
(lock requests with start ≤ end, any unlock request), with a codec that keeps the
number of records and an algebra whose result for a lock request is not empty, no
byte-range row has an empty record list. With a working store, an unlock of the
caller whose result is the empty set deletes the row of the caller, and any other
unlock replaces the records of that row by the encoding of the non-empty result. -/
theorem no_empty_byte_range_row (ops : RecordOps)
    (hlen : ∀ ls, (ops.loadLocks (ops.dumpLocks ls)).length = ls.length)
    (hupd : ∀ cur ltype pid start end_, ltype ≠ F_UNLCK → start ≤ end_ →
      ops.updateLocks cur { ltype := ltype, pid := pid, start := start, end_ := end_ } ≠ [])
    (db : DB) (h : SetlkReachableBy ops RangeRequest db) :
    (∀ r ∈ db.plocks, ops.loadLocks r.records ≠ []) ∧
      ∀ (m : dbMeta) (store : Nat → Faults) (ctx : Context) (inode : Ino) (owner_ : Nat)
        (block : Bool) (start end_ pid fuel : Nat) (row : plock),
        inode ∈ db.nodes → NoFault (store 0) → row ∈ db.plocks →
        samePlock inode m.sid (int64 owner_) row = true →
        (ops.updateLocks (ops.loadLocks row.records)
            { ltype := F_UNLCK, pid := pid, start := start, end_ := end_ } = [] →
          Setlk ops m store ctx inode owner_ block F_UNLCK start end_ pid (fuel + 1) db =
            some (0, { db with plocks := db.plocks.filter (fun r => decide (r ≠ row)) })) ∧
        (ops.updateLocks (ops.loadLocks row.records)
            { ltype := F_UNLCK, pid := pid, start := start, end_ := end_ } ≠ [] →
          Setlk ops m store ctx inode owner_ block F_UNLCK start end_ pid (fuel + 1) db =
            some (0, { db with
              plocks := db.plocks.map (fun r =>
                if r = row then
                  { r with
                    records := ops.dumpLocks (ops.updateLocks (ops.loadLocks row.records)
                      { ltype := F_UNLCK, pid := pid, start := start, end_ := end_ }) }
                else r) }) ∧
          ops.loadLocks (ops.dumpLocks (ops.updateLocks (ops.loadLocks row.records)
            { ltype := F_UNLCK, pid := pid, start := start, end_ := end_ })) ≠ []) := by
  have hkeep : ∀ ls : List plockRecord, ls ≠ [] → ops.loadLocks (ops.dumpLocks ls) ≠ [] := by
    intro ls hls hnil
    have := hlen ls
    rw [hnil] at this
    exact hls (List.length_eq_zero.mp this.symm)
  have hinv : ∀ r ∈ db.plocks, ops.loadLocks r.records ≠ [] := by
    apply setlkReachableBy_rows ops RangeRequest (fun recs => ops.loadLocks recs ≠ []) _ _ db h
    · intro ltype start end_ pid hok hl mine _
      rcases hok with hok | hok
      · exact absurd hok hl
      · exact hkeep _ (hupd _ ltype pid start end_ hl hok)
    · intro ltype start end_ pid _ _ recs _ hne
      exact hkeep _ (fun hnil => hne (by rw [hnil]; rfl))
  refine ⟨hinv, ?_⟩
  intro m store ctx inode owner_ block start end_ pid fuel row hn hf hrow hs
  obtain ⟨hg, hfi, hw, hz, _⟩ := hf
  have hu := setlkReachableBy_unique ops RangeRequest db h
  have hfind := find_own_plock db.plocks hu inode m.sid (int64 owner_) row hrow hs
  have heq := setlkAttempt_eq_unlock ops m (store 0) inode (int64 owner_) start end_ pid db
    hg hfi hn row hfind (hinv row hrow)
  constructor
  · intro hnil
    have ha : txn (setlkAttempt ops m (store 0) inode (int64 owner_) F_UNLCK start end_ pid) db =
        (none, { db with plocks := db.plocks.filter (fun r => decide (r ≠ row)) }) := by
      unfold txn
      rw [heq, hnil]
      simp only [List.length_nil, if_true, deletePlock, hw]
      rw [filter_not_samePlock db.plocks hu inode m.sid (int64 owner_) row hrow hs]
    unfold Setlk
    rw [setlkLoop_once _ _ _ _ _ _ _ _ _ _ _ _ _ _ (Or.inr (by rw [ha]; simp [errno, EAGAIN])), ha]
    rfl
  · intro hne
    refine ⟨?_, hkeep _ hne⟩
    have hlen0 : (ops.updateLocks (ops.loadLocks row.records)
        { ltype := F_UNLCK, pid := pid, start := start, end_ := end_ }).length ≠ 0 := by
      rw [Ne, List.length_eq_zero]; exact hne
    have ha : txn (setlkAttempt ops m (store 0) inode (int64 owner_) F_UNLCK start end_ pid) db =
        (none, { db with
          plocks := db.plocks.map (fun r =>
            if r = row then
              { r with
                records := ops.dumpLocks (ops.updateLocks (ops.loadLocks row.records)
                  { ltype := F_UNLCK, pid := pid, start := start, end_ := end_ }) }
            else r) }) := by
      unfold txn
      rw [heq, if_neg hlen0]
      simp [updatePlockRecords, hw, hz]
    unfold Setlk
    rw [setlkLoop_once _ _ _ _ _ _ _ _ _ _ _ _ _ _ (Or.inr (by rw [ha]; simp [errno, EAGAIN])), ha]
    rfl

theorem no_empty_byte_range_row_witness :
    SetlkReachableBy specOps RangeRequest
        ⟨[5], [], [⟨5, 1, 7, encodeRecords [⟨F_WRLCK, 42, 0, 99⟩]⟩]⟩ ∧
      (∀ r ∈ [(⟨5, 1, 7, encodeRecords [⟨F_WRLCK, 42, 0, 99⟩]⟩ : plock)],
        specOps.loadLocks r.records ≠ []) ∧
      Setlk specOps ⟨1⟩ healthy background 5 7 false F_UNLCK 0 99 42 1
          ⟨[5], [], [⟨5, 1, 7, encodeRecords [⟨F_WRLCK, 42, 0, 99⟩]⟩]⟩ =
        some (0, ⟨[5], [], []⟩) ∧
      Setlk specOps ⟨1⟩ healthy background 5 7 false F_UNLCK 0 49 42 1
          ⟨[5], [], [⟨5, 1, 7, encodeRecords [⟨F_WRLCK, 42, 0, 99⟩]⟩]⟩ =
        some (0, ⟨[5], [], [⟨5, 1, 7, encodeRecords [⟨F_WRLCK, 42, 50, 99⟩]⟩]⟩) := by
  have hr : SetlkReachableBy specOps RangeRequest
      ⟨[5], [], [⟨5, 1, 7, encodeRecords [⟨F_WRLCK, 42, 0, 99⟩]⟩]⟩ :=
    SetlkReachableBy.call ⟨1⟩ healthy background 5 7 false F_WRLCK 0 99 42 1 0
      (SetlkReachableBy.init [5] []) (Or.inr (by decide)) (by decide)
  have h := no_empty_byte_range_row specOps length_decode_encode applyRequest_lock_ne_nil
    ⟨[5], [], [⟨5, 1, 7, encodeRecords [⟨F_WRLCK, 42, 0, 99⟩]⟩]⟩ hr
  have h1 := (h.2 ⟨1⟩ healthy background 5 7 false 0 99 42 0
    ⟨5, 1, 7, encodeRecords [⟨F_WRLCK, 42, 0, 99⟩]⟩ (by decide) (noFault_healthy 0) (by simp)
    (by decide)).1 (by decide)
  have h2 := ((h.2 ⟨1⟩ healthy background 5 7 false 0 49 42 0
    ⟨5, 1, 7, encodeRecords [⟨F_WRLCK, 42, 0, 99⟩]⟩ (by decide) (noFault_healthy 0) (by simp)
    (by decide)).2 (by decide)).1
  refine ⟨hr, h.1, ?_, ?_⟩
  · rw [h1]; decide
  · rw [h2]; decide

/-! ## Shape of the persisted record lists -/

/-- The blob written by a request holds the encoding of a well-formed list, if the
blob it was computed from is empty or does. -/
theorem encoded_wellFormed_step (mine : List Nat) (nl : plockRecord) (hnl : FitsFields nl)
    (h : mine = [] ∨ ∃ ls, mine = encodeRecords ls ∧ WellFormed ls ∧ ∀ r ∈ ls, FitsFields r) :
    ∃ ls, specOps.dumpLocks (specOps.updateLocks (specOps.loadLocks mine) nl) = encodeRecords ls ∧
      WellFormed ls ∧ ∀ r ∈ ls, FitsFields r := by
  show ∃ ls, encodeRecords (applyRequest (decodeRecords mine) nl) = encodeRecords ls ∧ _
  have hcur : WellFormed (decodeRecords mine) ∧ ∀ r ∈ decodeRecords mine, FitsFields r := by
    rcases h with rfl | ⟨ls, rfl, hw, hf⟩
    · have : decodeRecords [] = [] := rfl
      rw [this]
      exact ⟨⟨List.Pairwise.nil, by simp⟩, by simp⟩
    · rw [decodeRecords_encodeRecords ls hf]
      exact ⟨hw, hf⟩
  have hres := wellFormed_applyRequest (decodeRecords mine) nl hcur.1 hcur.2 hnl
  exact ⟨_, rfl, hres.1, hres.2⟩

/-- C20: in every state reached from an empty byte-range table by `Setlk` calls,
with the codec and the algebra of sections 4.1 and 4.2, the record list of every
row is sorted by start, its records do not overlap, and no record is followed by a
record of the same type that starts right after its end. A write lock on [0, 99]
followed by a write lock on [100, 199] of the same holder leaves the single write
record [0, 199]. -/
theorem persisted_records_well_formed (db : DB)
    (h : SetlkReachableBy specOps FitsRequest db) :
    (∀ r ∈ db.plocks,
      (specOps.loadLocks r.records).Pairwise (fun a b => a.start < b.start) ∧
      (specOps.loadLocks r.records).Pairwise (fun a b => a.end_ < b.start) ∧
      (specOps.loadLocks r.records).Pairwise
        (fun a b => ¬ (a.ltype = b.ltype ∧ a.end_ + 1 = b.start)) ∧
      ∀ a ∈ specOps.loadLocks r.records, a.start ≤ a.end_) ∧
    ∃ db1 db2 : DB,
      Setlk specOps ⟨1⟩ healthy background 5 7 false F_WRLCK 0 99 42 1 ⟨[5], [], []⟩ =
        some (0, db1) ∧
      Setlk specOps ⟨1⟩ healthy background 5 7 false F_WRLCK 100 199 42 1 db1 =
        some (0, db2) ∧
      db2.plocks.map (fun r => (r.inode, r.sid, r.owner, specOps.loadLocks r.records)) =
        [(5, 1, 7, [⟨F_WRLCK, 42, 0, 199⟩])] := by
  constructor
  · have hinv := setlkReachableBy_rows specOps FitsRequest
      (fun recs => ∃ ls, recs = encodeRecords ls ∧ WellFormed ls ∧ ∀ r ∈ ls, FitsFields r)
      (fun ltype start end_ pid hok _ mine hm => encoded_wellFormed_step mine _ hok hm)
      (fun ltype start end_ pid hok _ recs hm _ => encoded_wellFormed_step recs _ hok (Or.inr hm))
      db h
    intro r hr
    obtain ⟨ls, hls, hw, hf⟩ := hinv r hr
    have hdec : specOps.loadLocks r.records = ls := by
      rw [hls]
      exact decodeRecords_encodeRecords ls hf
    rw [hdec]
    obtain ⟨hp, hse⟩ := hw
    refine ⟨?_, hp.imp (fun hab => hab.1), hp.imp (fun hab => hab.2), hse⟩
    have hp2 := List.Pairwise.and_mem.mp hp
    exact hp2.imp (fun hab => Nat.lt_of_le_of_lt (hse _ hab.1) hab.2.2.1)
  · exact ⟨⟨[5], [], [⟨5, 1, 7, encodeRecords [⟨F_WRLCK, 42, 0, 99⟩]⟩]⟩,
      ⟨[5], [], [⟨5, 1, 7, encodeRecords [⟨F_WRLCK, 42, 0, 199⟩]⟩]⟩,
      by decide, by decide, by decide⟩

theorem persisted_records_well_formed_witness :
    SetlkReachableBy specOps FitsRequest
        ⟨[5], [], [⟨5, 1, 7, encodeRecords [⟨F_WRLCK, 42, 0, 199⟩]⟩]⟩ ∧
      ∀ r ∈ [(⟨5, 1, 7, encodeRecords [⟨F_WRLCK, 42, 0, 199⟩]⟩ : plock)],
        (specOps.loadLocks r.records).Pairwise (fun a b => a.start < b.start) ∧
        (specOps.loadLocks r.records).Pairwise (fun a b => a.end_ < b.start) ∧
        (specOps.loadLocks r.records).Pairwise
          (fun a b => ¬ (a.ltype = b.ltype ∧ a.end_ + 1 = b.start)) ∧
        ∀ a ∈ specOps.loadLocks r.records, a.start ≤ a.end_ := by
  have h1 : SetlkReachableBy specOps FitsRequest
      ⟨[5], [], [⟨5, 1, 7, encodeRecords [⟨F_WRLCK, 42, 0, 99⟩]⟩]⟩ :=
    SetlkReachableBy.call ⟨1⟩ healthy background 5 7 false F_WRLCK 0 99 42 1 0
      (SetlkReachableBy.init [5] []) (by simp [FitsRequest, FitsFields, F_WRLCK]) (by decide)
  have hr : SetlkReachableBy specOps FitsRequest
      ⟨[5], [], [⟨5, 1, 7, encodeRecords [⟨F_WRLCK, 42, 0, 199⟩]⟩]⟩ :=
    SetlkReachableBy.call ⟨1⟩ healthy background 5 7 false F_WRLCK 100 199 42 1 0
      h1 (by simp [FitsRequest, FitsFields, F_WRLCK]) (by decide)
  exact ⟨hr, (persisted_records_well_formed _ hr).1⟩

/-! ## Reading from the ceph store -/

theorem wrapInt64_of_range (x : Int) (h0 : -2 ^ 63 ≤ x) (h1 : x < 2 ^ 63) : wrapInt64 x = x := by
  unfold wrapInt64
  omega

theorem uint64_of_nonneg (x : Int) (h0 : 0 ≤ x) (h1 : x < 2 ^ 63) : uint64 x = x.toNat := by
  unfold uint64
  congr 1
  omega

theorem ceph_Get_ok (c : ceph) (key : Bytes) (off limit : Int) (hopen : c.openError = none) :
    c.Get key off limit = (some { key := key, off := off, limit := limit }, none) := by
  simp [ceph.Get, hopen]

/-- One `Read` of an object that exists, with a buffer that is not empty: the bytes
from `off` on, as many as the buffer (cut to a positive `limit`) takes. -/
theorem cephReader_Read_eq (c : ceph) (key d : Bytes) (off limit : Int) (bufLen : Nat)
    (hobj : lookupObject c.objects key = some d) (hoff : 0 ≤ off) (hoff2 : off < 2 ^ 63)
    (hd : (d.length : Int) < 2 ^ 63) (hlim : -2 ^ 63 ≤ limit ∧ limit < 2 ^ 63) :
    ∃ len : Nat, (0 < bufLen → 0 < len) ∧
      cephReader.Read c { key := key, off := off, limit := limit } bufLen =
        ({ key := key, off := off + ((d.drop off.toNat).take len).length,
           limit := if limit > 0 then limit - ((d.drop off.toNat).take len).length else limit },
          (d.drop off.toNat).take len,
          if ((d.drop off.toNat).take len).length < len then some CephError.EOF else none) ∧
      (limit > 0 → (len : Int) ≤ limit) := by
  refine ⟨if limit > 0 ∧ (bufLen : Int) > limit then limit.toNat else bufLen, ?_, ?_, ?_⟩
  · intro hb
    split
    · omega
    · exact hb
  · have hlen : (((d.drop off.toNat).take
        (if limit > 0 ∧ (bufLen : Int) > limit then limit.toNat else bufLen)).length : Int) ≤
        (if limit > 0 ∧ (bufLen : Int) > limit then limit.toNat else bufLen : Nat) := by
      exact_mod_cast List.length_take_le _ _
    have hlen2 : (((d.drop off.toNat).take
        (if limit > 0 ∧ (bufLen : Int) > limit then limit.toNat else bufLen)).length : Int) ≤
        d.length := by
      have h1 := List.length_take_le' (if limit > 0 ∧ (bufLen : Int) > limit then limit.toNat
        else bufLen) (d.drop off.toNat)
      have h2 : (d.drop off.toNat).length ≤ d.length := by simp
      exact_mod_cast le_trans h1 h2
    have hlen3 : (off.toNat : Int) + (((d.drop off.toNat).take
        (if limit > 0 ∧ (bufLen : Int) > limit then limit.toNat else bufLen)).length : Int) ≤
        max off d.length := by
      have h1 := List.length_take_le' (if limit > 0 ∧ (bufLen : Int) > limit then limit.toNat
        else bufLen) (d.drop off.toNat)
      rw [List.length_drop] at h1
      omega
    have hlimle : limit > 0 → (((if limit > 0 ∧ (bufLen : Int) > limit then limit.toNat
        else bufLen : Nat) : Nat) : Int) ≤ limit := by
      intro hpos
      split
      · omega
      · omega
    simp only [cephReader.Read, radosRead, hobj, uint64_of_nonneg off hoff hoff2, true_and]
    refine Prod.ext ?_ rfl
    simp only
    congr 1
    · rw [wrapInt64_of_range _ (by omega) (by omega)]
    · split
      · rename_i hpos
        rw [wrapInt64_of_range _ (by have := hlimle hpos; omega) (by omega)]
      · rfl
  · intro hpos
    split
    · omega
    · omega

/-- Reading the reader of an object that exists until it ends gives the bytes from
`off` to the end of the object, whatever `limit` is. -/
theorem readAll_eq (c : ceph) (key d : Bytes) (bufs : Nat → Nat)
    (hobj : lookupObject c.objects key = some d) (hd : (d.length : Int) < 2 ^ 63)
    (hbuf : ∀ k, 0 < bufs k) (fuel : Nat) :
    ∀ (k : Nat) (off limit : Int) (acc : Bytes), 0 ≤ off → off < 2 ^ 63 →
      -2 ^ 63 ≤ limit → limit < 2 ^ 63 → d.length - off.toNat < fuel →
      readAll c bufs fuel k { key := key, off := off, limit := limit } acc =
        some (acc ++ d.drop off.toNat, none) := by
  induction fuel with
  | zero => intro k off limit acc _ _ _ _ hf; omega
  | succ n ih =>
    intro k off limit acc hoff hoff2 hl1 hl2 hf
    obtain ⟨len, hpos, hread, hle⟩ := cephReader_Read_eq c key d off limit (bufs k) hobj hoff
      hoff2 hd ⟨hl1, hl2⟩
    have hlen := hpos (hbuf k)
    rw [readAll, hread]
    by_cases hshort : ((d.drop off.toNat).take len).length < len
    · rw [if_pos hshort]
      have : (d.drop off.toNat).take len = d.drop off.toNat := by
        apply List.take_of_length_le
        rw [List.length_take] at hshort
        omega
      simp only [this]
    · rw [if_neg hshort]
      have hfull : ((d.drop off.toNat).take len).length = len := by
        have := List.length_take_le len (d.drop off.toNat)
        omega
      have hrem : len ≤ d.length - off.toNat := by
        rw [List.length_take, List.length_drop] at hfull
        omega
      simp only [hfull]
      rw [ih (k + 1) (off + len) (if limit > 0 then limit - len else limit)
        (acc ++ (d.drop off.toNat).take len) (by omega) (by omega)
        (by split <;> omega) (by split <;> omega) (by omega)]
      have hto : (off + (len : Int)).toNat = off.toNat + len := by omega
      rw [hto, List.append_assoc]
      congr 2
      rw [← List.drop_drop, List.take_append_drop]

/-- C22: for an object with bytes `d` that exists, an offset `off ≥ 0` and any
`limit`, `Get` followed by `ioutil.ReadAll` yields `d[off:]`, the bytes from `off`
to the end of the object: a positive `limit` that ends before the end of the
object is not kept. When `Read` has delivered `limit` bytes, `r.limit` is 0, and
from then on `r.limit > 0` is false and the buffer is not cut any more. -/
theorem ceph_get_reads_to_end (c : ceph) (key d : Bytes) (off limit : Int)
    (bufs : Nat → Nat) (fuel : Nat) (hopen : c.openError = none)
    (hobj : lookupObject c.objects key = some d) (hoff : 0 ≤ off) (hoff2 : off < 2 ^ 63)
    (hd : (d.length : Int) < 2 ^ 63) (hlim : -2 ^ 63 ≤ limit ∧ limit < 2 ^ 63)
    (hbuf : ∀ k, 0 < bufs k) (hfuel : d.length - off.toNat < fuel) :
    get c bufs fuel key off limit = some (d.drop off.toNat, none) := by
  unfold get
  rw [ceph_Get_ok c key off limit hopen]
  simp only
  rw [readAll_eq c key d bufs hobj hd hbuf fuel 0 off limit [] hoff hoff2 hlim.1 hlim.2 hfuel]
  rfl

theorem ceph_get_reads_to_end_witness :
    get { objects := [([116, 101, 115, 116], [104, 101, 108, 108, 111])] } (fun _ => 512) 4
        [116, 101, 115, 116] 2 2 = some ([108, 108, 111], none) ∧
      ([108, 108, 111] : Bytes) ≠ [108, 108] :=
  ⟨ceph_get_reads_to_end { objects := [([116, 101, 115, 116], [104, 101, 108, 108, 111])] }
      [116, 101, 115, 116] [104, 101, 108, 108, 111] 2 2 (fun _ => 512) 4 rfl (by decide)
      (by decide) (by decide) (by decide) (by decide) (fun _ => by norm_num) (by decide),
    by decide⟩

/-- C23: for a key that is not stored, `Get` returns a reader and a nil error
whenever `c.newContext()` works; the missing object is only reported by the first
`Read` of that reader, as `rados.ErrNotFound`. -/
theorem ceph_get_missing_key_returns_reader (c : ceph) (key : Bytes) (off limit : Int)
    (hopen : c.openError = none) (hmiss : lookupObject c.objects key = none) :
    c.Get key off limit = (some { key := key, off := off, limit := limit }, none) ∧
      ∀ bufLen, (cephReader.Read c { key := key, off := off, limit := limit } bufLen).2 =
        ([], some CephError.ErrNotFound) := by
  refine ⟨ceph_Get_ok c key off limit hopen, ?_⟩
  intro bufLen
  simp [cephReader.Read, radosRead, hmiss]

theorem ceph_get_missing_key_returns_reader_witness :
    ceph.Get {} [110, 111, 116, 95, 101, 120, 105, 115, 116, 115] 0 (-1) =
      (some { key := [110, 111, 116, 95, 101, 120, 105, 115, 116, 115], off := 0, limit := -1 },
        none) :=
  (ceph_get_missing_key_returns_reader {} [110, 111, 116, 95, 101, 120, 105, 115, 116, 115] 0
    (-1) rfl rfl).1

/-! ## The totals of objbench -/

theorem bSize_eq (blockSize : Nat) : bSize blockSize = blockSize * 1024 := by
  simp [bSize, Nat.shiftLeft_eq]

/-- For a block size of whole MiB the numerator is the volume in MiB. -/
theorem mibTotal_of_whole_mib (blockSize bigObjectSize : Nat) (h : 1024 ∣ blockSize) :
    mibTotal blockSize bigObjectSize =
      bSize blockSize * bCount blockSize bigObjectSize / 2 ^ 20 := by
  obtain ⟨m, rfl⟩ := h
  unfold mibTotal
  rw [bSize_eq, Nat.shiftRight_eq_div_pow]
  have h1 : 1024 * m * 1024 = 2 ^ 20 * m := by ring
  rw [h1, Nat.mul_assoc, Nat.mul_div_cancel_left _ (by norm_num : 0 < 2 ^ 20),
    Nat.mul_div_cancel_left _ (by norm_num : 0 < 2 ^ 20)]

/-- For a block size below 1 MiB the numerator is 0. -/
theorem mibTotal_of_small_block (blockSize bigObjectSize : Nat) (h : blockSize < 1024) :
    mibTotal blockSize bigObjectSize = 0 := by
  unfold mibTotal
  rw [bSize_eq, Nat.shiftRight_eq_div_pow]
  have : blockSize * 1024 / 2 ^ 20 = 0 := by
    apply Nat.div_eq_of_lt
    norm_num
    omega
  rw [this, Nat.zero_mul]

/-- C27: with a block size of 512 KiB and a big object of 1 MiB, `bSize` is 524288,
`bCount` is 2 and the two objects hold 1 MiB, while `bSize>>20*bCount`, read by Go as
`(bSize>>20)*bCount`, is 0. -/
theorem objbench_mib_total_truncates :
    bSize 512 = 524288 ∧ fsize 1 = 1048576 ∧ bCount 512 1 = 2 ∧
      bSize 512 * bCount 512 1 / 2 ^ 20 = 1 ∧ mibTotal 512 1 = 0 := by
  decide

/-! ## Writing to the ceph store -/

theorem lookupObject_storeObject (objects : List (Bytes × Bytes)) (oid data : Bytes) :
    lookupObject (storeObject objects oid data) oid = some data := by
  unfold storeObject
  split
  · rename_i hany
    induction objects with
    | nil => simp at hany
    | cons o rest ih =>
      by_cases ho : o.1 = oid
      · simp [lookupObject, ho]
      · have hany2 : rest.any (fun o => decide (o.1 = oid)) = true := by
          simpa [ho] using hany
        have := ih hany2
        unfold lookupObject at this ⊢
        rw [List.map_cons, if_neg ho, List.find?_cons_of_neg _ (by simpa using ho)]
        exact this
  · rename_i hany
    have hnone : objects.find? (fun o => decide (o.1 = oid)) = none := by
      rw [List.find?_eq_none]
      intro x hx hd
      exact hany (List.any_eq_true.mpr ⟨x, hx, hd⟩)
    simp [lookupObject, List.find?_append, hnone]

theorem overwrite_at_end (W old data : Bytes) :
    (W ++ old.drop W.length ++
        List.replicate (W.length - (W ++ old.drop W.length).length) 0).take W.length ++ data ++
        (W ++ old.drop W.length).drop (W.length + data.length) =
      (W ++ data) ++ old.drop (W ++ data).length := by
  have h0 : W.length - (W ++ old.drop W.length).length = 0 := by
    rw [List.length_append]; omega
  have h1 : (W ++ old.drop W.length ++ List.replicate 0 0).take W.length = W := by
    rw [List.replicate_zero, List.append_nil, List.take_left']
    rfl
  have h2 : (W ++ old.drop W.length).drop (W.length + data.length) =
      old.drop (W ++ data).length := by
    rw [List.drop_append, List.drop_drop, List.length_append]
  rw [h0, h1, h2]

/-- The chunks of a reader that are not empty are written one after the other from
offset `W.length` on; what the object held behind them stays. -/
theorem putLoop_content (key : Bytes) (reads : List (Bytes × Option CephError))
    (hne : ∀ r ∈ reads, r.1 ≠ []) :
    ∀ (c : ceph) (W old : Bytes), c.writeError = none →
      (lookupObject c.objects key).getD [] = W ++ old.drop W.length →
      W.length + (reads.map Prod.fst).flatten.length < 2 ^ 64 →
      (putLoop key reads W.length c).1 = none ∧
        (lookupObject (putLoop key reads W.length c).2.objects key).getD [] =
          W ++ (reads.map Prod.fst).flatten ++
            old.drop (W.length + (reads.map Prod.fst).flatten.length) := by
  induction reads with
  | nil =>
    intro c W old _ hcur _
    simp [putLoop, hcur]
  | cons r rest ih =>
    intro c W old hw hcur hb
    obtain ⟨data, err⟩ := r
    have hd : data ≠ [] := hne (data, err) (by simp)
    have hpos : data.length > 0 := List.length_pos.mpr hd
    simp only [List.map_cons, List.flatten_cons, List.length_append] at hb ⊢
    have hmod : (W.length + data.length) % 2 ^ 64 = (W ++ data).length := by
      rw [List.length_append]
      apply Nat.mod_eq_of_lt
      omega
    have hwr : radosWrite c key data W.length =
        (none, { c with
          objects := storeObject c.objects key (W ++ data ++ old.drop (W ++ data).length) }) := by
      unfold radosWrite
      rw [hw]
      simp only [hcur, overwrite_at_end]
    have hstep : putLoop key ((data, err) :: rest) W.length c =
        putLoop key rest (W ++ data).length { c with
          objects := storeObject c.objects key (W ++ data ++ old.drop (W ++ data).length) } := by
      rw [putLoop, if_pos hpos, hwr, hmod]
    have := ih (fun r hr => hne r (by simp [hr]))
      { c with objects := storeObject c.objects key (W ++ data ++ old.drop (W ++ data).length) }
      (W ++ data) old hw (by rw [lookupObject_storeObject]; rfl)
      (by rw [List.length_append]; omega)
    rw [hstep]
    refine ⟨this.1, ?_⟩
    rw [this.2, List.length_append, List.append_assoc W data, Nat.add_assoc]

/-- The two paths of `Put` with a store that works: from a `*bytes.Reader` the
object holds the slice; from another reader whose chunks are not empty it holds
the chunks, followed by what the object held behind them. -/
theorem ceph_Put_content (c : ceph) (key : Bytes) (hopen : c.openError = none)
    (hw : c.writeError = none) :
    (∀ s i, (c.Put key (Reader.bytesReader s i)).1 = none ∧
      lookupObject (c.Put key (Reader.bytesReader s i)).2.objects key = some s) ∧
    (∀ reads, (∀ r ∈ reads, r.1 ≠ []) → (reads.map Prod.fst).flatten.length < 2 ^ 64 →
      (c.Put key (Reader.stream reads)).1 = none ∧
      (lookupObject (c.Put key (Reader.stream reads)).2.objects key).getD [] =
        (reads.map Prod.fst).flatten ++
          ((lookupObject c.objects key).getD []).drop (reads.map Prod.fst).flatten.length) := by
  constructor
  · intro s i
    simp [ceph.Put, hopen, radosWriteFull, hw, lookupObject_storeObject]
  · intro reads hne hb
    have := putLoop_content key reads hne c [] ((lookupObject c.objects key).getD []) hw
      (by simp) (by simpa using hb)
    simp only [ceph.Put, hopen]
    simpa using this

/-- C26: the object at the key holds "hello". `Put` from a `*bytes.Reader` over
"hi" leaves "hi"; `Put` from another reader that yields "hi" in one chunk leaves
"hillo", since `ctx.Write` at offset 0 keeps the bytes behind the chunk. On an empty
pool `Put` of no bytes creates an empty object from a `*bytes.Reader` and no
object from another reader. -/
theorem ceph_put_paths_differ :
    (ceph.Put { objects := [([116], [104, 101, 108, 108, 111])] } [116]
        (Reader.bytesReader [104, 105] 0)).1 = none ∧
      (ceph.Put { objects := [([116], [104, 101, 108, 108, 111])] } [116]
        (Reader.bytesReader [104, 105] 0)).2.objects = [([116], [104, 105])] ∧
      (ceph.Put { objects := [([116], [104, 101, 108, 108, 111])] } [116]
        (Reader.stream [([104, 105], none)])).1 = none ∧
      (ceph.Put { objects := [([116], [104, 101, 108, 108, 111])] } [116]
        (Reader.stream [([104, 105], none)])).2.objects = [([116], [104, 105, 108, 108, 111])] ∧
      Reader.content (Reader.bytesReader [104, 105] 0) = [104, 105] ∧
      Reader.content (Reader.stream [([104, 105], none)]) = [104, 105] ∧
      (ceph.Put {} [116] (Reader.bytesReader [] 0)).2.objects = [([116], [])] ∧
      (ceph.Put {} [116] (Reader.stream [])).2.objects = [] := by
  decide

/-! ## Listing the ceph store -/

theorem HasPrefix_iff (s pfx : Bytes) : HasPrefix s pfx = true ↔ pfx <+: s := by
  unfold HasPrefix
  rw [List.prefix_iff_eq_take]
  simp only [Bool.and_eq_true, decide_eq_true_eq]
  constructor
  · rintro ⟨_, h⟩
    exact h.symm
  · intro h
    refine ⟨?_, h.symm⟩
    have := congrArg List.length h
    rw [List.length_take] at this
    omega

theorem lookupObject_of_mem (objects : List (Bytes × Bytes)) (k : Bytes)
    (hk : k ∈ objects.map Prod.fst) : ∃ d, lookupObject objects k = some d := by
  unfold lookupObject
  cases hf : objects.find? (fun o => decide (o.1 = k)) with
  | some o => exact ⟨o.2, rfl⟩
  | none =>
    rw [List.find?_eq_none] at hf
    obtain ⟨o, ho, rfl⟩ := List.mem_map.mp hk
    exact absurd (by simp) (hf o ho)

/-- With a `Stat` that works, the goroutine sends one object for each key. -/
theorem statAll_eq (c : ceph) (hstat : ∀ k, c.statError k = none) (keys : List Bytes)
    (hk : ∀ k ∈ keys, k ∈ c.objects.map Prod.fst) :
    statAll c keys = keys.map (fun k =>
      some { key := k, size := (((lookupObject c.objects k).getD []).length : Int),
             isDir := HasSuffix k [47] }) := by
  induction keys with
  | nil => rfl
  | cons k rest ih =>
    obtain ⟨d, hd⟩ := lookupObject_of_mem c.objects k (hk k (by simp))
    rw [statAll]
    simp only [radosStat, hstat, hd, List.map_cons, Option.getD_some]
    rw [ih (fun x hx => hk x (by simp [hx]))]

/-- C24: for a pool whose object names are distinct, with a cluster that answers
`Iter` and `Stat`, `ListAll(prefix, marker)` returns no error and sends one object
for each key of a list that is strictly ascending and holds exactly the names of
the pool that start with `prefix` and are greater than `marker`; when no name is
greater than `marker` nothing is sent. -/
theorem ceph_listAll_keys (c : ceph) (pfx marker : Bytes)
    (hnd : (c.objects.map Prod.fst).Nodup) (hopen : c.openError = none)
    (hiter : c.iterError = none) (hstat : ∀ k, c.statError k = none) :
    (c.ListAll pfx marker).2 = none ∧
      (∃ keys : List Bytes,
        (c.ListAll pfx marker).1 = keys.map (fun k =>
          some { key := k, size := (((lookupObject c.objects k).getD []).length : Int),
                 isDir := HasSuffix k [47] }) ∧
        keys.Sorted (fun a b => a < b) ∧
        ∀ k, k ∈ keys ↔ (k ∈ c.objects.map Prod.fst ∧ pfx <+: k ∧ marker < k)) ∧
      ((∀ k ∈ c.objects.map Prod.fst, k ≤ marker) → (c.ListAll pfx marker).1 = []) := by
  have hmem : ∀ k, k ∈ ((c.objects.map Prod.fst).filter
      (fun key => !(decide (key ≤ marker) || !HasPrefix key pfx))).insertionSort
        (fun a b => a ≤ b) ↔ (k ∈ c.objects.map Prod.fst ∧ pfx <+: k ∧ marker < k) := by
    intro k
    rw [(List.perm_insertionSort _ _).mem_iff, List.mem_filter]
    simp only [Bool.not_or, Bool.not_not, Bool.and_eq_true, Bool.not_eq_true',
      decide_eq_false_iff_not, not_le, HasPrefix_iff]
    tauto
  have hlist : c.ListAll pfx marker =
      (statAll c (((c.objects.map Prod.fst).filter
        (fun key => !(decide (key ≤ marker) || !HasPrefix key pfx))).insertionSort
          (fun a b => a ≤ b)), none) := by
    simp [ceph.ListAll, hopen, hiter]
  rw [hlist, statAll_eq c hstat _ (fun k hk => ((hmem k).mp hk).1)]
  refine ⟨rfl, ⟨_, rfl, ?_, hmem⟩, ?_⟩
  · apply List.Sorted.lt_of_le (List.sorted_insertionSort _ _)
    exact (List.perm_insertionSort _ _).nodup_iff.mpr (hnd.filter _)
  · intro hall
    have hnil : ((c.objects.map Prod.fst).filter
        (fun key => !(decide (key ≤ marker) || !HasPrefix key pfx))).insertionSort
          (fun a b => a ≤ b) = [] := by
      apply List.eq_nil_iff_forall_not_mem.mpr
      intro k hk
      have := (hmem k).mp hk
      exact absurd (hall k this.1) (not_le.mpr this.2.2)
    simp only [hnil, List.map_nil]

theorem ceph_listAll_keys_witness :
    (ceph.ListAll { objects := [([116, 101, 115, 116], [104, 101, 108, 108, 111]),
        ([97], [1, 2]), ([116, 47], [])] } [116] [97]).1 =
        [some { key := [116, 47], size := 0, isDir := true },
          some { key := [116, 101, 115, 116], size := 5, isDir := false }] ∧
      (ceph.ListAll { objects := [([116, 101, 115, 116], [104, 101, 108, 108, 111]),
        ([97], [1, 2]), ([116, 47], [])] } [] [116, 101, 115, 116, 50]).1 = [] := by
  have h := ceph_listAll_keys { objects := [([116, 101, 115, 116], [104, 101, 108, 108, 111]),
    ([97], [1, 2]), ([116, 47], [])] } [] [116, 101, 115, 116, 50] (by decide) rfl rfl
    (fun _ => rfl)
  exact ⟨by decide, h.2.2 (by decide)⟩

/-! ## What the algebra does to each byte -/

theorem covers_append (l1 l2 : List plockRecord) (x t : Nat) :
    Covers (l1 ++ l2) x t ↔ Covers l1 x t ∨ Covers l2 x t := by
  unfold Covers
  constructor
  · rintro ⟨r, hr, h⟩
    rcases List.mem_append.mp hr with hr | hr
    · exact Or.inl ⟨r, hr, h⟩
    · exact Or.inr ⟨r, hr, h⟩
  · rintro (⟨r, hr, h⟩ | ⟨r, hr, h⟩)
    · exact ⟨r, List.mem_append_left _ hr, h⟩
    · exact ⟨r, List.mem_append_right _ hr, h⟩

theorem covers_singleton (n : plockRecord) (x t : Nat) :
    Covers [n] x t ↔ n.start ≤ x ∧ x ≤ n.end_ ∧ n.ltype = t := by
  simp [Covers]

theorem covers_nil (x t : Nat) : ¬ Covers [] x t := by
  simp [Covers]

theorem typeAt_some_covers (ls : List plockRecord) (x t : Nat) (h : typeAt ls x = some t) :
    Covers ls x t := by
  unfold typeAt at h
  cases hf : ls.find? (fun r => decide (r.start ≤ x ∧ x ≤ r.end_)) with
  | none =>
    rw [hf] at h
    exact absurd h (by simp)
  | some r =>
    rw [hf] at h
    simp only [Option.map_some', Option.some.injEq] at h
    have hp := List.find?_some hf
    simp only [decide_eq_true_eq] at hp
    exact ⟨r, List.mem_of_find?_eq_some hf, hp.1, hp.2, h⟩

theorem typeAt_none_iff (ls : List plockRecord) (x : Nat) :
    typeAt ls x = none ↔ ∀ t, ¬ Covers ls x t := by
  unfold typeAt Covers
  rw [Option.map_eq_none', List.find?_eq_none]
  constructor
  · rintro h t ⟨r, hr, h1, h2, _⟩
    exact h r hr (by simp [h1, h2])
  · intro h r hr hc
    simp only [decide_eq_true_eq] at hc
    exact h r.ltype ⟨r, hr, hc.1, hc.2, rfl⟩

/-- When at most one type is held on `x`, `typeAt` is that type. -/
theorem typeAt_eq_some_iff (ls : List plockRecord) (x : Nat)
    (huniq : ∀ t1 t2, Covers ls x t1 → Covers ls x t2 → t1 = t2) (t : Nat) :
    typeAt ls x = some t ↔ Covers ls x t := by
  constructor
  · exact typeAt_some_covers ls x t
  · intro hc
    cases hty : typeAt ls x with
    | none => exact absurd hc ((typeAt_none_iff ls x).mp hty t)
    | some t2 => rw [huniq t t2 hc (typeAt_some_covers ls x t2 hty)]

theorem covers_unique (ls : List plockRecord) (h : WellFormed ls) (x t1 t2 : Nat)
    (h1 : Covers ls x t1) (h2 : Covers ls x t2) : t1 = t2 := by
  obtain ⟨a, ha, a1, a2, rfl⟩ := h1
  obtain ⟨b, hb, b1, b2, rfl⟩ := h2
  by_cases hab : a = b
  · rw [hab]
  · have hsym : ls.Pairwise (fun p q => p.end_ < q.start ∨ q.end_ < p.start) :=
      h.1.imp (fun hpq => Or.inl hpq.1)
    have := hsym.forall (fun p q hpq => hpq.symm) ha hb hab
    omega

theorem covers_removeRange (s e : Nat) (cur : List plockRecord) (x t : Nat) :
    Covers (removeRange s e cur) x t ↔ Covers cur x t ∧ (x < s ∨ e < x) := by
  constructor
  · rintro ⟨p, hp, p1, p2, rfl⟩
    obtain ⟨r, hr, q1, _, q3, q4, q5, _⟩ := mem_removeRange s e cur p hp
    exact ⟨⟨r, hr, by omega, by omega, q1.symm⟩, by omega⟩
  · rintro ⟨⟨r, hr, r1, r2, rfl⟩, hout⟩
    unfold Covers removeRange
    simp only [List.mem_flatMap]
    by_cases hside : r.end_ < s ∨ e < r.start
    · exact ⟨r, ⟨r, hr, by rw [if_pos hside]; simp⟩, r1, r2, rfl⟩
    · rcases hout with hx | hx
      · refine ⟨{ r with end_ := s - 1 }, ⟨r, hr, ?_⟩, r1, ?_, rfl⟩
        · rw [if_neg hside, if_pos (by omega : r.start < s)]
          simp
        · show x ≤ s - 1
          omega
      · refine ⟨{ r with start := e + 1 }, ⟨r, hr, ?_⟩, ?_, r2, rfl⟩
        · rw [if_neg hside, if_pos (by omega : e < r.end_)]
          simp
        · show e + 1 ≤ x
          omega

/-- The types held after a request with start ≤ end: the type of the request on
[start, end] (none after an unlock), and the types held before outside of it. -/
theorem covers_applyRequest (cur : List plockRecord) (nl : plockRecord)
    (hle : ∀ r ∈ cur, r.start ≤ r.end_) (hse : nl.start ≤ nl.end_) (x t : Nat) :
    Covers (applyRequest cur nl) x t ↔
      (nl.ltype ≠ F_UNLCK ∧ nl.start ≤ x ∧ x ≤ nl.end_ ∧ nl.ltype = t) ∨
        (Covers cur x t ∧ (x < nl.start ∨ nl.end_ < x)) := by
  unfold applyRequest
  rw [if_neg (Nat.not_lt.mpr hse)]
  dsimp only
  by_cases hun : nl.ltype = F_UNLCK
  · rw [if_pos hun, covers_removeRange]
    simp [hun]
  rw [if_neg hun, ← covers_removeRange]
  have hrle : ∀ r ∈ removeRange nl.start nl.end_ cur, r.start ≤ r.end_ := by
    intro r hr
    obtain ⟨r0, hr0, _, _, _, _, _, q6⟩ := mem_removeRange nl.start nl.end_ cur r hr
    exact q6 (hle r0 hr0)
  have hsplit : ∀ x t, Covers (removeRange nl.start nl.end_ cur) x t ↔
      Covers ((removeRange nl.start nl.end_ cur).filter
        (fun r => decide (r.end_ < nl.start))) x t ∨
      Covers ((removeRange nl.start nl.end_ cur).filter
        (fun r => decide (nl.end_ < r.start))) x t := by
    intro x t
    constructor
    · rintro ⟨r, hr, h⟩
      obtain ⟨_, _, _, _, _, _, q5, _⟩ := mem_removeRange nl.start nl.end_ cur r hr
      rcases q5 with q5 | q5
      · exact Or.inl ⟨r, List.mem_filter.mpr ⟨hr, by simpa using q5⟩, h⟩
      · exact Or.inr ⟨r, List.mem_filter.mpr ⟨hr, by simpa using q5⟩, h⟩
    · rintro (⟨r, hr, h⟩ | ⟨r, hr, h⟩)
      · exact ⟨r, List.mem_of_mem_filter hr, h⟩
      · exact ⟨r, List.mem_of_mem_filter hr, h⟩
  rw [hsplit]
  have hBside : ∀ a ∈ (removeRange nl.start nl.end_ cur).filter
      (fun r => decide (r.end_ < nl.start)), a.end_ < nl.start := by
    intro a ha
    simpa using (List.mem_filter.mp ha).2
  have hAside : ∀ b ∈ (removeRange nl.start nl.end_ cur).filter
      (fun r => decide (nl.end_ < r.start)), nl.end_ < b.start := by
    intro b hb
    simpa using (List.mem_filter.mp hb).2
  have hBle : ∀ a ∈ (removeRange nl.start nl.end_ cur).filter
      (fun r => decide (r.end_ < nl.start)), a.start ≤ a.end_ :=
    fun a ha => hrle a (List.mem_of_mem_filter ha)
  have hAle : ∀ b ∈ (removeRange nl.start nl.end_ cur).filter
      (fun r => decide (nl.end_ < r.start)), b.start ≤ b.end_ :=
    fun b hb => hrle b (List.mem_of_mem_filter hb)
  generalize (removeRange nl.start nl.end_ cur).filter
    (fun r => decide (r.end_ < nl.start)) = before at hBside hBle ⊢
  generalize (removeRange nl.start nl.end_ cur).filter
    (fun r => decide (nl.end_ < r.start)) = after at hAside hAle ⊢
  have hG : ∀ (B A : List plockRecord) (lo hi : Nat),
      (lo ≤ nl.start ∧ ∀ x t, (Covers B x t ∨ (lo ≤ x ∧ x < nl.start ∧ nl.ltype = t)) ↔
        Covers before x t) →
      (nl.end_ ≤ hi ∧ ∀ x t, (Covers A x t ∨ (nl.end_ < x ∧ x ≤ hi ∧ nl.ltype = t)) ↔
        Covers after x t) →
      (Covers (B ++ [{ nl with start := lo, end_ := hi }] ++ A) x t ↔
        (nl.ltype ≠ F_UNLCK ∧ nl.start ≤ x ∧ x ≤ nl.end_ ∧ nl.ltype = t) ∨
          (Covers before x t ∨ Covers after x t)) := by
    rintro B A lo hi ⟨hlo, hL⟩ ⟨hhi, hR⟩
    rw [covers_append, covers_append, covers_singleton, ← hL x t, ← hR x t]
    show (Covers B x t ∨ (lo ≤ x ∧ x ≤ hi ∧ nl.ltype = t)) ∨ Covers A x t ↔ _
    constructor
    · rintro ((h | ⟨h1, h2, h3⟩) | h)
      · exact Or.inr (Or.inl (Or.inl h))
      · by_cases hx1 : x < nl.start
        · exact Or.inr (Or.inl (Or.inr ⟨h1, hx1, h3⟩))
        · by_cases hx2 : nl.end_ < x
          · exact Or.inr (Or.inr (Or.inr ⟨hx2, h2, h3⟩))
          · exact Or.inl ⟨hun, by omega, by omega, h3⟩
      · exact Or.inr (Or.inr (Or.inl h))
    · rintro (⟨_, h1, h2, h3⟩ | (h | ⟨h1, h2, h3⟩) | (h | ⟨h1, h2, h3⟩))
      · exact Or.inl (Or.inr ⟨by omega, by omega, h3⟩)
      · exact Or.inl (Or.inl h)
      · exact Or.inl (Or.inr ⟨h1, by omega, h3⟩)
      · exact Or.inr h
      · exact Or.inl (Or.inr ⟨by omega, h2, h3⟩)
  have hLkeep : nl.start ≤ nl.start ∧
      ∀ x t, (Covers before x t ∨ (nl.start ≤ x ∧ x < nl.start ∧ nl.ltype = t)) ↔
        Covers before x t := by
    refine ⟨le_refl _, fun x t => ?_⟩
    constructor
    · rintro (h | ⟨h1, h2, _⟩)
      · exact h
      · omega
    · exact Or.inl
  have hLjoin : ∀ p, before.getLast? = some p →
      (p.ltype = nl.ltype ∧ p.end_ + 1 = nl.start) →
      (p.start ≤ nl.start ∧
        ∀ x t, (Covers before.dropLast x t ∨ (p.start ≤ x ∧ x < nl.start ∧ nl.ltype = t)) ↔
          Covers before x t) := by
    intro p hgl hj
    have hdec := List.dropLast_append_getLast? p hgl
    have hp : p ∈ before := by
      rw [← hdec]
      simp
    refine ⟨by have := hBle p hp; omega, fun x t => ?_⟩
    nth_rewrite 2 [← hdec]
    rw [covers_append, covers_singleton, hj.1]
    constructor
    · rintro (h | ⟨h1, h2, h3⟩)
      · exact Or.inl h
      · exact Or.inr ⟨h1, by omega, h3⟩
    · rintro (h | ⟨h1, h2, h3⟩)
      · exact Or.inl h
      · exact Or.inr ⟨h1, by omega, h3⟩
  have hRkeep : nl.end_ ≤ nl.end_ ∧
      ∀ x t, (Covers after x t ∨ (nl.end_ < x ∧ x ≤ nl.end_ ∧ nl.ltype = t)) ↔
        Covers after x t := by
    refine ⟨le_refl _, fun x t => ?_⟩
    constructor
    · rintro (h | ⟨h1, h2, _⟩)
      · exact h
      · omega
    · exact Or.inl
  have hRjoin : ∀ q, after.head? = some q →
      (q.ltype = nl.ltype ∧ nl.end_ + 1 = q.start) →
      (nl.end_ ≤ q.end_ ∧
        ∀ x t, (Covers after.tail x t ∨ (nl.end_ < x ∧ x ≤ q.end_ ∧ nl.ltype = t)) ↔
          Covers after x t) := by
    intro q hhd hj
    have hq : q ∈ after := List.mem_of_mem_head? hhd
    have hdec : after = [q] ++ after.tail := by
      cases after with
      | nil => simp at hhd
      | cons q2 rest =>
        simp only [List.head?_cons, Option.some.injEq] at hhd
        rw [hhd]
        rfl
    refine ⟨by have := hAle q hq; omega, fun x t => ?_⟩
    nth_rewrite 2 [hdec]
    rw [covers_append, covers_singleton, hj.1]
    constructor
    · rintro (h | ⟨h1, h2, h3⟩)
      · exact Or.inr h
      · exact Or.inl ⟨by omega, h2, h3⟩
    · rintro (⟨h1, h2, h3⟩ | h)
      · exact Or.inr ⟨by omega, h2, h3⟩
      · exact Or.inl h
  rcases hgl : before.getLast? with _ | p
  · rcases hhd : after.head? with _ | q
    · simpa using hG _ _ _ _ hLkeep hRkeep
    · by_cases hk : q.ltype = nl.ltype ∧ nl.end_ + 1 = q.start
      · simpa [hk] using hG _ _ _ _ hLkeep (hRjoin q hhd hk)
      · simpa [hk] using hG _ _ _ _ hLkeep hRkeep
  · by_cases hj : p.ltype = nl.ltype ∧ p.end_ + 1 = nl.start
    · have hL := hLjoin p hgl hj
      rcases hhd : after.head? with _ | q
      · simpa [hj] using hG _ _ _ _ hL hRkeep
      · by_cases hk : q.ltype = nl.ltype ∧ nl.end_ + 1 = q.start
        · simpa [hj, hk] using hG _ _ _ _ hL (hRjoin q hhd hk)
        · simpa [hj, hk] using hG _ _ _ _ hL hRkeep
    · rcases hhd : after.head? with _ | q
      · simpa [hj] using hG _ _ _ _ hLkeep hRkeep
      · by_cases hk : q.ltype = nl.ltype ∧ nl.end_ + 1 = q.start
        · simpa [hj, hk] using hG _ _ _ _ hLkeep (hRjoin q hhd hk)
        · simpa [hj, hk] using hG _ _ _ _ hLkeep hRkeep

theorem covers_applyRequest_unique (cur : List plockRecord) (nl : plockRecord)
    (h : WellFormed cur) (hse : nl.start ≤ nl.end_) (x t1 t2 : Nat)
    (h1 : Covers (applyRequest cur nl) x t1) (h2 : Covers (applyRequest cur nl) x t2) :
    t1 = t2 := by
  rw [covers_applyRequest cur nl h.2 hse] at h1 h2
  rcases h1 with ⟨_, a1, a2, a3⟩ | ⟨a1, a2⟩
  · rcases h2 with ⟨_, b1, b2, b3⟩ | ⟨b1, b2⟩
    · rw [← a3, ← b3]
    · omega
  · rcases h2 with ⟨_, b1, b2, b3⟩ | ⟨b1, b2⟩
    · omega
    · exact covers_unique cur h x t1 t2 a1 b1

/-- C21: for a well-formed record list `cur` and a request with start ≤ end, the
list that the algebra gives holds on each byte offset `x` of [start, end] the type
of the request (nothing after an unlock), and on each other offset what `cur`
holds there. -/
theorem algebra_coverage (cur : List plockRecord) (nl : plockRecord) (h : WellFormed cur)
    (hse : nl.start ≤ nl.end_) (x : Nat) :
    typeAt (specOps.updateLocks cur nl) x =
      if nl.start ≤ x ∧ x ≤ nl.end_ then (if nl.ltype = F_UNLCK then none else some nl.ltype)
      else typeAt cur x := by
  show typeAt (applyRequest cur nl) x = _
  have huniq := covers_applyRequest_unique cur nl h hse x
  by_cases hin : nl.start ≤ x ∧ x ≤ nl.end_
  · rw [if_pos hin]
    by_cases hun : nl.ltype = F_UNLCK
    · rw [if_pos hun, typeAt_none_iff]
      intro t hc
      rw [covers_applyRequest cur nl h.2 hse] at hc
      rcases hc with ⟨hne, _⟩ | ⟨_, hout⟩
      · exact hne hun
      · omega
    · rw [if_neg hun, typeAt_eq_some_iff _ x huniq, covers_applyRequest cur nl h.2 hse]
      exact Or.inl ⟨hun, hin.1, hin.2, rfl⟩
  · rw [if_neg hin]
    apply Option.ext
    intro t
    rw [Option.mem_def, Option.mem_def, typeAt_eq_some_iff _ x huniq,
      typeAt_eq_some_iff _ x (covers_unique cur h x), covers_applyRequest cur nl h.2 hse]
    constructor
    · rintro (⟨_, a1, a2, _⟩ | ⟨a1, _⟩)
      · exact absurd ⟨a1, a2⟩ hin
      · exact a1
    · intro hc
      exact Or.inr ⟨hc, by omega⟩

theorem algebra_coverage_witness :
    specOps.updateLocks [⟨F_RDLCK, 42, 0, 199⟩] ⟨F_WRLCK, 42, 50, 99⟩ =
        [⟨F_RDLCK, 42, 0, 49⟩, ⟨F_WRLCK, 42, 50, 99⟩, ⟨F_RDLCK, 42, 100, 199⟩] ∧
      typeAt (specOps.updateLocks [⟨F_RDLCK, 42, 0, 199⟩] ⟨F_WRLCK, 42, 50, 99⟩) 75 =
        some F_WRLCK ∧
      typeAt (specOps.updateLocks [⟨F_RDLCK, 42, 0, 199⟩] ⟨F_WRLCK, 42, 50, 99⟩) 150 =
        typeAt [⟨F_RDLCK, 42, 0, 199⟩] 150 := by
  have hwf : WellFormed [(⟨F_RDLCK, 42, 0, 199⟩ : plockRecord)] :=
    ⟨List.pairwise_singleton _ _, by simp⟩
  refine ⟨by decide, ?_, ?_⟩
  · rw [algebra_coverage [⟨F_RDLCK, 42, 0, 199⟩] ⟨F_WRLCK, 42, 50, 99⟩ hwf (by decide) 75]
    decide
  · rw [algebra_coverage [⟨F_RDLCK, 42, 0, 199⟩] ⟨F_WRLCK, 42, 50, 99⟩ hwf (by decide) 150]
    decide

/-! ## Records of different holders -/

/-- Each byte of a record of the new list lies in the range of a lock request and
has its type, or was held with the same type before. -/
theorem covers_applyRequest_imp (cur : List plockRecord) (nl : plockRecord)
    (hle : ∀ r ∈ cur, r.start ≤ r.end_) :
    ∀ a ∈ applyRequest cur nl, ∀ x, a.start ≤ x → x ≤ a.end_ →
      (nl.ltype ≠ F_UNLCK ∧ nl.start ≤ x ∧ x ≤ nl.end_ ∧ a.ltype = nl.ltype) ∨
        ∃ b ∈ cur, b.start ≤ x ∧ x ≤ b.end_ ∧ b.ltype = a.ltype := by
  intro a ha x h1 h2
  by_cases hse : nl.end_ < nl.start
  · unfold applyRequest at ha
    rw [if_pos hse] at ha
    exact Or.inr ⟨a, ha, h1, h2, rfl⟩
  · have hc : Covers (applyRequest cur nl) x a.ltype := ⟨a, ha, h1, h2, rfl⟩
    rw [covers_applyRequest cur nl hle (Nat.le_of_not_lt hse)] at hc
    rcases hc with ⟨c1, c2, c3, c4⟩ | ⟨c1, _⟩
    · exact Or.inl ⟨c1, c2, c3, c4.symm⟩
    · exact Or.inr c1

/-- The blob written by a read, write or unlock request is well kept, if the blob
it was computed from is empty or well kept. -/
theorem wellKept_step (mine : List Nat) (nl : plockRecord) (hnl : FitsFields nl)
    (hty : nl.ltype = F_RDLCK ∨ nl.ltype = F_WRLCK ∨ nl.ltype = F_UNLCK)
    (h : mine = [] ∨ WellKept mine) :
    WellKept (specOps.dumpLocks (specOps.updateLocks (specOps.loadLocks mine) nl)) := by
  show WellKept (encodeRecords (applyRequest (decodeRecords mine) nl))
  have hcur : WellFormed (decodeRecords mine) ∧ (∀ r ∈ decodeRecords mine, FitsFields r) ∧
      ∀ r ∈ decodeRecords mine, r.ltype = F_RDLCK ∨ r.ltype = F_WRLCK := by
    rcases h with rfl | ⟨ls, rfl, hw, hf, ht⟩
    · have : decodeRecords [] = [] := rfl
      rw [this]
      exact ⟨⟨List.Pairwise.nil, by simp⟩, by simp, by simp⟩
    · rw [decodeRecords_encodeRecords ls hf]
      exact ⟨hw, hf, ht⟩
  have hres := wellFormed_applyRequest (decodeRecords mine) nl hcur.1 hcur.2.1 hnl
  refine ⟨_, rfl, hres.1, hres.2, ?_⟩
  intro a ha
  rcases covers_applyRequest_imp (decodeRecords mine) nl hcur.1.2 a ha a.start (le_refl _)
    (hres.1.2 a ha) with ⟨c1, _, _, c4⟩ | ⟨b, hb, _, _, b3⟩
  · rw [c4]
    rcases hty with h | h | h
    · exact Or.inl h
    · exact Or.inr h
    · exact absurd h c1
  · rw [← b3]
    exact hcur.2.2 b hb

theorem wellKept_decode (recs : List Nat) (h : WellKept recs) :
    WellFormed (decodeRecords recs) ∧ (∀ r ∈ decodeRecords recs, FitsFields r) ∧
      ∀ r ∈ decodeRecords recs, r.ltype = F_RDLCK ∨ r.ltype = F_WRLCK := by
  obtain ⟨ls, rfl, hw, hf, ht⟩ := h
  rw [decodeRecords_encodeRecords ls hf]
  exact ⟨hw, hf, ht⟩

theorem compatible_of_subset (ops : RecordOps) (t t1 : List plock) (hsub : ∀ r ∈ t1, r ∈ t)
    (h : Compatible ops t) : Compatible ops t1 :=
  fun r1 h1 r2 h2 => h r1 (hsub r1 h1) r2 (hsub r2 h2)

/-- The table after one holder's row has been written: the new records lie in the
range of the request, which met no conflict, or where the holder had records of
the same type before. -/
theorem compatible_step (t t1 : List plock) (inode : Ino) (sid : Nat) (owner : Int)
    (ltype start end_ : Nat) (news : List plockRecord)
    (hlt : ltype = F_RDLCK ∨ ltype = F_WRLCK ∨ ltype = F_UNLCK)
    (hA : ∀ r ∈ t1, r ∈ t ∨
      (r.inode = inode ∧ r.sid = sid ∧ r.owner = owner ∧ decodeRecords r.records = news))
    (hB : ∀ a ∈ news, ∀ x, a.start ≤ x → x ≤ a.end_ →
      (ltype ≠ F_UNLCK ∧ start ≤ x ∧ x ≤ end_ ∧ a.ltype = ltype) ∨
        ∃ r0 ∈ t, r0.inode = inode ∧ r0.sid = sid ∧ r0.owner = owner ∧
          ∃ b ∈ decodeRecords r0.records, b.start ≤ x ∧ x ≤ b.end_ ∧ b.ltype = a.ltype)
    (hC : ltype ≠ F_UNLCK → ∀ r ∈ t, r.inode = inode → (r.sid, r.owner) ≠ (sid, owner) →
      ∀ b ∈ decodeRecords r.records, conflicted ltype start end_ b = false)
    (hD : ∀ r ∈ t, ∀ b ∈ decodeRecords r.records,
      b.start ≤ b.end_ ∧ (b.ltype = F_RDLCK ∨ b.ltype = F_WRLCK))
    (hN : ∀ a ∈ news, a.start ≤ a.end_)
    (hE : Compatible specOps t) : Compatible specOps t1 := by
  have half : ∀ r2 ∈ t, r2.inode = inode → (r2.sid, r2.owner) ≠ (sid, owner) →
      ∀ a ∈ news, ∀ b ∈ decodeRecords r2.records, a.start ≤ b.end_ → b.start ≤ a.end_ →
        a.ltype = F_RDLCK ∧ b.ltype = F_RDLCK := by
    intro r2 hr2 hi hk a ha b hb hab hba
    have hbw := hD r2 hr2 b hb
    have haw := hN a ha
    have hx1 : a.start ≤ max a.start b.start := le_max_left _ _
    have hx2 : b.start ≤ max a.start b.start := le_max_right _ _
    have hx3 : max a.start b.start ≤ a.end_ := max_le haw hba
    have hx4 : max a.start b.start ≤ b.end_ := max_le hab hbw.1
    rcases hB a ha (max a.start b.start) hx1 hx3 with
      ⟨c1, c2, c3, c4⟩ | ⟨r0, hr0, k1, k2, k3, a0, ha0, d1, d2, d3⟩
    · have hno := hC c1 r2 hr2 hi hk b hb
      have hnot : ¬ ((ltype = F_WRLCK ∨ b.ltype = F_WRLCK) ∧ end_ ≥ b.start ∧ start ≤ b.end_) := by
        rw [← conflicted_iff, hno]
        simp
      have hnw : ¬ (ltype = F_WRLCK ∨ b.ltype = F_WRLCK) := by
        intro hw
        exact hnot ⟨hw, by omega, by omega⟩
      push_neg at hnw
      constructor
      · rw [c4]
        rcases hlt with h | h | h
        · exact h
        · exact absurd h hnw.1
        · exact absurd h c1
      · rcases hbw.2 with h | h
        · exact h
        · exact absurd h hnw.2
    · have := hE r0 hr0 r2 hr2 (by rw [k1, hi]) (by rw [k2, k3]; exact fun h => hk h.symm)
        a0 ha0 b hb (by omega) (by omega)
      exact ⟨by rw [← d3]; exact this.1, this.2⟩
  intro r1 h1 r2 h2 hino hkey a ha b hb hab hba
  rcases hA r1 h1 with g1 | ⟨i1, s1, o1, n1⟩
  · rcases hA r2 h2 with g2 | ⟨i2, s2, o2, n2⟩
    · exact hE r1 g1 r2 g2 hino hkey a ha b hb hab hba
    · have hb2 : b ∈ news := by rw [← n2]; exact hb
      have := half r1 g1 (by rw [hino, i2]) (by rw [← s2, ← o2]; exact hkey) b hb2 a ha hba hab
      exact ⟨this.2, this.1⟩
  · have ha2 : a ∈ news := by rw [← n1]; exact ha
    rcases hA r2 h2 with g2 | ⟨i2, s2, o2, n2⟩
    · exact half r2 g2 (by rw [← hino, i1]) (by rw [← s1, ← o1]; exact fun h => hkey h.symm)
        a ha2 b hb hab hba
    · exact absurd (by rw [s1, o1, s2, o2]) hkey

theorem rows_updatePlockRecords_key (f : Faults) (records : List Nat) (cond : plock → Bool)
    (db : DB) :
    ∀ r1 ∈ (updatePlockRecords f records cond db).2.2.plocks,
      r1 ∈ db.plocks ∨ ∃ r ∈ db.plocks, cond r = true ∧ r1 = { r with records := records } := by
  intro r hr
  unfold updatePlockRecords at hr
  cases hw : f.write with
  | some msg => exact Or.inl (by simpa [hw] using hr)
  | none =>
    cases hz : f.zeroRows with
    | true => exact Or.inl (by simpa [hw, hz] using hr)
    | false =>
      simp only [hw, hz, Bool.false_eq_true, if_false, List.mem_map] at hr
      obtain ⟨r0, hr0, rfl⟩ := hr
      by_cases hc : cond r0 = true
      · right
        exact ⟨r0, hr0, hc, by rw [if_pos hc]⟩
      · left
        rw [if_neg hc]
        exact hr0

/-- The blob of the caller in the local map of `Setlk` is empty or the blob of a
row of the caller. -/
theorem mine_row (ps : List plock) (k : key) :
    (mapGet (plockMap ps) k).getD [] = [] ∨
      ∃ l ∈ ps, (l.sid, l.owner) = k ∧ l.records = (mapGet (plockMap ps) k).getD [] := by
  unfold mapGet
  cases hf : (plockMap ps).find? (fun p => decide (p.1 = k)) with
  | none => left; rfl
  | some p =>
    right
    obtain ⟨l, hl, rfl⟩ := plockMap_mem _ p (List.mem_of_find?_eq_some hf)
    have hk := List.find?_some hf
    simp only [decide_eq_true_eq] at hk
    exact ⟨l, hl, hk, rfl⟩

/-- An attempt of `Setlk` keeps the records of different holders apart. -/
theorem setlkAttempt_compatible (m : dbMeta) (f : Faults) (inode : Ino) (owner : Int)
    (ltype start end_ pid : Nat) (db : DB) (hok : LockRequest ltype start end_ pid)
    (hu : PlockKeysUnique db.plocks) (hrows : ∀ r ∈ db.plocks, WellKept r.records)
    (hE : Compatible specOps db.plocks) :
    Compatible specOps
      (setlkAttempt specOps m f inode owner ltype start end_ pid db).2.plocks := by
  obtain ⟨hlt, hfit⟩ := hok
  have hnl : FitsFields { ltype := ltype, pid := pid, start := start, end_ := end_ } := hfit
  have hD : ∀ r ∈ db.plocks, ∀ b ∈ decodeRecords r.records,
      b.start ≤ b.end_ ∧ (b.ltype = F_RDLCK ∨ b.ltype = F_WRLCK) := by
    intro r hr b hb
    have := wellKept_decode r.records (hrows r hr)
    exact ⟨this.1.2 b hb, this.2.2 b hb⟩
  -- the row written from the records `cur` of the caller
  have hwrite : ∀ (t1 : List plock) (cur : List plockRecord),
      WellFormed cur → (∀ r ∈ cur, FitsFields r) →
      (∀ b ∈ cur, ∃ r0 ∈ db.plocks, r0.inode = inode ∧ r0.sid = m.sid ∧ r0.owner = owner ∧
        b ∈ decodeRecords r0.records) →
      (ltype ≠ F_UNLCK → ∀ r ∈ db.plocks, r.inode = inode →
        (r.sid, r.owner) ≠ (m.sid, owner) →
        ∀ b ∈ decodeRecords r.records, conflicted ltype start end_ b = false) →
      (∀ r ∈ t1, r ∈ db.plocks ∨
        (r.inode = inode ∧ r.sid = m.sid ∧ r.owner = owner ∧
          r.records = encodeRecords (applyRequest cur
            { ltype := ltype, pid := pid, start := start, end_ := end_ }))) →
      Compatible specOps t1 := by
    intro t1 cur hwf hcf hcur hC hA
    have hres := wellFormed_applyRequest cur
      { ltype := ltype, pid := pid, start := start, end_ := end_ } hwf hcf hnl
    apply compatible_step db.plocks t1 inode m.sid owner ltype start end_
      (applyRequest cur { ltype := ltype, pid := pid, start := start, end_ := end_ }) hlt
      _ _ hC hD hres.1.2 hE
    · intro r hr
      rcases hA r hr with h | ⟨h1, h2, h3, h4⟩
      · exact Or.inl h
      · exact Or.inr ⟨h1, h2, h3, by rw [h4, decodeRecords_encodeRecords _ hres.2]⟩
    · intro a ha x hx1 hx2
      rcases covers_applyRequest_imp cur _ hwf.2 a ha x hx1 hx2 with h | ⟨b, hb, b1, b2, b3⟩
      · exact Or.inl h
      · obtain ⟨r0, hr0, k1, k2, k3, hb0⟩ := hcur b hb
        exact Or.inr ⟨r0, hr0, k1, k2, k3, b, hb0, b1, b2, b3⟩
  unfold setlkAttempt
  dsimp only
  split
  · exact hE
  · exact hE
  · split
    · rename_i hl
      split
      · exact hE
      · exact hE
      · rename_i x l hgp
        have hfind : db.plocks.find? (samePlock inode m.sid owner) = some l := by
          unfold getPlock at hgp
          cases hfi : f.find with
          | some msg => simp [hfi] at hgp
          | none =>
            simp only [hfi, Prod.mk.injEq, and_true] at hgp
            exact hgp
        have hlmem : l ∈ db.plocks := List.mem_of_find?_eq_some hfind
        have hsame := List.find?_some hfind
        simp only [samePlock, decide_eq_true_eq] at hsame
        split
        · exact hE
        · split
          · exact compatible_of_subset specOps db.plocks _
              (fun r hr => rows_deletePlock _ _ _ _ _ r hr) hE
          · have hk := wellKept_decode l.records (hrows l hlmem)
            apply hwrite _ (decodeRecords l.records) hk.1 hk.2.1
            · intro b hb
              exact ⟨l, hlmem, hsame.1, hsame.2.1, hsame.2.2, hb⟩
            · intro hne
              exact absurd hl hne
            · intro r1 hr1
              rcases rows_updatePlockRecords_key _ _ _ _ r1 hr1 with h | ⟨r, hr, hc, rfl⟩
              · exact Or.inl h
              · simp only [decide_eq_true_eq] at hc
                subst hc
                exact Or.inr ⟨hsame.1, hsame.2.1, hsame.2.2, rfl⟩
    · rename_i hl
      split
      · exact hE
      · rename_i x ps hfp
        have hps : ps = db.plocks.filter (fun r => decide (r.inode = inode)) := by
          unfold findPlocks at hfp
          cases hfi : f.find with
          | some msg => simp [hfi] at hfp
          | none =>
            simp only [hfi, Prod.mk.injEq, and_true] at hfp
            exact hfp.symm
        split
        · exact hE
        · rename_i hno
          rw [checkAffected_snd]
          have hC : ltype ≠ F_UNLCK → ∀ r ∈ db.plocks, r.inode = inode →
              (r.sid, r.owner) ≠ (m.sid, owner) →
              ∀ b ∈ decodeRecords r.records, conflicted ltype start end_ b = false := by
            intro _ r hr hi hk b hb
            by_contra hcf
            apply hno
            rw [hps, setlk_scan_iff specOps db.plocks hu inode (m.sid, owner) ltype start end_]
            exact ⟨r, hr, hi, hk, b, hb, by simpa using hcf⟩
          have hm := mine_row ps (m.sid, owner)
          generalize (mapGet (plockMap ps) (m.sid, owner)).getD [] = mine at hm ⊢
          have hcur : WellFormed (decodeRecords mine) ∧
              (∀ r ∈ decodeRecords mine, FitsFields r) ∧
              ∀ b ∈ decodeRecords mine, ∃ r0 ∈ db.plocks, r0.inode = inode ∧
                r0.sid = m.sid ∧ r0.owner = owner ∧ b ∈ decodeRecords r0.records := by
            rcases hm with rfl | ⟨l0, hl0, hk0, hrec⟩
            · have : decodeRecords [] = [] := rfl
              rw [this]
              exact ⟨⟨List.Pairwise.nil, by simp⟩, by simp, by simp⟩
            · rw [hps, List.mem_filter] at hl0
              have hi0 : l0.inode = inode := by simpa using hl0.2
              have hk := wellKept_decode l0.records (hrows l0 hl0.1)
              simp only [Prod.mk.injEq] at hk0
              rw [← hrec]
              exact ⟨hk.1, hk.2.1, fun b hb => ⟨l0, hl0.1, hi0, hk0.1, hk0.2, hb⟩⟩
          split
          · apply hwrite _ (decodeRecords mine) hcur.1 hcur.2.1 hcur.2.2 hC
            intro r1 hr1
            rcases rows_updatePlockRecords_key _ _ _ _ r1 hr1 with h | ⟨r, hr, hc, rfl⟩
            · exact Or.inl h
            · simp only [samePlock, decide_eq_true_eq] at hc
              exact Or.inr ⟨hc.1, hc.2.1, hc.2.2, rfl⟩
          · apply hwrite _ (decodeRecords mine) hcur.1 hcur.2.1 hcur.2.2 hC
            intro r1 hr1
            rcases rows_insertOnePlock _ _ _ r1 hr1 with h | rfl
            · exact Or.inl h
            · exact Or.inr ⟨rfl, rfl, rfl, rfl⟩

/-- What every attempt keeps, a call of `Setlk` that returns keeps. -/
theorem setlkLoop_inv (ops : RecordOps) (I : DB → Prop) (m : dbMeta) (store : Nat → Faults)
    (ctx : Context) (inode : Ino) (owner : Int) (block : Bool) (ltype start end_ pid : Nat)
    (hstep : ∀ k db, I db →
      I (setlkAttempt ops m (store k) inode owner ltype start end_ pid db).2)
    (fuel k : Nat) (db : DB) (err : Errno) (db1 : DB)
    (hcall : setlkLoop ops m store ctx inode owner block ltype start end_ pid fuel k db =
      some (err, db1))
    (h : I db) : I db1 := by
  induction fuel generalizing k db with
  | zero => simp [setlkLoop] at hcall
  | succ n ih =>
    have hp : I (txn (setlkAttempt ops m (store k) inode owner ltype start end_ pid) db).2 := by
      have ha := hstep k db h
      unfold txn
      rcases hx : setlkAttempt ops m (store k) inode owner ltype start end_ pid db with
        ⟨_ | e, d⟩
      · rw [hx] at ha; exact ha
      · exact h
    simp only [setlkLoop] at hcall
    split at hcall
    · simp only [Option.some.injEq, Prod.mk.injEq] at hcall
      rw [← hcall.2]
      exact hp
    · split at hcall
      · simp only [Option.some.injEq, Prod.mk.injEq] at hcall
        rw [← hcall.2]
        exact hp
      · exact ih _ _ hcall hp

theorem setlkReachableBy_inv (db : DB) (h : SetlkReachableBy specOps LockRequest db) :
    PlockKeysUnique db.plocks ∧ (∀ r ∈ db.plocks, WellKept r.records) ∧
      Compatible specOps db.plocks := by
  induction h with
  | init nodes flocks =>
    exact ⟨by simp [PlockKeysUnique], by simp, fun r1 h1 => by simp at h1⟩
  | call m store ctx inode owner_ block ltype start end_ pid fuel err _ hok hcall ih =>
    unfold Setlk at hcall
    apply setlkLoop_inv specOps
      (fun d => PlockKeysUnique d.plocks ∧ (∀ r ∈ d.plocks, WellKept r.records) ∧
        Compatible specOps d.plocks)
      m store ctx inode _ block ltype start end_ pid _ fuel 0 _ err _ hcall ih
    intro k d hI
    refine ⟨setlkAttempt_unique specOps m (store k) inode _ ltype start end_ pid d hI.1,
      setlkAttempt_rows specOps WellKept m (store k) inode _ ltype start end_ pid d
        (fun _ mine hm => wellKept_step mine _ hok.2 hok.1 hm)
        (fun _ recs hr _ => wellKept_step recs _ hok.2 hok.1 (Or.inr hr)) hI.2.1,
      setlkAttempt_compatible m (store k) inode _ ltype start end_ pid d hok hI.1 hI.2.1 hI.2.2⟩
  | other _ heq ih =>
    rw [heq]
    exact ih

/-- C25: in every state reached from an empty byte-range table by `Setlk` calls
with read, write and unlock requests, with the codec and the algebra of sections
4.1 and 4.2, two records of rows of one inode that belong to different (sid,
owner) holders meet only if both are read locks. -/
theorem setlk_holders_compatible (db : DB)
    (h : SetlkReachableBy specOps LockRequest db) :
    ∀ r1 ∈ db.plocks, ∀ r2 ∈ db.plocks, r1.inode = r2.inode →
      (r1.sid, r1.owner) ≠ (r2.sid, r2.owner) →
      ∀ a ∈ specOps.loadLocks r1.records, ∀ b ∈ specOps.loadLocks r2.records,
        a.start ≤ b.end_ → b.start ≤ a.end_ → a.ltype = F_RDLCK ∧ b.ltype = F_RDLCK :=
  (setlkReachableBy_inv db h).2.2

theorem setlk_holders_compatible_witness :
    SetlkReachableBy specOps LockRequest
        ⟨[5], [], [⟨5, 1, 7, encodeRecords [⟨F_RDLCK, 42, 0, 99⟩]⟩,
          ⟨5, 2, 8, encodeRecords [⟨F_RDLCK, 43, 50, 149⟩]⟩]⟩ ∧
      Setlk specOps ⟨2⟩ healthy background 5 8 false F_WRLCK 120 149 43 1
          ⟨[5], [], [⟨5, 1, 7, encodeRecords [⟨F_RDLCK, 42, 0, 99⟩]⟩,
            ⟨5, 2, 8, encodeRecords [⟨F_RDLCK, 43, 50, 149⟩]⟩]⟩ =
        some (0, ⟨[5], [], [⟨5, 1, 7, encodeRecords [⟨F_RDLCK, 42, 0, 99⟩]⟩,
          ⟨5, 2, 8, encodeRecords [⟨F_RDLCK, 43, 50, 119⟩, ⟨F_WRLCK, 43, 120, 149⟩]⟩]⟩) ∧
      ∀ r1 ∈ [(⟨5, 1, 7, encodeRecords [⟨F_RDLCK, 42, 0, 99⟩]⟩ : plock),
          ⟨5, 2, 8, encodeRecords [⟨F_RDLCK, 43, 50, 119⟩, ⟨F_WRLCK, 43, 120, 149⟩]⟩],
        ∀ r2 ∈ [(⟨5, 1, 7, encodeRecords [⟨F_RDLCK, 42, 0, 99⟩]⟩ : plock),
          ⟨5, 2, 8, encodeRecords [⟨F_RDLCK, 43, 50, 119⟩, ⟨F_WRLCK, 43, 120, 149⟩]⟩],
        r1.inode = r2.inode → (r1.sid, r1.owner) ≠ (r2.sid, r2.owner) →
        ∀ a ∈ specOps.loadLocks r1.records, ∀ b ∈ specOps.loadLocks r2.records,
          a.start ≤ b.end_ → b.start ≤ a.end_ → a.ltype = F_RDLCK ∧ b.ltype = F_RDLCK := by
  have h1 : SetlkReachableBy specOps LockRequest
      ⟨[5], [], [⟨5, 1, 7, encodeRecords [⟨F_RDLCK, 42, 0, 99⟩]⟩]⟩ :=
    SetlkReachableBy.call ⟨1⟩ healthy background 5 7 false F_RDLCK 0 99 42 1 0
      (SetlkReachableBy.init [5] [])
      (by simp [LockRequest, FitsRequest, FitsFields, F_RDLCK]) (by decide)
  have h2 : SetlkReachableBy specOps LockRequest
      ⟨[5], [], [⟨5, 1, 7, encodeRecords [⟨F_RDLCK, 42, 0, 99⟩]⟩,
        ⟨5, 2, 8, encodeRecords [⟨F_RDLCK, 43, 50, 149⟩]⟩]⟩ :=
    SetlkReachableBy.call ⟨2⟩ healthy background 5 8 false F_RDLCK 50 149 43 1 0 h1
      (by simp [LockRequest, FitsRequest, FitsFields, F_RDLCK]) (by decide)
  have hcall : Setlk specOps ⟨2⟩ healthy background 5 8 false F_WRLCK 120 149 43 1
      ⟨[5], [], [⟨5, 1, 7, encodeRecords [⟨F_RDLCK, 42, 0, 99⟩]⟩,
        ⟨5, 2, 8, encodeRecords [⟨F_RDLCK, 43, 50, 149⟩]⟩]⟩ =
      some (0, ⟨[5], [], [⟨5, 1, 7, encodeRecords [⟨F_RDLCK, 42, 0, 99⟩]⟩,
        ⟨5, 2, 8, encodeRecords [⟨F_RDLCK, 43, 50, 119⟩, ⟨F_WRLCK, 43, 120, 149⟩]⟩]⟩) := by
    decide
  have h3 : SetlkReachableBy specOps LockRequest
      ⟨[5], [], [⟨5, 1, 7, encodeRecords [⟨F_RDLCK, 42, 0, 99⟩]⟩,
        ⟨5, 2, 8, encodeRecords [⟨F_RDLCK, 43, 50, 119⟩, ⟨F_WRLCK, 43, 120, 149⟩]⟩]⟩ :=
    SetlkReachableBy.call ⟨2⟩ healthy background 5 8 false F_WRLCK 120 149 43 1 0 h2
      (by simp [LockRequest, FitsRequest, FitsFields, F_WRLCK, F_RDLCK, F_UNLCK]) hcall
  exact ⟨h2, hcall, setlk_holders_compatible _ h3⟩

/-! ## A row that is left empty -/

/-- C16: holder (1, 7) has no byte-range row on inode 5 and asks for a write lock
with start = 10 and end = 5. The request meets no conflict, `updateLocks` (the
algebra of section 4.2, for which this range is empty) gives the empty list, and
lines 212-219 insert the row without looking at `len(ls)`: the table, reached from
the empty one by this `Setlk` call, has a row with an empty record list. The
unlock branch tests `len(ls) == 0` before and after `updateLocks` (lines 175 and
179); on this row it returns at the first test and leaves the row where it is. -/
theorem setlk_empty_range_stores_empty_row :
    Setlk specOps ⟨1⟩ healthy background 5 7 false F_WRLCK 10 5 42 1 ⟨[5], [], []⟩ =
        some (0, ⟨[5], [], [⟨5, 1, 7, []⟩]⟩) ∧
      SetlkReachableBy specOps LockRequest ⟨[5], [], [⟨5, 1, 7, []⟩]⟩ ∧
      specOps.loadLocks [] = [] ∧
      Setlk specOps ⟨1⟩ healthy background 5 7 false F_UNLCK 0 18446744073709551615 42 1
          ⟨[5], [], [⟨5, 1, 7, []⟩]⟩ =
        some (0, ⟨[5], [], [⟨5, 1, 7, []⟩]⟩) := by
  have hcall : Setlk specOps ⟨1⟩ healthy background 5 7 false F_WRLCK 10 5 42 1
      ⟨[5], [], []⟩ = some (0, ⟨[5], [], [⟨5, 1, 7, []⟩]⟩) := by
    decide
  refine ⟨hcall, ?_, rfl, by decide⟩
  exact SetlkReachableBy.call ⟨1⟩ healthy background 5 7 false F_WRLCK 10 5 42 1 0
    (SetlkReachableBy.init [5] [])
    (by simp [LockRequest, FitsRequest, FitsFields, F_WRLCK, F_RDLCK, F_UNLCK]) hcall

end JuiceFS
